import Mathlib

/-!
# srsRAN timing and telemetry core: embedding and verification

Shallow embedding of

* `lib/include/srsran/common/common.h`   (TTI ring macros, enum helpers, fast-math
  classification of bit patterns),
* `lib/include/srsran/radio/rf_timestamp.h` (per-channel timestamps, `fix`, `tostring`),
* `srsue/hdr/phy/phy_metrics.h`          (cumulative-average metric records).

Conventions.

* The TTI macros are untyped.  They are embedded twice: on `Int` with C's truncating
  remainder (`Int.tmod`) for `int` operands, and on `Nat` with explicit reduction
  modulo `2 ^ 32` for `uint32_t` operands (names ending in `_u32`).
* A finite `double` is carried as the rational number it denotes; every arithmetic
  operation of `fix` is followed by `rnd64`, round-to-nearest-even on a 53 bit
  significand.  Signed integer overflow and the conversion of an out-of-range `double`
  to `int` are undefined in C++ and lie outside the embedding.
* The `float` fields of the metric records are carried as `Flt`: the rational number a
  finite binary32 value denotes, or one of NaN, +inf, -inf.  Every `float` operation is
  followed by `rnd32`, round-to-nearest-even on a 24 bit significand, and overflows to an
  infinity.  The averaging macro `SRSRAN_VEC_SAFE_CMA` is not part of the sources; it is
  taken from the formula the specification gives for it, evaluated in `float`.
-/

namespace Srsran

/-! ## Ring timing macros (`common.h`, lines 49-64) -/

/-- Macro `#define FDD_HARQ_DELAY_DL_MS 4`. -/
def FDD_HARQ_DELAY_DL_MS : Int := 4

/-- Macro `#define FDD_HARQ_DELAY_UL_MS 4`. -/
def FDD_HARQ_DELAY_UL_MS : Int := 4

/-- Macro `#define INVALID_TTI 10241`. -/
def INVALID_TTI : Int := 10241

/-- Macro `#define TTI_SUB(a, b) ((((a) + 10240) - (b)) % 10240)` on `int` operands:
C's `%` truncates towards zero, which is `Int.tmod`. -/
def TTI_SUB (a b : Int) : Int := Int.tmod ((a + 10240) - b) 10240

/-- Macro `#define TTI_ADD(a, b) (((a) + (b)) % 10240)` on `int` operands. -/
def TTI_ADD (a b : Int) : Int := Int.tmod (a + b) 10240

/-- Macro `#define TTI_TX(tti) TTI_ADD(tti, FDD_HARQ_DELAY_DL_MS)`. -/
def TTI_TX (tti : Int) : Int := TTI_ADD tti FDD_HARQ_DELAY_DL_MS

/-- Macro `#define TTI_RX(tti) (TTI_SUB(tti, FDD_HARQ_DELAY_UL_MS))`. -/
def TTI_RX (tti : Int) : Int := TTI_SUB tti FDD_HARQ_DELAY_UL_MS

/-- Macro `#define TTI_RX_ACK(tti) (TTI_ADD(tti, FDD_HARQ_DELAY_UL_MS + FDD_HARQ_DELAY_DL_MS))`. -/
def TTI_RX_ACK (tti : Int) : Int := TTI_ADD tti (FDD_HARQ_DELAY_UL_MS + FDD_HARQ_DELAY_DL_MS)

/-- Value of an integer expression once stored in a `uint32_t`: reduction modulo `2 ^ 32`. -/
def u32 (n : Int) : Nat := (n % 2 ^ 32).toNat

/-- Macro `TTI_SUB` on `uint32_t` operands: the sum and the difference wrap modulo `2 ^ 32`
before the remainder is taken. -/
def TTI_SUB_u32 (a b : Nat) : Nat := u32 ((u32 ((a : Int) + 10240) : Int) - b) % 10240

/-- Macro `TTI_ADD` on `uint32_t` operands. -/
def TTI_ADD_u32 (a b : Nat) : Nat := u32 ((a : Int) + b) % 10240

/-- Macro `TTI_TX` on a `uint32_t` operand. -/
def TTI_TX_u32 (tti : Nat) : Nat := TTI_ADD_u32 tti (u32 FDD_HARQ_DELAY_DL_MS)

/-- Macro `TTI_RX` on a `uint32_t` operand. -/
def TTI_RX_u32 (tti : Nat) : Nat := TTI_SUB_u32 tti (u32 FDD_HARQ_DELAY_UL_MS)

/-- Macro `TTI_RX_ACK` on a `uint32_t` operand. -/
def TTI_RX_ACK_u32 (tti : Nat) : Nat :=
  TTI_ADD_u32 tti (u32 (FDD_HARQ_DELAY_UL_MS + FDD_HARQ_DELAY_DL_MS))

/-! ## IEEE-754 rounding (binary64 and binary32) -/

/-- Nearest integer to `q`, a tie going to the even neighbour. -/
def roundHalfEven (q : ℚ) : ℤ :=
  if q - ⌊q⌋ < 1 / 2 then ⌊q⌋
  else if 1 / 2 < q - ⌊q⌋ then ⌊q⌋ + 1
  else if ⌊q⌋ % 2 = 0 then ⌊q⌋ else ⌊q⌋ + 1

/-- Exponent of the unit in the last place of the binary64 numbers next to `q`:
53 significant bits, and never below the subnormal spacing `2 ^ (-1074)`. -/
def ulpExp (q : ℚ) : ℤ := max (Int.log 2 |q| - 52) (-1074)

/-- Result of a binary64 operation whose exact value is `q` (round to nearest, ties to
even; overflow to infinity, beyond `2 ^ 1024`, is not represented). -/
def rnd64 (q : ℚ) : ℚ := roundHalfEven (q / 2 ^ ulpExp q) * 2 ^ ulpExp q

/-- Rational numbers that are binary64 values: those that rounding leaves alone. -/
def isDouble (q : ℚ) : Prop := rnd64 q = q

instance (q : ℚ) : Decidable (isDouble q) := by
  unfold isDouble
  infer_instance

/-- Conversion `int(x)` of a `double`: truncation towards zero. -/
def truncInt (q : ℚ) : ℤ := if 0 ≤ q then ⌊q⌋ else ⌈q⌉

/-- Exponent of the unit in the last place of the binary floating-point numbers next to
`q`, for a format with `t + 1` significant bits and least exponent `emin`. -/
def ulpExpB (t : ℕ) (emin : ℤ) (q : ℚ) : ℤ := max (Int.log 2 |q| - t) emin

/-- Round to nearest, ties to even, in the binary format with `t + 1` significant bits and
least exponent `emin` (overflow not represented).  `rnd64` is `rndB 52 (-1074)`. -/
def rndB (t : ℕ) (emin : ℤ) (q : ℚ) : ℚ :=
  roundHalfEven (q / 2 ^ ulpExpB t emin q) * 2 ^ ulpExpB t emin q

/-- Result of a binary32 operation whose exact value is `q`, as long as it does not
overflow: round to nearest, ties to even, on 24 significant bits, the least spacing being
`2^(-149)`. -/
def rnd32 (q : ℚ) : ℚ := rndB 23 (-149) q

/-- Rational numbers that are finite binary32 values. -/
def isFloat (q : ℚ) : Prop := rnd32 q = q ∧ |q| < 2 ^ 128

instance (q : ℚ) : Decidable (isFloat q) := by
  unfold isFloat
  infer_instance

/-! ## Timestamps (`rf_timestamp.h`) -/

/-- Modelled from the spec: the type `srsran_timestamp_t` is declared in a header that is
not part of the sources; the spec describes it as the pair
`(full_seconds : signed integer, frac_seconds : floating-point)`.  `frac_secs` holds the
rational value of a finite `double`. -/
structure srsran_timestamp_t where
  full_secs : Int
  frac_secs : ℚ
  deriving DecidableEq

/-- Value of `srsran_timestamp_t ts = {}`. -/
def srsran_timestamp_t.zero : srsran_timestamp_t := ⟨0, 0⟩

/-- Body of `rf_timestamp_t::fix` (lines 127-139), the result of each `double` operation
being passed through `rnd`. -/
def fixWith (rnd : ℚ → ℚ) (ts : srsran_timestamp_t) : srsran_timestamp_t :=
  let _full : Int := ts.full_secs
  let _frac : ℚ := ts.frac_secs
  let _frac_int : Int := truncInt _frac
  let full_secs : Int := _full + _frac_int
  let frac_secs : ℚ := rnd (_frac - _frac_int)
  if frac_secs < 0 then ⟨full_secs - 1, rnd (frac_secs + 1)⟩ else ⟨full_secs, frac_secs⟩

/-- Function `rf_timestamp_t::fix` on `double` arithmetic. -/
def fix (ts : srsran_timestamp_t) : srsran_timestamp_t := fixWith rnd64 ts

/-- Timestamp `(full_secs = 0, frac_secs = -2^(-60))`: a binary64 fraction just below
zero, as left by a subtraction of two nearly equal times. -/
def tinyNegative : srsran_timestamp_t := ⟨0, -(1 / 2 ^ 60)⟩

/-- Timestamp `(full_secs = 0, frac_secs = -3 * 2^(-55))`: a negative binary64 fraction
whose distance to `1` is not a binary64 value. -/
def roundedNegative : srsran_timestamp_t := ⟨0, -(3 / 2 ^ 55)⟩

/-- State of an `rf_timestamp_t` object.  `N` stands for `SRSRAN_MAX_CHANNELS`, a
constant whose definition is outside the sources.  `default_ts` is the `const` member,
`timestamps` the `std::array`. -/
structure rf_timestamp_t (N : Nat) where
  default_ts : srsran_timestamp_t
  timestamps : Fin N → srsran_timestamp_t

/-- Default constructor: `default_ts = {}` and `timestamps = {}`. -/
def rf_timestamp_t.init (N : Nat) : rf_timestamp_t N :=
  ⟨srsran_timestamp_t.zero, fun _ => srsran_timestamp_t.zero⟩

/-- Method `get` (lines 82-89). -/
def rf_timestamp_t.get {N : Nat} (self : rf_timestamp_t N) (idx : Nat) : srsran_timestamp_t :=
  if h : idx ≥ N then self.default_ts else self.timestamps ⟨idx, Nat.lt_of_not_ge h⟩

/-- Method `get_ptr` (lines 95-101): `none` is `nullptr`, `some p` the address of slot `p`
of `timestamps`. -/
def rf_timestamp_t.get_ptr {N : Nat} (_self : rf_timestamp_t N) (idx : Nat) : Option (Fin N) :=
  if h : idx ≥ N then none else some ⟨idx, Nat.lt_of_not_ge h⟩

/-- Assignment `*p = ts` through a pointer returned by `get_ptr`. -/
def rf_timestamp_t.store {N : Nat} (self : rf_timestamp_t N) (p : Fin N)
    (ts : srsran_timestamp_t) : rf_timestamp_t N :=
  { self with timestamps := Function.update self.timestamps p ts }

/-- Method `add` (lines 107-112).  `ts_add` stands for the C function
`srsran_timestamp_add`, defined outside the sources; it is applied to every slot with
arguments `0` and `secs`. -/
def rf_timestamp_t.add {N : Nat} (ts_add : srsran_timestamp_t → Int → ℚ → srsran_timestamp_t)
    (self : rf_timestamp_t N) (secs : ℚ) : rf_timestamp_t N :=
  { self with timestamps := fun i => ts_add (self.timestamps i) 0 secs }

/-- Method `sub` (lines 118-123).  `ts_sub` stands for the C function
`srsran_timestamp_sub`, defined outside the sources. -/
def rf_timestamp_t.sub {N : Nat} (ts_sub : srsran_timestamp_t → Int → ℚ → srsran_timestamp_t)
    (self : rf_timestamp_t N) (secs : ℚ) : rf_timestamp_t N :=
  { self with timestamps := fun i => ts_sub (self.timestamps i) 0 secs }

/-- Calls a client can make on an `rf_timestamp_t`. -/
inductive TsCall where
  | add (secs : ℚ)
  | sub (secs : ℚ)
  | write (idx : Nat) (ts : srsran_timestamp_t)
  | read (idx : Nat)

/-- Effect of one call on the object.  `write idx ts` is `get_ptr(idx)` followed, when the
pointer is not null, by a store of `ts` through it; `read idx` is a call of the `const`
method `get`, which has no effect on the object. -/
def rf_timestamp_t.step {N : Nat} (ts_add ts_sub : srsran_timestamp_t → Int → ℚ → srsran_timestamp_t)
    (self : rf_timestamp_t N) : TsCall → rf_timestamp_t N
  | .add secs => self.add ts_add secs
  | .sub secs => self.sub ts_sub secs
  | .write idx ts =>
    match self.get_ptr idx with
    | some p => self.store p ts
    | none => self
  | .read _ => self

/-- Object reached from a freshly constructed one by a sequence of calls. -/
def rf_timestamp_t.run {N : Nat} (ts_add ts_sub : srsran_timestamp_t → Int → ℚ → srsran_timestamp_t)
    (calls : List TsCall) : rf_timestamp_t N :=
  calls.foldl (rf_timestamp_t.step ts_add ts_sub) (rf_timestamp_t.init N)


/-! ## Metric records (`phy_metrics.h`) -/

/-- Value of a `float` field: a finite binary32 number, carried as the rational number it
denotes, or NaN, or an infinity. -/
inductive Flt where
  | fin (q : ℚ)
  | nan
  | pinf
  | ninf
  deriving DecidableEq

/-- Negation of a `float`. -/
def Flt.neg : Flt → Flt
  | .fin q => .fin (-q)
  | .nan => .nan
  | .pinf => .ninf
  | .ninf => .pinf

/-- Value of a `float` operation whose exact result is `q`: `q` rounded to binary32, or
an infinity when the rounded magnitude reaches `2^128`. -/
def Flt.ofRat (q : ℚ) : Flt :=
  if 2 ^ 128 ≤ rnd32 q then .pinf else if rnd32 q ≤ -(2 ^ 128) then .ninf else .fin (rnd32 q)

/-- Addition of `float`s, with the IEEE-754 rules for NaN and the infinities. -/
def Flt.add : Flt → Flt → Flt
  | .fin a, .fin b => Flt.ofRat (a + b)
  | .nan, _ => .nan
  | _, .nan => .nan
  | .pinf, .ninf => .nan
  | .ninf, .pinf => .nan
  | .pinf, _ => .pinf
  | _, .pinf => .pinf
  | .ninf, _ => .ninf
  | _, .ninf => .ninf

/-- Subtraction of `float`s. -/
def Flt.sub (a b : Flt) : Flt := a.add b.neg

/-- Division of `float`s, with the IEEE-754 rules for NaN, the infinities and a zero
divisor (the zero being `+0`, as a converted unsigned counter is). -/
def Flt.div : Flt → Flt → Flt
  | .nan, _ => .nan
  | _, .nan => .nan
  | .fin a, .fin b =>
    if b = 0 then (if a = 0 then .nan else if 0 < a then .pinf else .ninf)
    else Flt.ofRat (a / b)
  | .fin _, .pinf => .fin 0
  | .fin _, .ninf => .fin 0
  | .pinf, .fin b => if 0 ≤ b then .pinf else .ninf
  | .ninf, .fin b => if 0 ≤ b then .ninf else .pinf
  | .pinf, .pinf => .nan
  | .pinf, .ninf => .nan
  | .ninf, .pinf => .nan
  | .ninf, .ninf => .nan

/-- Conversion of a `uint32_t` to `float`. -/
def Flt.ofCount (n : Nat) : Flt := Flt.ofRat n

/-- Rational value of a finite `float` (and `0` for the others). -/
def Flt.toRat : Flt → ℚ
  | .fin q => q
  | _ => 0

/-- Function `srsran::isnan(float)` (`common.h`, lines 152-163). -/
def isnan : Flt → Bool
  | .nan => true
  | _ => false

/-- Function `srsran::isinf(float)` (`common.h`, lines 107-119). -/
def isinf : Flt → Bool
  | .pinf => true
  | .ninf => true
  | _ => false

/-- Function `srsran::isfinite` (`common.h`, lines 165-173). -/
def isfinite (x : Flt) : Bool := !isnan x && !isinf x

/-- Modelled from the spec: the macro `SRSRAN_VEC_SAFE_CMA(data, average, n)` is defined
in a header that is not part of the sources.  The spec gives the update it computes,
`new_avg = old_avg + (observation_value − old_avg) / new_count`, the count being the
third argument that `PHY_METRICS_SET` passes; the three operations are `float`
operations, the count being converted to `float`. -/
def SRSRAN_VEC_SAFE_CMA (data average : Flt) (n : Nat) : Flt :=
  average.add ((data.sub average).div (Flt.ofCount n))

/-- Statement `count++` on the `uint32_t` counter. -/
def incr (count : Nat) : Nat := (count + 1) % 2 ^ 32

/-- Record `sync_metrics_t`. -/
structure sync_metrics_t where
  ta_us : Flt
  distance_km : Flt
  speed_kmph : Flt
  cfo : Flt
  sfo : Flt
  count : Nat
  deriving DecidableEq

/-- Zero-initialised `sync_metrics_t`. -/
def sync_metrics_t.init : sync_metrics_t := ⟨.fin 0, .fin 0, .fin 0, .fin 0, .fin 0, 0⟩

/-- Method `sync_metrics_t::set` (lines 52-60): `count` is incremented last. -/
def sync_metrics_t.set (self other : sync_metrics_t) : sync_metrics_t :=
  { ta_us := other.ta_us
    distance_km := other.distance_km
    speed_kmph := other.speed_kmph
    cfo := SRSRAN_VEC_SAFE_CMA other.cfo self.cfo self.count
    sfo := SRSRAN_VEC_SAFE_CMA other.sfo self.sfo self.count
    count := incr self.count }

/-- Method `sync_metrics_t::reset` (lines 62-70). -/
def sync_metrics_t.reset (_self : sync_metrics_t) : sync_metrics_t :=
  ⟨.fin 0, .fin 0, .fin 0, .fin 0, .fin 0, 0⟩

/-- Record `ch_metrics_t`. -/
structure ch_metrics_t where
  n : Flt
  sinr : Flt
  rsrp : Flt
  rsrq : Flt
  rssi : Flt
  ri : Flt
  pathloss : Flt
  sync_err : Flt
  count : Nat
  deriving DecidableEq

/-- Zero-initialised `ch_metrics_t`. -/
def ch_metrics_t.init : ch_metrics_t :=
  ⟨.fin 0, .fin 0, .fin 0, .fin 0, .fin 0, .fin 0, .fin 0, .fin 0, 0⟩

/-- Method `ch_metrics_t::set` (lines 88-102): `count` is incremented first, and the
`sinr` update is guarded by `!isnan(other.sinr) || !isinf(other.sinr)`. -/
def ch_metrics_t.set (self other : ch_metrics_t) : ch_metrics_t :=
  let count := incr self.count
  { n := SRSRAN_VEC_SAFE_CMA other.n self.n count
    sinr :=
      if !isnan other.sinr || !isinf other.sinr then
        SRSRAN_VEC_SAFE_CMA other.sinr self.sinr count
      else self.sinr
    rsrp := SRSRAN_VEC_SAFE_CMA other.rsrp self.rsrp count
    rsrq := SRSRAN_VEC_SAFE_CMA other.rsrq self.rsrq count
    rssi := SRSRAN_VEC_SAFE_CMA other.rssi self.rssi count
    ri := SRSRAN_VEC_SAFE_CMA other.ri self.ri count
    pathloss := SRSRAN_VEC_SAFE_CMA other.pathloss self.pathloss count
    sync_err := SRSRAN_VEC_SAFE_CMA other.sync_err self.sync_err count
    count := count }

/-- Method `ch_metrics_t::reset` (lines 104-115). -/
def ch_metrics_t.reset (_self : ch_metrics_t) : ch_metrics_t :=
  ⟨.fin 0, .fin 0, .fin 0, .fin 0, .fin 0, .fin 0, .fin 0, .fin 0, 0⟩

/-- Record `dl_metrics_t`. -/
structure dl_metrics_t where
  fec_iters : Flt
  mcs : Flt
  evm : Flt
  count : Nat
  deriving DecidableEq

/-- Zero-initialised `dl_metrics_t`. -/
def dl_metrics_t.init : dl_metrics_t := ⟨.fin 0, .fin 0, .fin 0, 0⟩

/-- Method `dl_metrics_t::set` (lines 128-134): `count` is incremented first. -/
def dl_metrics_t.set (self other : dl_metrics_t) : dl_metrics_t :=
  let count := incr self.count
  { fec_iters := SRSRAN_VEC_SAFE_CMA other.fec_iters self.fec_iters count
    mcs := SRSRAN_VEC_SAFE_CMA other.mcs self.mcs count
    evm := SRSRAN_VEC_SAFE_CMA other.evm self.evm count
    count := count }

/-- Method `dl_metrics_t::reset` (lines 136-142). -/
def dl_metrics_t.reset (_self : dl_metrics_t) : dl_metrics_t := ⟨.fin 0, .fin 0, .fin 0, 0⟩

/-- Record `ul_metrics_t`. -/
structure ul_metrics_t where
  mcs : Flt
  power : Flt
  count : Nat
  deriving DecidableEq

/-- Zero-initialised `ul_metrics_t`, as the elements of `phy_metrics_t::ul = {}` are. -/
def ul_metrics_t.init : ul_metrics_t := ⟨.fin 0, .fin 0, 0⟩

/-- Method `ul_metrics_t::set` (lines 154-159): `count` is incremented first. -/
def ul_metrics_t.set (self other : ul_metrics_t) : ul_metrics_t :=
  let count := incr self.count
  { mcs := SRSRAN_VEC_SAFE_CMA other.mcs self.mcs count
    power := SRSRAN_VEC_SAFE_CMA other.power self.power count
    count := count }

/-- Method `ul_metrics_t::reset` (lines 161-166). -/
def ul_metrics_t.reset (_self : ul_metrics_t) : ul_metrics_t := ⟨.fin 0, .fin 0, 0⟩

/-- Arithmetic mean of a list of numbers. -/
def mean (vs : List ℚ) : ℚ := vs.sum / vs.length

/-- One cumulative-average update of a `(count, average)` pair whose counter is
incremented before the fold, as in `ch_metrics_t`, `dl_metrics_t` and `ul_metrics_t`. -/
def cmaStep (s : Nat × Flt) (v : Flt) : Nat × Flt :=
  (incr s.1, SRSRAN_VEC_SAFE_CMA v s.2 (incr s.1))

/-- Observation of a `ch_metrics_t` whose `sinr` is `v`, the other fields being zero. -/
def sinrObs (v : Flt) : ch_metrics_t := { ch_metrics_t.init with sinr := v }

/-- Observation of a `dl_metrics_t` whose fields all are `0`. -/
def dlZero : dl_metrics_t := ⟨.fin 0, .fin 0, .fin 0, 0⟩

/-- Observation of a `dl_metrics_t` whose fields all are `1`. -/
def dlOne : dl_metrics_t := ⟨.fin 1, .fin 1, .fin 1, 0⟩

/-- Fields of `dl_metrics_t` that `set` folds with `PHY_METRICS_SET`. -/
def dl_metrics_t.averaged : List (dl_metrics_t → Flt) :=
  [dl_metrics_t.fec_iters, dl_metrics_t.mcs, dl_metrics_t.evm]

/-- Fields of `ul_metrics_t` that `set` folds with `PHY_METRICS_SET`. -/
def ul_metrics_t.averaged : List (ul_metrics_t → Flt) :=
  [ul_metrics_t.mcs, ul_metrics_t.power]

/-- Fields of `ch_metrics_t` that `set` folds with `PHY_METRICS_SET` outside the `sinr`
guard. -/
def ch_metrics_t.averaged : List (ch_metrics_t → Flt) :=
  [ch_metrics_t.n, ch_metrics_t.rsrp, ch_metrics_t.rsrq, ch_metrics_t.rssi, ch_metrics_t.ri,
    ch_metrics_t.pathloss, ch_metrics_t.sync_err]

/-! ## Periodic index (`common.h`, lines 61-62) -/

/-- Macro `#define TTIMOD_SZ 20`. -/
def TTIMOD_SZ : Int := 20

/-- Macro `#define TTIMOD(tti) (tti % TTIMOD_SZ)` on an `int` operand. -/
def TTIMOD (tti : Int) : Int := Int.tmod tti TTIMOD_SZ

/-- Macro `TTIMOD` on a `uint32_t` operand. -/
def TTIMOD_u32 (tti : Nat) : Nat := tti % u32 TTIMOD_SZ

/-- Method `sync_metrics_t::set` with the averaging macro left open: `cma` stands for
`SRSRAN_VEC_SAFE_CMA`, whatever it computes. -/
def sync_metrics_t.setWith (cma : Flt → Flt → Nat → Flt) (self other : sync_metrics_t) :
    sync_metrics_t :=
  { ta_us := other.ta_us
    distance_km := other.distance_km
    speed_kmph := other.speed_kmph
    cfo := cma other.cfo self.cfo self.count
    sfo := cma other.sfo self.sfo self.count
    count := incr self.count }

/-- Method `dl_metrics_t::set` with the averaging macro left open. -/
def dl_metrics_t.setWith (cma : Flt → Flt → Nat → Flt) (self other : dl_metrics_t) :
    dl_metrics_t :=
  let count := incr self.count
  { fec_iters := cma other.fec_iters self.fec_iters count
    mcs := cma other.mcs self.mcs count
    evm := cma other.evm self.evm count
    count := count }

/-- Observation of a `sync_metrics_t` whose `cfo` is `v`, the other fields being zero. -/
def cfoObs (v : Flt) : sync_metrics_t := { sync_metrics_t.init with cfo := v }

/-- Observation of a `dl_metrics_t` whose `mcs` is `v`, the other fields being zero. -/
def mcsObs (v : Flt) : dl_metrics_t := { dl_metrics_t.init with mcs := v }

/-- A `sync_metrics_t` whose counter holds the largest `uint32_t`. -/
def syncFull : sync_metrics_t := { sync_metrics_t.init with count := 4294967295 }

/-! ## Fast-math classification of bit patterns (`common.h`, lines 107-173) -/

/-- Function `srsran::isinf(float)` under `__FAST_MATH__` (lines 112-117), on the 32-bit
pattern `u` of its argument. -/
def isinf_float_fast (u : Nat) : Bool := u == 0x7f800000 || u == 0xff800000

/-- Function `srsran::isinf(double)` under `__FAST_MATH__` (lines 126-131), on the 64-bit
pattern `u` of its argument. -/
def isinf_double_fast (u : Nat) : Bool := u == 0x7ff0000000000000 || u == 0xfff0000000000000

/-- Function `srsran::isnan(double)` under `__FAST_MATH__` (lines 140-148), on the 64-bit
pattern `u`: the casts to `uint32_t` and the sum are reduced modulo `2 ^ 32`. -/
def isnan_double_fast (u : Nat) : Bool :=
  decide (((((u >>> 32) % 2 ^ 32) &&& 0x7fffffff) + (if u % 2 ^ 32 ≠ 0 then 1 else 0)) % 2 ^ 32 >
    0x7ff00000)

/-- Function `srsran::isnan(float)` under `__FAST_MATH__` (lines 157-161), on the 32-bit
pattern `u`: the shift is reduced modulo `2 ^ 32`. -/
def isnan_float_fast (u : Nat) : Bool := decide ((u <<< 1) % 2 ^ 32 > 0xff000000)

/-- Function `srsran::isfinite<float>` under `__FAST_MATH__` (line 171). -/
def isfinite_float_fast (u : Nat) : Bool := !isnan_float_fast u && !isinf_float_fast u

/-- IEEE-754 binary64: the 11 exponent bits of the pattern `u`. -/
def ieee_double_exponent (u : Nat) : Nat := (u / 2 ^ 52) % 2 ^ 11

/-- IEEE-754 binary64: the 52 mantissa bits of the pattern `u`. -/
def ieee_double_mantissa (u : Nat) : Nat := u % 2 ^ 52

/-- IEEE-754 binary64: `u` encodes a NaN when its exponent bits are all ones and its
mantissa bits are not all zero. -/
def ieee_double_is_nan (u : Nat) : Prop :=
  ieee_double_exponent u = 2047 ∧ ieee_double_mantissa u ≠ 0

/-- IEEE-754 binary32: the 8 exponent bits of the pattern `u`. -/
def ieee_float_exponent (u : Nat) : Nat := (u / 2 ^ 23) % 2 ^ 8

/-- IEEE-754 binary32: `u` encodes a finite value when its exponent bits are not all
ones. -/
def ieee_float_is_finite (u : Nat) : Prop := ieee_float_exponent u ≠ 255

/-! ## Enumeration helpers (`common.h`, lines 86-103) -/

/-- Function `enum_to_text` (lines 87-90).  The array is a list; reading `array[i]` past
its end is undefined behaviour, which the result `none` stands for. -/
def enum_to_text (array : List String) (nof_types enum_val : Nat) : Option String :=
  if enum_val ≥ nof_types then some "" else array[enum_val]?

/-- Function `enum_to_number` (lines 92-96) for an item type `α`; the literal `-1` is
converted to the item type. -/
def enum_to_number {α : Type} [Neg α] [One α] (array : List α) (nof_types enum_val : Nat) :
    Option α :=
  if enum_val ≥ nof_types then some (-1) else array[enum_val]?

/-- Enumeration `enum class srsran_rat_t { lte, nr, nulltype }`. -/
inductive srsran_rat_t where
  | lte
  | nr
  | nulltype
  deriving DecidableEq

/-- Conversion `(uint32_t)type` of a `srsran_rat_t`. -/
def srsran_rat_t.val : srsran_rat_t → Nat
  | .lte => 0
  | .nr => 1
  | .nulltype => 2

/-- Function `to_string(const srsran_rat_t&)` (lines 99-103). -/
def to_string (type : srsran_rat_t) : Option String :=
  enum_to_text ["LTE", "NR"] srsran_rat_t.nulltype.val type.val

/-! ## Textual form of a timestamp (`rf_timestamp.h`, lines 141-149) -/

/-- Character of the decimal digit `d mod 10`. -/
def digitChar (d : Nat) : Char := Char.ofNat (48 + d % 10)

/-- The last `k` decimal digits of `n`, most significant first, zeros included. -/
def padDigits : Nat → Nat → List Char
  | 0, _ => []
  | k + 1, n => padDigits k (n / 10) ++ [digitChar n]

/-- Number denoted by a list of decimal digit characters. -/
def digitsValue (cs : List Char) : Nat := cs.foldl (fun a c => 10 * a + (c.toNat - 48)) 0

/-- Output of `stream << n` for an `int64_t`: a minus sign for a negative number, then the
decimal digits of its magnitude. -/
def intDecimal (z : Int) : List Char :=
  if z < 0 then '-' :: Nat.toDigits 10 z.natAbs else Nat.toDigits 10 z.natAbs

/-- Output of `stream << std::fixed << std::setprecision(p) << x` for a `double` `x ≥ 0`:
`x` rounded to `p` decimal places (to nearest, ties to even), written as integer part,
point, and `p` digits. -/
def fixedDecimal (p : Nat) (x : ℚ) : List Char :=
  let d : Nat := (roundHalfEven (x * 10 ^ p)).toNat
  Nat.toDigits 10 (d / 10 ^ p) ++ '.' :: padDigits p (d % 10 ^ p)

/-- Function `rf_timestamp_t::tostring` (lines 141-149): `frac.str().erase(0, 1)` drops
the first character of the rendered fraction. -/
def tostring (ts : srsran_timestamp_t) : String :=
  String.mk (intDecimal ts.full_secs ++ (fixedDecimal 17 |ts.frac_secs|).drop 1)

/-- Timestamp `(full_secs = -3, frac_secs = 0.25)`. -/
def minusThreeQuarter : srsran_timestamp_t := ⟨-3, 1 / 4⟩

/-- The fraction `x` in units of `10^(-17)`, rounded to nearest (ties to even): the number
that the 17 digits printed by `tostring` denote. -/
def fracUnits17 (x : ℚ) : Nat := (roundHalfEven (x * 10 ^ 17)).toNat

/-! ## Time shifts (`rf_timestamp.h`, lines 103-123) -/

/-- Modelled from the spec: the C function `srsran_timestamp_add`, called by
`rf_timestamp_t::add`, is not part of the sources.  The spec says that `add` shifts the
timestamp forward by the given seconds and that the fractional/integer split is
normalised after the shift, normalisation being the algorithm of `fix`; the fraction is
a `double`, so the sum is rounded. -/
def srsran_timestamp_add (ts : srsran_timestamp_t) (full_secs : Int) (frac_secs : ℚ) :
    srsran_timestamp_t :=
  fix ⟨ts.full_secs + full_secs, rnd64 (ts.frac_secs + frac_secs)⟩

/-- Modelled from the spec: the C function `srsran_timestamp_sub`, called by
`rf_timestamp_t::sub`, is not part of the sources.  The spec describes `subtract` as the
symmetric shift backward, normalised like `add`. -/
def srsran_timestamp_sub (ts : srsran_timestamp_t) (full_secs : Int) (frac_secs : ℚ) :
    srsran_timestamp_t :=
  fix ⟨ts.full_secs - full_secs, rnd64 (ts.frac_secs - frac_secs)⟩

/-- Multiples of `2^(-20)`, a grid of about a microsecond on which the shifts below are
computed without rounding. -/
def onGrid (q : ℚ) : Prop := ∃ m : ℤ, q = m / 2 ^ 20

/-- Timestamp set with one channel holding `(0, 2^(-60))`. -/
def tinyChannel : rf_timestamp_t 1 := ⟨srsran_timestamp_t.zero, fun _ => ⟨0, 1 / 2 ^ 60⟩⟩

/-! ## Theorems -/

/-! ### Ring timing -/

theorem tmod_of_nonneg (x : Int) (h : 0 ≤ x) : Int.tmod x 10240 = x % 10240 :=
  Int.tmod_eq_emod h (by decide)

theorem tmod_of_neg (x : Int) (h : x < 0) : Int.tmod x 10240 = -((-x) % 10240) := by
  have h1 : Int.tmod (-(-x)) 10240 = -(Int.tmod (-x) 10240) := by
    rw [Int.tmod_def, Int.tmod_def, Int.neg_tdiv]; ring
  rw [neg_neg] at h1
  rw [h1, tmod_of_nonneg _ (by omega)]

theorem u32_eq (n : Int) : ((u32 n : Nat) : Int) = n % 4294967296 := by
  unfold u32
  have : (0 : Int) ≤ n % 2 ^ 32 := Int.emod_nonneg _ (by norm_num)
  rw [Int.toNat_of_nonneg this]; norm_num

/-- C1: ring inverse laws.  For operands in `[0, 10239]`, `TTI_SUB (TTI_ADD a b) b = a`
and `TTI_ADD (TTI_SUB a b) b = a`, for `int` operands (`a`, `b`) and for `uint32_t`
operands (`x`, `y`) alike. -/
theorem tti_ring_inverse (a b : Int) (x y : Nat)
    (ha : 0 ≤ a ∧ a ≤ 10239) (hb : 0 ≤ b ∧ b ≤ 10239) (hx : x ≤ 10239) (hy : y ≤ 10239) :
    (TTI_SUB (TTI_ADD a b) b = a ∧ TTI_ADD (TTI_SUB a b) b = a) ∧
    (TTI_SUB_u32 (TTI_ADD_u32 x y) y = x ∧ TTI_ADD_u32 (TTI_SUB_u32 x y) y = x) := by
  obtain ⟨ha0, ha1⟩ := ha
  obtain ⟨hb0, hb1⟩ := hb
  refine ⟨?_, ?_, ?_⟩
  · unfold TTI_SUB TTI_ADD
    rw [tmod_of_nonneg (a + b) (by omega), tmod_of_nonneg (a + 10240 - b) (by omega),
      tmod_of_nonneg _ (by omega), tmod_of_nonneg _ (by omega)]
    omega
  · unfold TTI_SUB_u32 TTI_ADD_u32
    zify
    simp only [u32_eq]
    omega
  · unfold TTI_SUB_u32 TTI_ADD_u32
    zify
    simp only [u32_eq]
    omega

theorem tti_ring_inverse_witness :
    (TTI_SUB (TTI_ADD 10239 10239) 10239 = 10239 ∧
      TTI_ADD (TTI_SUB 10239 10239) 10239 = 10239) ∧
    (TTI_SUB_u32 (TTI_ADD_u32 3 10239) 10239 = 3 ∧
      TTI_ADD_u32 (TTI_SUB_u32 3 10239) 10239 = 3) :=
  tti_ring_inverse 10239 10239 3 10239 (by decide) (by decide) (by decide) (by decide)

/-- C2: for every `tti` in `[0, 10239]`, `TTI_TX tti = (tti + 4) mod 10240`,
`TTI_RX tti = (tti + 10240 - 4) mod 10240` and `TTI_RX_ACK tti = (tti + 8) mod 10240`,
each lies in `[0, 10239]` and none equals `INVALID_TTI`; for `int` operands (`tti`) and
for `uint32_t` operands (`t`). -/
theorem tti_offsets_in_range (tti : Int) (t : Nat)
    (h : 0 ≤ tti ∧ tti ≤ 10239) (ht : t ≤ 10239) :
    (TTI_TX tti = (tti + 4) % 10240 ∧ 0 ≤ TTI_TX tti ∧ TTI_TX tti ≤ 10239 ∧
      TTI_TX tti ≠ INVALID_TTI) ∧
    (TTI_RX tti = (tti + 10240 - 4) % 10240 ∧ 0 ≤ TTI_RX tti ∧ TTI_RX tti ≤ 10239 ∧
      TTI_RX tti ≠ INVALID_TTI) ∧
    (TTI_RX_ACK tti = (tti + 8) % 10240 ∧ 0 ≤ TTI_RX_ACK tti ∧ TTI_RX_ACK tti ≤ 10239 ∧
      TTI_RX_ACK tti ≠ INVALID_TTI) ∧
    (TTI_TX_u32 t = (t + 4) % 10240 ∧ TTI_TX_u32 t ≤ 10239) ∧
    (TTI_RX_u32 t = (t + 10240 - 4) % 10240 ∧ TTI_RX_u32 t ≤ 10239) ∧
    (TTI_RX_ACK_u32 t = (t + 8) % 10240 ∧ TTI_RX_ACK_u32 t ≤ 10239) := by
  obtain ⟨h0, h1⟩ := h
  have e4 : ((u32 4 : Nat) : Int) = 4 := by rw [u32_eq]; norm_num
  have e8 : ((u32 (4 + 4) : Nat) : Int) = 8 := by rw [u32_eq]; norm_num
  refine ⟨?_, ?_, ?_, ?_, ?_, ?_⟩
  · unfold TTI_TX TTI_ADD FDD_HARQ_DELAY_DL_MS INVALID_TTI
    rw [tmod_of_nonneg _ (by omega)]
    omega
  · unfold TTI_RX TTI_SUB FDD_HARQ_DELAY_UL_MS INVALID_TTI
    rw [tmod_of_nonneg _ (by omega)]
    omega
  · unfold TTI_RX_ACK TTI_ADD FDD_HARQ_DELAY_UL_MS FDD_HARQ_DELAY_DL_MS INVALID_TTI
    rw [tmod_of_nonneg _ (by omega)]
    omega
  · unfold TTI_TX_u32 TTI_ADD_u32 FDD_HARQ_DELAY_DL_MS
    zify
    simp only [u32_eq, e4]
    omega
  · unfold TTI_RX_u32 TTI_SUB_u32 FDD_HARQ_DELAY_UL_MS
    zify
    simp only [u32_eq, e4]
    omega
  · unfold TTI_RX_ACK_u32 TTI_ADD_u32 FDD_HARQ_DELAY_UL_MS FDD_HARQ_DELAY_DL_MS
    zify
    simp only [u32_eq, e8]
    omega

theorem tti_offsets_in_range_witness :
    (TTI_TX 10239 = (10239 + 4) % 10240 ∧ 0 ≤ TTI_TX 10239 ∧ TTI_TX 10239 ≤ 10239 ∧
      TTI_TX 10239 ≠ INVALID_TTI) ∧
    (TTI_RX 10239 = (10239 + 10240 - 4) % 10240 ∧ 0 ≤ TTI_RX 10239 ∧
      TTI_RX 10239 ≤ 10239 ∧ TTI_RX 10239 ≠ INVALID_TTI) ∧
    (TTI_RX_ACK 10239 = (10239 + 8) % 10240 ∧ 0 ≤ TTI_RX_ACK 10239 ∧
      TTI_RX_ACK 10239 ≤ 10239 ∧ TTI_RX_ACK 10239 ≠ INVALID_TTI) ∧
    (TTI_TX_u32 2 = (2 + 4) % 10240 ∧ TTI_TX_u32 2 ≤ 10239) ∧
    (TTI_RX_u32 2 = (2 + 10240 - 4) % 10240 ∧ TTI_RX_u32 2 ≤ 10239) ∧
    (TTI_RX_ACK_u32 2 = (2 + 8) % 10240 ∧ TTI_RX_ACK_u32 2 ≤ 10239) :=
  tti_offsets_in_range 10239 2 (by decide) (by decide)

/-- C3, as stated, fails for `int` operands: `TTI_SUB(0, INVALID_TTI)` is `-1`, which is
outside `[0, 10239]`. -/
theorem tti_sub_invalid_negative :
    TTI_SUB 0 INVALID_TTI = -1 ∧ ¬ (0 ≤ TTI_SUB 0 INVALID_TTI ∧ TTI_SUB 0 INVALID_TTI ≤ 10239) := by
  decide

/-- C3, amended: with `uint32_t` operands `TTI_ADD` and `TTI_SUB` lie in `[0, 10239]` for
every pair of operands; with `int` operands the result is always strictly between
`-10240` and `10240`, and it lies in `[0, 10239]` whenever the intermediate value
(`a + b`, resp. `a + 10240 - b`) is not negative, while a negative intermediate value
gives a result `≤ 0`. -/
theorem tti_bounded_output (a b : Int) (x y : Nat) :
    (TTI_ADD_u32 x y ≤ 10239 ∧ TTI_SUB_u32 x y ≤ 10239) ∧
    (-10239 ≤ TTI_ADD a b ∧ TTI_ADD a b ≤ 10239 ∧
      -10239 ≤ TTI_SUB a b ∧ TTI_SUB a b ≤ 10239) ∧
    (0 ≤ a + b → 0 ≤ TTI_ADD a b ∧ TTI_ADD a b ≤ 10239) ∧
    (0 ≤ a + 10240 - b → 0 ≤ TTI_SUB a b ∧ TTI_SUB a b ≤ 10239) ∧
    (a + b < 0 → TTI_ADD a b ≤ 0) ∧
    (a + 10240 - b < 0 → TTI_SUB a b ≤ 0) := by
  have key : ∀ z : Int, (-10239 ≤ Int.tmod z 10240 ∧ Int.tmod z 10240 ≤ 10239) ∧
      (0 ≤ z → 0 ≤ Int.tmod z 10240) ∧ (z < 0 → Int.tmod z 10240 ≤ 0) := by
    intro z
    rcases lt_or_le z 0 with hz | hz
    · rw [tmod_of_neg z hz]
      refine ⟨by omega, fun h => by omega, fun _ => by omega⟩
    · rw [tmod_of_nonneg z hz]
      refine ⟨by omega, fun _ => by omega, fun h => by omega⟩
  refine ⟨⟨?_, ?_⟩, ⟨(key _).1.1, (key _).1.2, (key _).1.1, (key _).1.2⟩,
    fun h => ⟨(key _).2.1 h, (key _).1.2⟩, fun h => ⟨(key _).2.1 h, (key _).1.2⟩,
    fun h => (key _).2.2 h, fun h => (key _).2.2 h⟩
  · unfold TTI_ADD_u32; omega
  · unfold TTI_SUB_u32; omega

theorem tti_bounded_output_witness :
    (0 ≤ TTI_ADD 0 INVALID_TTI ∧ TTI_ADD 0 INVALID_TTI ≤ 10239) ∧
    (0 ≤ TTI_SUB 7 10247 ∧ TTI_SUB 7 10247 ≤ 10239) ∧
    TTI_SUB 0 INVALID_TTI ≤ 0 ∧
    (TTI_ADD_u32 0 10241 ≤ 10239 ∧ TTI_SUB_u32 0 10241 ≤ 10239) :=
  ⟨(tti_bounded_output 0 INVALID_TTI 0 10241).2.2.1 (by decide),
   (tti_bounded_output 7 10247 0 10241).2.2.2.1 (by decide),
   (tti_bounded_output 0 INVALID_TTI 0 10241).2.2.2.2.2 (by decide),
   (tti_bounded_output 0 INVALID_TTI 0 10241).1⟩


/-! ### Rounding -/

theorem log2_eq (r : ℚ) (z : ℤ) (h1 : (2 : ℚ) ^ z ≤ r) (h2 : r < (2 : ℚ) ^ (z + 1)) :
    Int.log 2 r = z := by
  have hr : 0 < r := lt_of_lt_of_le (by positivity) h1
  have a : z ≤ Int.log 2 r :=
    (Int.zpow_le_iff_le_log (by norm_num) hr).1 (by exact_mod_cast h1)
  have b : Int.log 2 r < z + 1 :=
    (Int.lt_zpow_iff_log_lt (by norm_num) hr).1 (by exact_mod_cast h2)
  omega

theorem roundHalfEven_of (q : ℚ) (z : ℤ) (h1 : (z : ℚ) - 1 / 2 < q) (h2 : q < z + 1 / 2) :
    roundHalfEven q = z := by
  unfold roundHalfEven
  rcases lt_or_le q z with h | h
  · have hf : ⌊q⌋ = z - 1 := by
      rw [Int.floor_eq_iff]; push_cast; constructor <;> linarith
    rw [hf]; push_cast
    rw [if_neg (by linarith), if_pos (by linarith)]; ring
  · have hf : ⌊q⌋ = z := by
      rw [Int.floor_eq_iff]; constructor <;> linarith
    rw [hf, if_pos (by linarith)]

theorem roundHalfEven_intCast (z : ℤ) : roundHalfEven (z : ℚ) = z :=
  roundHalfEven_of _ z (by linarith) (by linarith)

theorem rnd64_zero : rnd64 0 = 0 := by
  unfold rnd64
  rw [zero_div]
  have : roundHalfEven 0 = 0 := by simpa using roundHalfEven_intCast 0
  rw [this]; simp

theorem roundHalfEven_error (q : ℚ) : |(roundHalfEven q : ℚ) - q| ≤ 1 / 2 := by
  have h1 := Int.floor_le q
  have h2 := Int.lt_floor_add_one q
  unfold roundHalfEven
  rw [abs_le]
  split_ifs <;> push_cast <;> constructor <;> linarith

theorem roundHalfEven_nonneg (q : ℚ) (h : 0 ≤ q) : 0 ≤ roundHalfEven q := by
  have h1 : 0 ≤ ⌊q⌋ := Int.floor_nonneg.2 h
  unfold roundHalfEven
  split_ifs <;> omega

theorem roundHalfEven_le_of_lt (x : ℚ) (N : ℤ) (h : x < N) : roundHalfEven x ≤ N := by
  have h1 : ⌊x⌋ < N := Int.floor_lt.2 h
  unfold roundHalfEven
  split_ifs <;> omega

theorem roundHalfEven_ge_of_gt (x : ℚ) (N : ℤ) (h : (N : ℚ) < x) : N ≤ roundHalfEven x := by
  have h1 : N ≤ ⌊x⌋ := Int.le_floor.2 h.le
  unfold roundHalfEven
  split_ifs <;> omega

theorem rnd64_nonneg (q : ℚ) (h : 0 ≤ q) : 0 ≤ rnd64 q := by
  unfold rnd64
  have h2 : 0 ≤ q / 2 ^ ulpExp q := by positivity
  have := roundHalfEven_nonneg _ h2
  have h3 : (0 : ℚ) ≤ (roundHalfEven (q / 2 ^ ulpExp q) : ℚ) := by exact_mod_cast this
  positivity

theorem rnd64_of_multiple (q : ℚ) (m e : ℤ) (hq : q = m * 2 ^ e) (he : ulpExp q ≤ e) :
    rnd64 q = q := by
  unfold rnd64
  generalize ulpExp q = E at he ⊢
  obtain ⟨n, hn⟩ := Int.eq_ofNat_of_zero_le (sub_nonneg.2 he)
  have h2 : (2 : ℚ) ^ e = 2 ^ n * 2 ^ E := by
    have : e = (n : ℤ) + E := by omega
    rw [this, zpow_add₀ (by norm_num), zpow_natCast]
  have hpos : (2 : ℚ) ^ E ≠ 0 := by positivity
  have h3 : q / 2 ^ E = ((m * 2 ^ n : ℤ) : ℚ) := by
    rw [hq, h2]
    push_cast
    field_simp
    ring
  rw [h3, roundHalfEven_intCast, hq, h2]
  push_cast
  ring

theorem isDouble_multiple (q : ℚ) (h : isDouble q) :
    q = (roundHalfEven (q / 2 ^ ulpExp q) : ℚ) * 2 ^ ulpExp q := by
  unfold isDouble rnd64 at h
  exact h.symm

theorem ulpExp_ge (q : ℚ) : -1074 ≤ ulpExp q := le_max_right _ _

theorem ulpExp_mono (y x : ℚ) (hy : y ≠ 0) (h : |y| ≤ |x|) : ulpExp y ≤ ulpExp x := by
  unfold ulpExp
  have := Int.log_mono_right (b := 2) (abs_pos.2 hy) h
  exact max_le_max (by omega) le_rfl

theorem ulpExp_of_lt_one (y : ℚ) (h : |y| < 1) : ulpExp y ≤ 0 := by
  unfold ulpExp
  rcases eq_or_ne y 0 with rfl | hy
  · simp [Int.log_zero_right]
  · have : Int.log 2 |y| < 0 :=
      (Int.lt_zpow_iff_log_lt (by norm_num) (abs_pos.2 hy)).1 (by simpa using h)
    exact max_le (by omega) (by norm_num)

theorem trunc_abs_le (x : ℚ) : |x - truncInt x| ≤ |x| ∧ |x - truncInt x| < 1 := by
  have h1 := Int.floor_le x
  have h2 := Int.lt_floor_add_one x
  have h3 := Int.le_ceil x
  have h4 := Int.ceil_lt_add_one x
  unfold truncInt
  by_cases h0 : 0 ≤ x
  · rw [if_pos h0]
    have hf : (0 : ℚ) ≤ ⌊x⌋ := by exact_mod_cast Int.floor_nonneg.2 h0
    rw [abs_of_nonneg (by linarith), abs_of_nonneg h0]
    constructor <;> linarith
  · rw [if_neg h0]
    have hc : ((⌈x⌉ : ℤ) : ℚ) ≤ 0 := by
      have : ⌈x⌉ ≤ 0 := Int.ceil_le.2 (by push_cast; linarith)
      exact_mod_cast this
    rw [abs_of_nonpos (by linarith), abs_of_neg (by linarith)]
    constructor <;> linarith

/-- The remainder `x - int(x)` of a binary64 value is a binary64 value: the subtraction
in `fix` is exact. -/
theorem rnd64_sub_trunc (x : ℚ) (hx : isDouble x) :
    rnd64 (x - truncInt x) = x - truncInt x := by
  rcases eq_or_ne (x - truncInt x) 0 with h0 | h0
  · rw [h0, rnd64_zero]
  obtain ⟨hle, hlt⟩ := trunc_abs_le x
  have hm := isDouble_multiple x hx
  have hmono := ulpExp_mono _ _ h0 hle
  have hone := ulpExp_of_lt_one _ hlt
  generalize roundHalfEven (x / 2 ^ ulpExp x) = m at hm
  generalize ulpExp x = e at hm hmono
  generalize truncInt x = t at *
  obtain ⟨a, ha⟩ := Int.eq_ofNat_of_zero_le (sub_nonneg.2 (min_le_left e 0))
  obtain ⟨b, hb⟩ := Int.eq_ofNat_of_zero_le (sub_nonneg.2 (min_le_right e 0))
  have e1 : (2 : ℚ) ^ e = 2 ^ a * 2 ^ (min e 0) := by
    have : e = (a : ℤ) + min e 0 := by omega
    conv_lhs => rw [this]
    rw [zpow_add₀ (by norm_num), zpow_natCast]
  have e2 : (1 : ℚ) = 2 ^ b * 2 ^ (min e 0) := by
    have : (0 : ℤ) = (b : ℤ) + min e 0 := by omega
    have h := zpow_add₀ (a := (2 : ℚ)) (by norm_num) (b : ℤ) (min e 0)
    rw [← this, zpow_zero, zpow_natCast] at h
    exact h
  apply rnd64_of_multiple _ (m * 2 ^ a - t * 2 ^ b) (min e 0)
  · rw [e1] at hm
    push_cast
    linear_combination hm - (t : ℚ) * e2
  · exact le_min hmono hone

theorem rnd64_error_unit (z : ℚ) (h0 : 0 ≤ z) (h1 : z < 1) : |rnd64 z - z| ≤ 1 / 2 ^ 54 := by
  rcases eq_or_lt_of_le h0 with rfl | hpos
  · rw [rnd64_zero]; norm_num
  have hlog : Int.log 2 |z| < 0 :=
    (Int.lt_zpow_iff_log_lt (by norm_num) (abs_pos.2 hpos.ne')).1
      (by rw [abs_of_pos hpos]; simpa using h1)
  have he : ulpExp z ≤ -53 := by
    unfold ulpExp
    exact max_le (by omega) (by norm_num)
  unfold rnd64
  generalize ulpExp z = e at he
  have hp : (0 : ℚ) < 2 ^ e := by positivity
  have hle : (2 : ℚ) ^ e ≤ 2 ^ (-53 : ℤ) := zpow_le_zpow_right₀ (by norm_num) he
  have herr := roundHalfEven_error (z / 2 ^ e)
  have hfac : (roundHalfEven (z / 2 ^ e) : ℚ) * 2 ^ e - z =
      ((roundHalfEven (z / 2 ^ e) : ℚ) - z / 2 ^ e) * 2 ^ e := by
    field_simp
  rw [hfac, abs_mul, abs_of_pos hp]
  calc |(roundHalfEven (z / 2 ^ e) : ℚ) - z / 2 ^ e| * 2 ^ e
      ≤ 1 / 2 * 2 ^ e := mul_le_mul_of_nonneg_right herr hp.le
    _ ≤ 1 / 2 * 2 ^ (-53 : ℤ) := mul_le_mul_of_nonneg_left hle (by norm_num)
    _ = 1 / 2 ^ 54 := by norm_num

theorem rnd64_le_one (z : ℚ) (h0 : 0 ≤ z) (h1 : z < 1) : rnd64 z ≤ 1 := by
  rcases eq_or_lt_of_le h0 with rfl | hpos
  · rw [rnd64_zero]; norm_num
  have hlog : Int.log 2 |z| < 0 :=
    (Int.lt_zpow_iff_log_lt (by norm_num) (abs_pos.2 hpos.ne')).1
      (by rw [abs_of_pos hpos]; simpa using h1)
  have he : ulpExp z ≤ 0 := by
    unfold ulpExp
    exact max_le (by omega) (by norm_num)
  unfold rnd64
  generalize ulpExp z = e at he
  obtain ⟨n, hn⟩ := Int.eq_ofNat_of_zero_le (neg_nonneg.2 he)
  have he' : e = -(n : ℤ) := by omega
  subst he'
  have hp : (0 : ℚ) < 2 ^ n := by positivity
  have hx : z / 2 ^ (-(n : ℤ)) < ((2 ^ n : ℤ) : ℚ) := by
    rw [zpow_neg, zpow_natCast, div_inv_eq_mul]
    push_cast
    nlinarith
  have hr := roundHalfEven_le_of_lt _ _ hx
  have hr' : (roundHalfEven (z / 2 ^ (-(n : ℤ))) : ℚ) ≤ 2 ^ n := by exact_mod_cast hr
  generalize roundHalfEven (z / 2 ^ (-(n : ℤ))) = R at hr'
  rw [zpow_neg, zpow_natCast]
  calc (R : ℚ) * (2 ^ n)⁻¹
      ≤ 2 ^ n * (2 ^ n)⁻¹ := mul_le_mul_of_nonneg_right hr' (by positivity)
    _ = 1 := by field_simp



/-- Rounding returns a binary64 value. -/
theorem rnd64_idem (q : ℚ) : rnd64 (rnd64 q) = rnd64 q := by
  rcases eq_or_ne q 0 with rfl | hq
  · rw [rnd64_zero, rnd64_zero]
  have hqpos : 0 < |q| := abs_pos.2 hq
  have hlog : |q| < (2 : ℚ) ^ (Int.log 2 |q| + 1) := by
    have := Int.lt_zpow_succ_log_self (b := 2) (by norm_num) |q|
    exact_mod_cast this
  have he1 : Int.log 2 |q| - 52 ≤ ulpExp q := le_max_left _ _
  have he2 := ulpExp_ge q
  have hdef : rnd64 q = (roundHalfEven (q / 2 ^ ulpExp q) : ℚ) * 2 ^ ulpExp q := rfl
  generalize ulpExp q = e at he1 he2 hdef
  have hp : (0 : ℚ) < 2 ^ e := by positivity
  -- the scaled value is below 2 ^ 53 in magnitude
  have hx : |q / 2 ^ e| < ((2 ^ 53 : ℤ) : ℚ) := by
    rw [abs_div, abs_of_pos hp, div_lt_iff₀ hp]
    have h2 : (2 : ℚ) ^ (Int.log 2 |q| + 1) ≤ 2 ^ (e + 53) :=
      zpow_le_zpow_right₀ (by norm_num) (by omega)
    have h3 : (2 : ℚ) ^ (e + 53) = ((2 ^ 53 : ℤ) : ℚ) * 2 ^ e := by
      rw [zpow_add₀ (by norm_num)]
      push_cast
      rw [mul_comm]
      norm_num
    linarith
  rw [abs_lt] at hx
  have hM1 := roundHalfEven_le_of_lt _ _ hx.2
  have hM2 := roundHalfEven_ge_of_gt (q / 2 ^ e) (-(2 ^ 53)) (by push_cast at hx ⊢; exact hx.1)
  generalize roundHalfEven (q / 2 ^ e) = M at hM1 hM2 hdef
  rw [hdef]
  have hpow : ((M : ℚ) * 2 ^ e = 2 ^ (e + 53) ∨ (M : ℚ) * 2 ^ e = -(2 ^ (e + 53))) ∨
      (-(2 ^ 53) < M ∧ M < 2 ^ 53) := by
    rcases eq_or_lt_of_le hM1 with h | h
    · left; left
      rw [h, zpow_add₀ (by norm_num)]
      push_cast
      rw [mul_comm]
      norm_num
    · rcases eq_or_lt_of_le hM2 with h' | h'
      · left; right
        rw [← h', zpow_add₀ (by norm_num)]
        push_cast
        rw [mul_comm]
        norm_num
      · right; exact ⟨h', h⟩
  rcases hpow with (h | h) | ⟨h1, h2⟩
  · apply rnd64_of_multiple _ 1 (e + 53) (by rw [h]; simp)
    unfold ulpExp
    rw [h, abs_of_pos (by positivity)]
    have : Int.log 2 ((2 : ℚ) ^ (e + 53)) = e + 53 := by
      have := Int.log_zpow (R := ℚ) (b := 2) (by norm_num) (e + 53)
      exact_mod_cast this
    rw [this]
    exact max_le (by omega) (by omega)
  · apply rnd64_of_multiple _ (-1) (e + 53) (by rw [h]; simp)
    unfold ulpExp
    rw [h, abs_neg, abs_of_pos (by positivity)]
    have : Int.log 2 ((2 : ℚ) ^ (e + 53)) = e + 53 := by
      have := Int.log_zpow (R := ℚ) (b := 2) (by norm_num) (e + 53)
      exact_mod_cast this
    rw [this]
    exact max_le (by omega) (by omega)
  · rcases eq_or_ne M 0 with rfl | hM0
    · simp [rnd64_zero]
    apply rnd64_of_multiple _ M e rfl
    have hMabs : |(M : ℚ)| < 2 ^ 53 := by
      rw [abs_lt]
      constructor
      · exact_mod_cast h1
      · exact_mod_cast h2
    have hMpos : 0 < |(M : ℚ)| := abs_pos.2 (by exact_mod_cast hM0)
    have hlt : |(M : ℚ) * 2 ^ e| < (2 : ℚ) ^ (e + 53) := by
      rw [abs_mul, abs_of_pos hp, zpow_add₀ (by norm_num), mul_comm]
      have : (2 : ℚ) ^ (53 : ℤ) = 2 ^ 53 := by norm_num
      rw [this]
      exact mul_lt_mul_of_pos_left hMabs hp
    have hlog2 : Int.log 2 |(M : ℚ) * 2 ^ e| < e + 53 :=
      (Int.lt_zpow_iff_log_lt (by norm_num) (by positivity)).1 (by exact_mod_cast hlt)
    unfold ulpExp
    exact max_le (by omega) he2

/-- Sanity check of the rounding model: the binary64 value of `0.1` is
`0x3FB999999999999A`, that is `3602879701896397 * 2^(-55)`. -/
theorem rnd64_tenth : rnd64 (1 / 10) = 3602879701896397 / 2 ^ 55 := by
  have hl : Int.log 2 |(1 / 10 : ℚ)| = -4 := by
    apply log2_eq
    · rw [abs_of_pos (by norm_num)]; norm_num
    · rw [abs_of_pos (by norm_num)]; norm_num
  have he : ulpExp (1 / 10 : ℚ) = -56 := by
    unfold ulpExp; rw [hl]; norm_num
  unfold rnd64
  rw [he, roundHalfEven_of _ 7205759403792794]
  · norm_num
  · norm_num
  · norm_num

theorem rnd64_tiny : rnd64 (-(1 / 2 ^ 60)) = -(1 / 2 ^ 60) := by
  have hl : Int.log 2 |(-(1 / 2 ^ 60) : ℚ)| = -60 := by
    apply log2_eq
    · rw [abs_of_neg (by norm_num)]; norm_num
    · rw [abs_of_neg (by norm_num)]; norm_num
  have he : ulpExp (-(1 / 2 ^ 60) : ℚ) = -112 := by
    unfold ulpExp; rw [hl]; norm_num
  unfold rnd64
  rw [he, roundHalfEven_of _ (-(2 ^ 52))]
  · norm_num
  · norm_num
  · norm_num

theorem rnd64_one_minus_tiny : rnd64 (-(1 / 2 ^ 60) + 1) = 1 := by
  have hl : Int.log 2 |(-(1 / 2 ^ 60) + 1 : ℚ)| = -1 := by
    apply log2_eq
    · rw [abs_of_pos (by norm_num)]; norm_num
    · rw [abs_of_pos (by norm_num)]; norm_num
  have he : ulpExp (-(1 / 2 ^ 60) + 1 : ℚ) = -53 := by
    unfold ulpExp; rw [hl]; norm_num
  unfold rnd64
  rw [he, roundHalfEven_of _ (2 ^ 53)]
  · norm_num
  · norm_num
  · norm_num

theorem truncInt_tiny : truncInt (-(1 / 2 ^ 60)) = 0 := by
  unfold truncInt
  rw [if_neg (by norm_num), Int.ceil_eq_iff]
  norm_num

theorem truncInt_one : truncInt 1 = 1 := by
  unfold truncInt
  rw [if_pos (by norm_num)]
  exact Int.floor_one

theorem rnd64_eq_rndB (q : ℚ) : rnd64 q = rndB 52 (-1074) q := rfl

theorem roundHalfEven_neg (q : ℚ) : roundHalfEven (-q) = -roundHalfEven q := by
  have h1 := Int.floor_le q
  have h2 := Int.lt_floor_add_one q
  by_cases hi : (⌊q⌋ : ℚ) = q
  · rw [← hi, ← Int.cast_neg, roundHalfEven_intCast, roundHalfEven_intCast]
  · have hlt : (⌊q⌋ : ℚ) < q := lt_of_le_of_ne h1 hi
    have hf : ⌊-q⌋ = -⌊q⌋ - 1 := by
      rw [Int.floor_eq_iff]; push_cast; constructor <;> linarith
    unfold roundHalfEven
    rw [hf]
    push_cast
    split_ifs <;> first | omega | (exfalso; linarith)

theorem roundHalfEven_le_of_le (x : ℚ) (N : ℤ) (h : x ≤ N) : roundHalfEven x ≤ N := by
  rcases eq_or_lt_of_le h with h | h
  · rw [h, roundHalfEven_intCast]
  · exact roundHalfEven_le_of_lt x N h

theorem roundHalfEven_ge_of_ge (x : ℚ) (N : ℤ) (h : (N : ℚ) ≤ x) : N ≤ roundHalfEven x := by
  rcases eq_or_lt_of_le h with h | h
  · rw [← h, roundHalfEven_intCast]
  · exact roundHalfEven_ge_of_gt x N h

theorem ulpExpB_neg (t : ℕ) (emin : ℤ) (q : ℚ) : ulpExpB t emin (-q) = ulpExpB t emin q := by
  unfold ulpExpB
  rw [abs_neg]

theorem rndB_neg (t : ℕ) (emin : ℤ) (q : ℚ) : rndB t emin (-q) = -rndB t emin q := by
  unfold rndB
  rw [ulpExpB_neg, neg_div, roundHalfEven_neg]
  push_cast
  ring

theorem rndB_zero (t : ℕ) (emin : ℤ) : rndB t emin 0 = 0 := by
  unfold rndB
  rw [zero_div]
  have : roundHalfEven 0 = 0 := by simpa using roundHalfEven_intCast 0
  rw [this]; simp

theorem rndB_nonneg (t : ℕ) (emin : ℤ) (q : ℚ) (h : 0 ≤ q) : 0 ≤ rndB t emin q := by
  unfold rndB
  have h2 : 0 ≤ q / 2 ^ ulpExpB t emin q := by positivity
  have := roundHalfEven_nonneg _ h2
  have h3 : (0 : ℚ) ≤ (roundHalfEven (q / 2 ^ ulpExpB t emin q) : ℚ) := by exact_mod_cast this
  positivity

theorem rndB_nonpos (t : ℕ) (emin : ℤ) (q : ℚ) (h : q ≤ 0) : rndB t emin q ≤ 0 := by
  have := rndB_nonneg t emin (-q) (by linarith)
  rw [rndB_neg] at this
  linarith

theorem rndB_of_multiple (t : ℕ) (emin : ℤ) (q : ℚ) (m e : ℤ) (hq : q = m * 2 ^ e)
    (he : ulpExpB t emin q ≤ e) : rndB t emin q = q := by
  unfold rndB
  generalize ulpExpB t emin q = E at he ⊢
  obtain ⟨n, hn⟩ := Int.eq_ofNat_of_zero_le (sub_nonneg.2 he)
  have h2 : (2 : ℚ) ^ e = 2 ^ n * 2 ^ E := by
    have : e = (n : ℤ) + E := by omega
    rw [this, zpow_add₀ (by norm_num), zpow_natCast]
  have hpos : (2 : ℚ) ^ E ≠ 0 := by positivity
  have h3 : q / 2 ^ E = ((m * 2 ^ n : ℤ) : ℚ) := by
    rw [hq, h2]
    push_cast
    field_simp
    ring
  rw [h3, roundHalfEven_intCast, hq, h2]
  push_cast
  ring

theorem ulpExpB_ge (t : ℕ) (emin : ℤ) (q : ℚ) : emin ≤ ulpExpB t emin q := le_max_right _ _

theorem ulpExpB_mono (t : ℕ) (emin : ℤ) (y x : ℚ) (hy : y ≠ 0) (h : |y| ≤ |x|) :
    ulpExpB t emin y ≤ ulpExpB t emin x := by
  unfold ulpExpB
  have := Int.log_mono_right (b := 2) (abs_pos.2 hy) h
  exact max_le_max (by omega) le_rfl

/-- The rounding error is at most half a unit in the last place. -/
theorem rndB_error_ulp (t : ℕ) (emin : ℤ) (q : ℚ) :
    |rndB t emin q - q| ≤ 2 ^ ulpExpB t emin q / 2 := by
  unfold rndB
  generalize ulpExpB t emin q = e
  have hp : (0 : ℚ) < 2 ^ e := by positivity
  have herr := roundHalfEven_error (q / 2 ^ e)
  have hfac : (roundHalfEven (q / 2 ^ e) : ℚ) * 2 ^ e - q =
      ((roundHalfEven (q / 2 ^ e) : ℚ) - q / 2 ^ e) * 2 ^ e := by
    field_simp
  rw [hfac, abs_mul, abs_of_pos hp]
  calc |(roundHalfEven (q / 2 ^ e) : ℚ) - q / 2 ^ e| * 2 ^ e
      ≤ 1 / 2 * 2 ^ e := mul_le_mul_of_nonneg_right herr hp.le
    _ = 2 ^ e / 2 := by ring

theorem two_pow_log_le (q : ℚ) (hq : q ≠ 0) : (2 : ℚ) ^ Int.log 2 |q| ≤ |q| := by
  have := Int.zpow_log_le_self (b := 2) (r := |q|) (by norm_num) (abs_pos.2 hq)
  exact_mod_cast this

theorem lt_two_pow_log_succ (q : ℚ) : |q| < (2 : ℚ) ^ (Int.log 2 |q| + 1) := by
  have := Int.lt_zpow_succ_log_self (b := 2) (by norm_num) |q|
  exact_mod_cast this

/-- Relative and absolute part of the rounding error. -/
theorem rndB_error (t : ℕ) (emin : ℤ) (q : ℚ) :
    |rndB t emin q - q| ≤ |q| / 2 ^ (t + 1) + 2 ^ emin / 2 := by
  rcases eq_or_ne q 0 with rfl | hq
  · rw [rndB_zero]
    simp
    positivity
  have h := rndB_error_ulp t emin q
  have hl := two_pow_log_le q hq
  have hu : (2 : ℚ) ^ ulpExpB t emin q ≤ |q| / 2 ^ t + 2 ^ emin := by
    unfold ulpExpB
    have hpe : (0 : ℚ) < 2 ^ emin := by positivity
    have hpq : (0 : ℚ) ≤ |q| / 2 ^ t := by positivity
    rcases le_total (Int.log 2 |q| - (t : ℤ)) emin with hm | hm
    · rw [max_eq_right hm]; linarith
    · rw [max_eq_left hm, zpow_sub₀ (by norm_num), zpow_natCast]
      have : (2 : ℚ) ^ Int.log 2 |q| / 2 ^ t ≤ |q| / 2 ^ t :=
        div_le_div_of_nonneg_right hl (by positivity)
      linarith
  calc |rndB t emin q - q| ≤ 2 ^ ulpExpB t emin q / 2 := h
    _ ≤ (|q| / 2 ^ t + 2 ^ emin) / 2 := by linarith
    _ = |q| / 2 ^ (t + 1) + 2 ^ emin / 2 := by
      rw [pow_succ]; field_simp; ring

/-- In the normal range the rounding error is relative. -/
theorem rndB_error_rel (t : ℕ) (emin : ℤ) (q : ℚ) (hn : (2 : ℚ) ^ (emin + t) ≤ |q|) :
    |rndB t emin q - q| ≤ |q| / 2 ^ (t + 1) := by
  have hq : q ≠ 0 := by
    intro h
    rw [h, abs_zero] at hn
    have : (0 : ℚ) < 2 ^ (emin + t) := by positivity
    linarith
  have h := rndB_error_ulp t emin q
  have hl := two_pow_log_le q hq
  have hlog : emin + t ≤ Int.log 2 |q| :=
    (Int.zpow_le_iff_le_log (by norm_num) (abs_pos.2 hq)).1 (by exact_mod_cast hn)
  have hu : (2 : ℚ) ^ ulpExpB t emin q ≤ |q| / 2 ^ t := by
    unfold ulpExpB
    rw [max_eq_left (by omega), zpow_sub₀ (by norm_num), zpow_natCast]
    exact div_le_div_of_nonneg_right hl (by positivity)
  calc |rndB t emin q - q| ≤ 2 ^ ulpExpB t emin q / 2 := h
    _ ≤ (|q| / 2 ^ t) / 2 := by linarith
    _ = |q| / 2 ^ (t + 1) := by
      rw [pow_succ]; field_simp
/-- Rounding returns a value of the format. -/
theorem rndB_idem (t : ℕ) (emin : ℤ) (q : ℚ) :
    rndB t emin (rndB t emin q) = rndB t emin q := by
  rcases eq_or_ne q 0 with rfl | hq
  · rw [rndB_zero, rndB_zero]
  have hlog := lt_two_pow_log_succ q
  have he1 : Int.log 2 |q| - t ≤ ulpExpB t emin q := le_max_left _ _
  have he2 := ulpExpB_ge t emin q
  have hdef : rndB t emin q =
      (roundHalfEven (q / 2 ^ ulpExpB t emin q) : ℚ) * 2 ^ ulpExpB t emin q := rfl
  generalize ulpExpB t emin q = e at he1 he2 hdef
  have hp : (0 : ℚ) < 2 ^ e := by positivity
  have h3 : (2 : ℚ) ^ (e + ((t + 1 : ℕ) : ℤ)) = ((2 ^ (t + 1) : ℤ) : ℚ) * 2 ^ e := by
    rw [zpow_add₀ (by norm_num), zpow_natCast]
    push_cast
    ring
  have hx : |q / 2 ^ e| < ((2 ^ (t + 1) : ℤ) : ℚ) := by
    rw [abs_div, abs_of_pos hp, div_lt_iff₀ hp]
    have h2 : (2 : ℚ) ^ (Int.log 2 |q| + 1) ≤ 2 ^ (e + ((t + 1 : ℕ) : ℤ)) :=
      zpow_le_zpow_right₀ (by norm_num) (by push_cast; omega)
    linarith
  rw [abs_lt] at hx
  have hM1 := roundHalfEven_le_of_lt _ _ hx.2
  have hM2 := roundHalfEven_ge_of_gt (q / 2 ^ e) (-(2 ^ (t + 1)))
    (by push_cast at hx ⊢; exact hx.1)
  generalize roundHalfEven (q / 2 ^ e) = M at hM1 hM2 hdef
  rw [hdef]
  have hlogp : Int.log 2 ((2 : ℚ) ^ (e + ((t + 1 : ℕ) : ℤ))) = e + ((t + 1 : ℕ) : ℤ) := by
    have := Int.log_zpow (R := ℚ) (b := 2) (by norm_num) (e + ((t + 1 : ℕ) : ℤ))
    exact_mod_cast this
  rcases eq_or_lt_of_le hM1 with h | h
  · have hv : (M : ℚ) * 2 ^ e = 2 ^ (e + ((t + 1 : ℕ) : ℤ)) := by rw [h3, h]
    apply rndB_of_multiple t emin _ 1 (e + ((t + 1 : ℕ) : ℤ)) (by rw [hv]; simp)
    unfold ulpExpB
    rw [hv, abs_of_pos (by positivity), hlogp]
    exact max_le (by push_cast; omega) (by omega)
  · rcases eq_or_lt_of_le hM2 with h' | h'
    · have hv : (M : ℚ) * 2 ^ e = -(2 ^ (e + ((t + 1 : ℕ) : ℤ))) := by
        rw [h3, ← h']; push_cast; ring
      apply rndB_of_multiple t emin _ (-1) (e + ((t + 1 : ℕ) : ℤ)) (by rw [hv]; simp)
      unfold ulpExpB
      rw [hv, abs_neg, abs_of_pos (by positivity), hlogp]
      exact max_le (by push_cast; omega) (by omega)
    · rcases eq_or_ne M 0 with rfl | hM0
      · simp [rndB_zero]
      apply rndB_of_multiple t emin _ M e rfl
      have hMabs : |(M : ℚ)| < ((2 ^ (t + 1) : ℤ) : ℚ) := by
        rw [abs_lt]
        constructor
        · exact_mod_cast h'
        · exact_mod_cast h
      have hMpos : 0 < |(M : ℚ)| := abs_pos.2 (by exact_mod_cast hM0)
      have hlt : |(M : ℚ) * 2 ^ e| < (2 : ℚ) ^ (e + ((t + 1 : ℕ) : ℤ)) := by
        rw [abs_mul, abs_of_pos hp, h3]
        exact mul_lt_mul_of_pos_right hMabs hp
      have hlog2 : Int.log 2 |(M : ℚ) * 2 ^ e| < e + ((t + 1 : ℕ) : ℤ) :=
        (Int.lt_zpow_iff_log_lt (by norm_num) (by positivity)).1 (by exact_mod_cast hlt)
      unfold ulpExpB
      exact max_le (by push_cast at hlog2 ⊢; omega) he2

/-- A value of the format whose unit in the last place is not finer than that of `x`
bounds the rounding of `x` as it bounds `x`. -/
theorem rndB_between_of_ulp_le (t : ℕ) (emin : ℤ) (x g : ℚ) (hg : rndB t emin g = g)
    (he : ulpExpB t emin x ≤ ulpExpB t emin g) :
    (x ≤ g → rndB t emin x ≤ g) ∧ (g ≤ x → g ≤ rndB t emin x) := by
  have hm : g = (roundHalfEven (g / 2 ^ ulpExpB t emin g) : ℚ) * 2 ^ ulpExpB t emin g :=
    hg.symm
  generalize roundHalfEven (g / 2 ^ ulpExpB t emin g) = M at hm
  generalize ulpExpB t emin g = eg at hm he
  unfold rndB
  generalize ulpExpB t emin x = e at he ⊢
  obtain ⟨n, hn⟩ := Int.eq_ofNat_of_zero_le (sub_nonneg.2 he)
  have h2 : (2 : ℚ) ^ eg = 2 ^ n * 2 ^ e := by
    have : eg = (n : ℤ) + e := by omega
    rw [this, zpow_add₀ (by norm_num), zpow_natCast]
  have hp : (0 : ℚ) < 2 ^ e := by positivity
  have hgN : g = ((M * 2 ^ n : ℤ) : ℚ) * 2 ^ e := by
    rw [hm, h2]; push_cast; ring
  constructor
  · intro hx
    have h1 : x / 2 ^ e ≤ ((M * 2 ^ n : ℤ) : ℚ) := by
      rw [div_le_iff₀ hp, ← hgN]; exact hx
    have h3 := roundHalfEven_le_of_le _ _ h1
    have h4 : (roundHalfEven (x / 2 ^ e) : ℚ) ≤ ((M * 2 ^ n : ℤ) : ℚ) := by exact_mod_cast h3
    calc (roundHalfEven (x / 2 ^ e) : ℚ) * 2 ^ e
        ≤ ((M * 2 ^ n : ℤ) : ℚ) * 2 ^ e := mul_le_mul_of_nonneg_right h4 hp.le
      _ = g := hgN.symm
  · intro hx
    have h1 : ((M * 2 ^ n : ℤ) : ℚ) ≤ x / 2 ^ e := by
      rw [le_div_iff₀ hp, ← hgN]; exact hx
    have h3 := roundHalfEven_ge_of_ge _ _ h1
    have h4 : ((M * 2 ^ n : ℤ) : ℚ) ≤ (roundHalfEven (x / 2 ^ e) : ℚ) := by exact_mod_cast h3
    calc g = ((M * 2 ^ n : ℤ) : ℚ) * 2 ^ e := hgN
      _ ≤ (roundHalfEven (x / 2 ^ e) : ℚ) * 2 ^ e := mul_le_mul_of_nonneg_right h4 hp.le

theorem rndB_ge_of_pos_le (t : ℕ) (emin : ℤ) (x g : ℚ) (hg : rndB t emin g = g)
    (hg0 : 0 < g) (hx : g ≤ x) : g ≤ rndB t emin x := by
  rcases le_or_lt (ulpExpB t emin x) (ulpExpB t emin g) with he | he
  · exact (rndB_between_of_ulp_le t emin x g hg he).2 hx
  · have hx0 : 0 < x := lt_of_lt_of_le hg0 hx
    have hL := two_pow_log_le x hx0.ne'
    have hgl := lt_two_pow_log_succ g
    have hax : |x| = x := abs_of_pos hx0
    have hag : |g| = g := abs_of_pos hg0
    have heg1 : Int.log 2 |g| - t ≤ ulpExpB t emin g := le_max_left _ _
    have heg2 := ulpExpB_ge t emin g
    have hex : ulpExpB t emin x = Int.log 2 |x| - t := by
      unfold ulpExpB
      apply max_eq_left
      by_contra hc
      push_neg at hc
      have : ulpExpB t emin x = emin := by
        unfold ulpExpB
        exact max_eq_right hc.le
      omega
    have hLg : Int.log 2 |g| + 1 ≤ Int.log 2 |x| := by omega
    have hglt : g < (2 : ℚ) ^ Int.log 2 |x| := by
      have : (2 : ℚ) ^ (Int.log 2 |g| + 1) ≤ 2 ^ Int.log 2 |x| :=
        zpow_le_zpow_right₀ (by norm_num) hLg
      linarith
    unfold rndB
    rw [hex]
    generalize Int.log 2 |x| = L at hL hglt
    have hp : (0 : ℚ) < 2 ^ (L - (t : ℤ)) := by positivity
    have hsplit : (2 : ℚ) ^ L = ((2 ^ t : ℤ) : ℚ) * 2 ^ (L - (t : ℤ)) := by
      have : L = (t : ℤ) + (L - (t : ℤ)) := by omega
      conv_lhs => rw [this]
      rw [zpow_add₀ (by norm_num), zpow_natCast]
      push_cast
      ring
    have h1 : ((2 ^ t : ℤ) : ℚ) ≤ x / 2 ^ (L - (t : ℤ)) := by
      rw [le_div_iff₀ hp, ← hsplit]; linarith
    have h3 := roundHalfEven_ge_of_ge _ _ h1
    have h4 : ((2 ^ t : ℤ) : ℚ) ≤ (roundHalfEven (x / 2 ^ (L - (t : ℤ))) : ℚ) := by
      exact_mod_cast h3
    calc g ≤ (2 : ℚ) ^ L := hglt.le
      _ = ((2 ^ t : ℤ) : ℚ) * 2 ^ (L - (t : ℤ)) := hsplit
      _ ≤ (roundHalfEven (x / 2 ^ (L - (t : ℤ))) : ℚ) * 2 ^ (L - (t : ℤ)) :=
        mul_le_mul_of_nonneg_right h4 hp.le

/-- Rounding is monotone against the values of the format: a value of the format below
`x` is below the rounding of `x`. -/
theorem rndB_ge_of_ge (t : ℕ) (emin : ℤ) (x g : ℚ) (hg : rndB t emin g = g) (hx : g ≤ x) :
    g ≤ rndB t emin x := by
  rcases le_or_lt 0 x with h0 | h0
  · rcases le_or_lt g 0 with hg0 | hg0
    · exact le_trans hg0 (rndB_nonneg _ _ _ h0)
    · exact rndB_ge_of_pos_le t emin x g hg hg0 hx
  · have : |x| ≤ |g| := by
      rw [abs_of_neg h0, abs_of_neg (by linarith)]; linarith
    exact (rndB_between_of_ulp_le t emin x g hg (ulpExpB_mono _ _ _ _ h0.ne this)).2 hx

theorem rndB_le_of_le (t : ℕ) (emin : ℤ) (x g : ℚ) (hg : rndB t emin g = g) (hx : x ≤ g) :
    rndB t emin x ≤ g := by
  have := rndB_ge_of_ge t emin (-x) (-g) (by rw [rndB_neg, hg]) (by linarith)
  rw [rndB_neg] at this
  linarith

/-- Every value of the format is a multiple of its least spacing. -/
theorem rndB_fixed_multiple (t : ℕ) (emin : ℤ) (g : ℚ) (hg : rndB t emin g = g) :
    ∃ m : ℤ, g = m * 2 ^ emin := by
  have hm : g = (roundHalfEven (g / 2 ^ ulpExpB t emin g) : ℚ) * 2 ^ ulpExpB t emin g :=
    hg.symm
  have he := ulpExpB_ge t emin g
  generalize roundHalfEven (g / 2 ^ ulpExpB t emin g) = M at hm
  generalize ulpExpB t emin g = eg at hm he
  obtain ⟨n, hn⟩ := Int.eq_ofNat_of_zero_le (sub_nonneg.2 he)
  have h2 : (2 : ℚ) ^ eg = 2 ^ n * 2 ^ emin := by
    have : eg = (n : ℤ) + emin := by omega
    rw [this, zpow_add₀ (by norm_num), zpow_natCast]
  exact ⟨M * 2 ^ n, by rw [hm, h2]; push_cast; ring⟩

/-- Multiples of the least spacing below the normal range are values of the format. -/
theorem rndB_of_small_multiple (t : ℕ) (emin : ℤ) (x : ℚ) (m : ℤ) (hx : x = m * 2 ^ emin)
    (hs : |x| < 2 ^ (emin + t + 1)) : rndB t emin x = x := by
  rcases eq_or_ne x 0 with h0 | h0
  · rw [h0, rndB_zero]
  apply rndB_of_multiple t emin x m emin hx
  have hl : Int.log 2 |x| < emin + t + 1 :=
    (Int.lt_zpow_iff_log_lt (by norm_num) (abs_pos.2 h0)).1 (by exact_mod_cast hs)
  unfold ulpExpB
  exact max_le (by omega) le_rfl

/-- Rounding error of one binary64 operation: relative `2^(-53)`, absolute `2^(-1075)`. -/
theorem rnd64_error (q : ℚ) : |rnd64 q - q| ≤ |q| / 2 ^ 53 + 2 ^ (-1074 : ℤ) / 2 :=
  rndB_error 52 (-1074) q

theorem rnd64_lt_one (z : ℚ) (h0 : 0 ≤ z) (h1 : z < 1 - 1 / 2 ^ 54) : rnd64 z < 1 := by
  rcases eq_or_lt_of_le h0 with rfl | hpos
  · rw [rnd64_zero]; norm_num
  have hz1 : z < 1 := by
    have : (0 : ℚ) < 1 / 2 ^ 54 := by positivity
    linarith
  have hlog : Int.log 2 |z| < 0 :=
    (Int.lt_zpow_iff_log_lt (by norm_num) (abs_pos.2 hpos.ne')).1
      (by rw [abs_of_pos hpos]; simpa using hz1)
  have he : ulpExp z ≤ -53 := by
    unfold ulpExp
    exact max_le (by omega) (by norm_num)
  unfold rnd64
  generalize ulpExp z = e at he
  obtain ⟨n, hn⟩ := Int.eq_ofNat_of_zero_le (show 0 ≤ -53 - e by omega)
  have he' : e = -((n : ℤ) + 53) := by omega
  subst he'
  have hpw : (2 : ℚ) ^ (-((n : ℤ) + 53)) = 1 / (2 ^ n * 2 ^ 53) := by
    rw [zpow_neg, zpow_add₀ (by norm_num), zpow_natCast]
    norm_num
  rw [hpw]
  have hp : (0 : ℚ) < 2 ^ n := by positivity
  have h1n : (1 : ℚ) ≤ 2 ^ n := one_le_pow₀ (by norm_num)
  have hx : z / (1 / (2 ^ n * 2 ^ 53)) < (2 ^ n * 2 ^ 53 : ℚ) - 1 / 2 := by
    rw [div_div_eq_mul_div, div_one]
    nlinarith
  have herr := roundHalfEven_error (z / (1 / (2 ^ n * 2 ^ 53)))
  rw [abs_le] at herr
  have hlt : (roundHalfEven (z / (1 / (2 ^ n * 2 ^ 53))) : ℚ) < ((2 ^ n * 2 ^ 53 : ℤ) : ℚ) := by
    push_cast
    linarith
  have hR : roundHalfEven (z / (1 / (2 ^ n * 2 ^ 53))) ≤ 2 ^ n * 2 ^ 53 - 1 := by
    have := Int.cast_lt.1 hlt
    omega
  have hR' : (roundHalfEven (z / (1 / (2 ^ n * 2 ^ 53))) : ℚ) ≤ 2 ^ n * 2 ^ 53 - 1 := by
    exact_mod_cast hR
  generalize roundHalfEven (z / (1 / (2 ^ n * 2 ^ 53))) = R at hR'
  have hK : (0 : ℚ) < 2 ^ n * 2 ^ 53 := by positivity
  rw [mul_one_div, div_lt_one hK]
  linarith

/-- The remainder `x - floor(x)` of a binary64 value of magnitude at least `1` is a
binary64 value. -/
theorem rnd64_sub_floor_of_one_le (x : ℚ) (hx : isDouble x) (h1 : 1 ≤ |x|) :
    rnd64 (x - ⌊x⌋) = x - ⌊x⌋ := by
  rcases eq_or_ne (x - ⌊x⌋) 0 with h0 | h0
  · rw [h0, rnd64_zero]
  have hfl := Int.floor_le x
  have hlt := Int.lt_floor_add_one x
  have hz : |x - ⌊x⌋| < 1 := by
    rw [abs_lt]; constructor <;> linarith
  have hm := isDouble_multiple x hx
  have hx0 : x ≠ 0 := by
    intro h; rw [h] at h1; norm_num at h1
  have hlog : 0 ≤ Int.log 2 |x| :=
    (Int.zpow_le_iff_le_log (by norm_num) (abs_pos.2 hx0)).1 (by simpa using h1)
  have he : -52 ≤ ulpExp x := le_trans (by omega) (le_max_left _ _)
  have hlog2 : Int.log 2 |x - ⌊x⌋| < 0 :=
    (Int.lt_zpow_iff_log_lt (by norm_num) (abs_pos.2 h0)).1 (by simpa using hz)
  have hez : ulpExp (x - ⌊x⌋) ≤ -53 := by
    unfold ulpExp
    exact max_le (by omega) (by norm_num)
  generalize roundHalfEven (x / 2 ^ ulpExp x) = m at hm
  generalize ulpExp x = e at hm he
  generalize ⌊x⌋ = t at *
  obtain ⟨a, ha⟩ := Int.eq_ofNat_of_zero_le (sub_nonneg.2 (min_le_left e 0))
  obtain ⟨b, hb⟩ := Int.eq_ofNat_of_zero_le (sub_nonneg.2 (min_le_right e 0))
  have e1 : (2 : ℚ) ^ e = 2 ^ a * 2 ^ (min e 0) := by
    have : e = (a : ℤ) + min e 0 := by omega
    conv_lhs => rw [this]
    rw [zpow_add₀ (by norm_num), zpow_natCast]
  have e2 : (1 : ℚ) = 2 ^ b * 2 ^ (min e 0) := by
    have : (0 : ℤ) = (b : ℤ) + min e 0 := by omega
    have h := zpow_add₀ (a := (2 : ℚ)) (by norm_num) (b : ℤ) (min e 0)
    rw [← this, zpow_zero, zpow_natCast] at h
    exact h
  apply rnd64_of_multiple _ (m * 2 ^ a - t * 2 ^ b) (min e 0)
  · rw [e1] at hm
    push_cast
    linear_combination hm - (t : ℚ) * e2
  · exact le_trans hez (le_min (by omega) (by norm_num))

theorem rnd32_zero : rnd32 0 = 0 := rndB_zero 23 (-149)

theorem rnd32_neg (q : ℚ) : rnd32 (-q) = -rnd32 q := rndB_neg 23 (-149) q

theorem rnd32_nonneg (q : ℚ) (h : 0 ≤ q) : 0 ≤ rnd32 q := rndB_nonneg 23 (-149) q h

theorem rnd32_nonpos (q : ℚ) (h : q ≤ 0) : rnd32 q ≤ 0 := rndB_nonpos 23 (-149) q h

theorem rnd32_idem (q : ℚ) : rnd32 (rnd32 q) = rnd32 q := rndB_idem 23 (-149) q

theorem rnd32_le_of_le (x g : ℚ) (hg : rnd32 g = g) (hx : x ≤ g) : rnd32 x ≤ g :=
  rndB_le_of_le 23 (-149) x g hg hx

theorem rnd32_ge_of_ge (x g : ℚ) (hg : rnd32 g = g) (hx : g ≤ x) : g ≤ rnd32 x :=
  rndB_ge_of_ge 23 (-149) x g hg hx

theorem rnd32_abs_le (x g : ℚ) (hg : rnd32 g = g) (hx : |x| ≤ g) : |rnd32 x| ≤ g := by
  rw [abs_le] at hx ⊢
  exact ⟨rnd32_ge_of_ge x (-g) (by rw [rnd32_neg, hg]) hx.1, rnd32_le_of_le x g hg hx.2⟩

/-- Rounding error of one binary32 operation: relative `2^(-24)`, absolute `2^(-150)`. -/
theorem rnd32_error (q : ℚ) : |rnd32 q - q| ≤ |q| / 2 ^ 24 + 1 / 2 ^ 150 := by
  have h := rndB_error 23 (-149) q
  have e : (2 : ℚ) ^ (-149 : ℤ) / 2 = 1 / 2 ^ 150 := by
    rw [zpow_neg]; norm_num
  rw [e] at h
  exact h

theorem rnd32_error_rel (q : ℚ) (hn : 1 / 2 ^ 126 ≤ |q|) : |rnd32 q - q| ≤ |q| / 2 ^ 24 := by
  apply rndB_error_rel 23 (-149) q
  have e : (2 : ℚ) ^ ((-149 : ℤ) + ((23 : ℕ) : ℤ)) = 1 / 2 ^ 126 := by
    norm_num
  rw [e]
  exact hn

theorem rnd32_fixed_multiple (g : ℚ) (hg : rnd32 g = g) : ∃ m : ℤ, g = m / 2 ^ 149 := by
  obtain ⟨m, hm⟩ := rndB_fixed_multiple 23 (-149) g hg
  refine ⟨m, ?_⟩
  have e : (2 : ℚ) ^ (-149 : ℤ) = 1 / 2 ^ 149 := by
    rw [zpow_neg]; norm_num
  rw [hm, e]
  ring

theorem rnd32_of_small_multiple (x : ℚ) (m : ℤ) (hx : x = m / 2 ^ 149)
    (hs : |x| < 1 / 2 ^ 125) : rnd32 x = x := by
  apply rndB_of_small_multiple 23 (-149) x m
  · have e : (2 : ℚ) ^ (-149 : ℤ) = 1 / 2 ^ 149 := by
      rw [zpow_neg]; norm_num
    rw [hx, e]
    ring
  · have e : (2 : ℚ) ^ ((-149 : ℤ) + ((23 : ℕ) : ℤ) + 1) = 1 / 2 ^ 125 := by
      norm_num
    rw [e]
    exact hs

/-- Integers of magnitude below `2^24` are binary32 values. -/
theorem rnd32_int (m : ℤ) (hm : |m| < 2 ^ 24) : rnd32 (m : ℚ) = m := by
  rcases eq_or_ne m 0 with rfl | h0
  · simpa using rnd32_zero
  apply rndB_of_multiple 23 (-149) _ m 0 (by simp)
  have hq : |(m : ℚ)| < 2 ^ (24 : ℤ) := by
    have : |(m : ℚ)| < 2 ^ 24 := by exact_mod_cast hm
    have e : (2 : ℚ) ^ (24 : ℤ) = 2 ^ 24 := by norm_num
    rw [e]
    exact this
  have hl : Int.log 2 |(m : ℚ)| < 24 :=
    (Int.lt_zpow_iff_log_lt (by norm_num) (abs_pos.2 (by exact_mod_cast h0))).1
      (by exact_mod_cast hq)
  unfold ulpExpB
  exact max_le (by omega) (by norm_num)

/-- Powers of two up to `2^127` are binary32 values. -/
theorem rnd32_two_pow (n : ℕ) : rnd32 (2 ^ n) = 2 ^ n := by
  apply rndB_of_multiple 23 (-149) _ 1 n (by simp)
  have hl : Int.log 2 |((2 : ℚ) ^ n)| = n := by
    rw [abs_of_pos (by positivity)]
    have := Int.log_zpow (R := ℚ) (b := 2) (by norm_num) (n : ℤ)
    rw [zpow_natCast] at this
    exact_mod_cast this
  unfold ulpExpB
  rw [hl]
  exact max_le (by push_cast; omega) (by omega)

/-! ### Timestamp normalisation -/

theorem fix_tinyNegative : fix tinyNegative = ⟨-1, 1⟩ := by
  unfold fix fixWith tinyNegative
  simp only [truncInt_tiny, Int.cast_zero, sub_zero, rnd64_tiny, rnd64_one_minus_tiny]
  rw [if_pos (by norm_num)]
  norm_num

theorem fix_minus_one_one : fix ⟨-1, 1⟩ = ⟨0, 0⟩ := by
  unfold fix fixWith
  simp only [truncInt_one, Int.cast_one, sub_self, rnd64_zero]
  rw [if_neg (by norm_num)]
  norm_num

/-- In exact arithmetic (no rounding) `fix` normalises every timestamp: the fraction of
the result is the fractional part of the input fraction, the seconds absorb its floor. -/
theorem fixWith_id_normalises (ts : srsran_timestamp_t) :
    (fixWith id ts).full_secs = ts.full_secs + ⌊ts.frac_secs⌋ ∧
    (fixWith id ts).frac_secs = ts.frac_secs - ⌊ts.frac_secs⌋ ∧
    0 ≤ (fixWith id ts).frac_secs ∧ (fixWith id ts).frac_secs < 1 := by
  have hfl := Int.floor_le ts.frac_secs
  have hlt := Int.lt_floor_add_one ts.frac_secs
  have hcl := Int.le_ceil ts.frac_secs
  have hcl2 := Int.ceil_lt_add_one ts.frac_secs
  unfold fixWith truncInt
  simp only [id]
  by_cases h0 : 0 ≤ ts.frac_secs
  · rw [if_pos h0, if_neg (by linarith)]
    dsimp only
    exact ⟨rfl, rfl, by linarith, by linarith⟩
  · rw [if_neg h0]
    by_cases hc : ts.frac_secs - (⌈ts.frac_secs⌉ : ℚ) < 0
    · rw [if_pos hc]
      have hfc : ⌊ts.frac_secs⌋ = ⌈ts.frac_secs⌉ - 1 := by
        rw [Int.floor_eq_iff]; push_cast; constructor <;> linarith
      rw [hfc]
      dsimp only
      push_cast
      exact ⟨by ring, by ring, by linarith, by linarith⟩
    · rw [if_neg hc]
      have hfc : ⌊ts.frac_secs⌋ = ⌈ts.frac_secs⌉ := by
        rw [Int.floor_eq_iff]; constructor <;> linarith
      rw [hfc]
      dsimp only
      exact ⟨rfl, rfl, by linarith, by linarith⟩

/-- A timestamp whose fraction is a binary64 value in `[0, 1)` is left unchanged by `fix`. -/
theorem fix_of_normalised (ts : srsran_timestamp_t) (hd : isDouble ts.frac_secs)
    (h0 : 0 ≤ ts.frac_secs) (h1 : ts.frac_secs < 1) : fix ts = ts := by
  have hfl : ⌊ts.frac_secs⌋ = 0 := by
    rw [Int.floor_eq_iff]; constructor
    · simpa using h0
    · simpa using h1
  unfold isDouble at hd
  unfold fix fixWith truncInt
  simp only [if_pos h0, hfl, Int.cast_zero, sub_zero, hd, add_zero]
  rw [if_neg (by linarith)]

/-- Closed form of `fix` on binary64 arithmetic: the seconds absorb the floor of the
fraction, and the new fraction is the remainder rounded once. -/
theorem fix_eq (ts : srsran_timestamp_t) (hd : isDouble ts.frac_secs) :
    fix ts = ⟨ts.full_secs + ⌊ts.frac_secs⌋, rnd64 (ts.frac_secs - ⌊ts.frac_secs⌋)⟩ := by
  have hfl := Int.floor_le ts.frac_secs
  have hlt := Int.lt_floor_add_one ts.frac_secs
  have hcl := Int.le_ceil ts.frac_secs
  have hcl2 := Int.ceil_lt_add_one ts.frac_secs
  have hex := rnd64_sub_trunc ts.frac_secs hd
  unfold fix fixWith
  simp only [hex]
  unfold truncInt at hex ⊢
  by_cases h0 : 0 ≤ ts.frac_secs
  · rw [if_pos h0] at hex ⊢
    rw [if_neg (by linarith), hex]
  · rw [if_neg h0] at hex ⊢
    by_cases hc : ts.frac_secs - (⌈ts.frac_secs⌉ : ℚ) < 0
    · rw [if_pos hc]
      have hfc : ⌊ts.frac_secs⌋ = ⌈ts.frac_secs⌉ - 1 := by
        rw [Int.floor_eq_iff]; push_cast; constructor <;> linarith
      rw [hfc]
      push_cast
      have e : ts.frac_secs - (⌈ts.frac_secs⌉ : ℚ) + 1 = ts.frac_secs - ((⌈ts.frac_secs⌉ : ℚ) - 1) := by
        ring
      rw [e, add_sub_assoc]
    · rw [if_neg hc]
      have hfc : ⌊ts.frac_secs⌋ = ⌈ts.frac_secs⌉ := by
        rw [Int.floor_eq_iff]; constructor <;> linarith
      rw [hfc, hex]

theorem fix_frac_isDouble (ts : srsran_timestamp_t) (hd : isDouble ts.frac_secs) :
    isDouble (fix ts).frac_secs := by
  rw [fix_eq ts hd]
  exact rnd64_idem _

theorem fix_frac_le_one (ts : srsran_timestamp_t) (hd : isDouble ts.frac_secs) :
    0 ≤ (fix ts).frac_secs ∧ (fix ts).frac_secs ≤ 1 := by
  have hfl := Int.floor_le ts.frac_secs
  have hlt := Int.lt_floor_add_one ts.frac_secs
  rw [fix_eq ts hd]
  exact ⟨rnd64_nonneg _ (by linarith), rnd64_le_one _ (by linarith) (by linarith)⟩

/-- Outside the fractions of `[-2^(-54), 0)` the fraction that `fix` returns is below `1`. -/
theorem fix_frac_lt_one (ts : srsran_timestamp_t) (hd : isDouble ts.frac_secs)
    (hns : ts.frac_secs < -(1 / 2 ^ 54) ∨ 0 ≤ ts.frac_secs) : (fix ts).frac_secs < 1 := by
  have hfl := Int.floor_le ts.frac_secs
  have hlt := Int.lt_floor_add_one ts.frac_secs
  rw [fix_eq ts hd]
  dsimp only
  by_cases h0 : 0 ≤ ts.frac_secs
  · have := rnd64_sub_trunc ts.frac_secs hd
    unfold truncInt at this
    rw [if_pos h0] at this
    rw [this]; linarith
  · have hneg : ts.frac_secs < -(1 / 2 ^ 54) := by
      rcases hns with h | h
      · exact h
      · exact absurd h h0
    by_cases h1 : ts.frac_secs ≤ -1
    · rw [rnd64_sub_floor_of_one_le ts.frac_secs hd (by rw [abs_of_neg (by linarith)]; linarith)]
      linarith
    · have hf : ⌊ts.frac_secs⌋ = -1 := by
        rw [Int.floor_eq_iff]; push_cast; constructor <;> linarith
      rw [hf]
      push_cast
      exact rnd64_lt_one _ (by linarith) (by linarith)

/-- The time a timestamp denotes changes by at most `2^(-54)` under `fix`. -/
theorem fix_sum_error (ts : srsran_timestamp_t) (hd : isDouble ts.frac_secs) :
    |(((fix ts).full_secs : ℚ) + (fix ts).frac_secs) - (ts.full_secs + ts.frac_secs)| ≤
      1 / 2 ^ 54 := by
  have hfl := Int.floor_le ts.frac_secs
  have hlt := Int.lt_floor_add_one ts.frac_secs
  rw [fix_eq ts hd]
  dsimp only
  have hz0 : 0 ≤ ts.frac_secs - ⌊ts.frac_secs⌋ := by linarith
  have hz1 : ts.frac_secs - ⌊ts.frac_secs⌋ < 1 := by linarith
  have := rnd64_error_unit _ hz0 hz1
  have e : ((ts.full_secs + ⌊ts.frac_secs⌋ : ℤ) : ℚ) + rnd64 (ts.frac_secs - ⌊ts.frac_secs⌋) -
      (ts.full_secs + ts.frac_secs) =
      rnd64 (ts.frac_secs - ⌊ts.frac_secs⌋) - (ts.frac_secs - ⌊ts.frac_secs⌋) := by
    push_cast; ring
  rw [e]; exact this

theorem isDouble_one : isDouble 1 :=
  rnd64_of_multiple 1 1 0 (by norm_num) (by
    unfold ulpExp
    have : Int.log 2 |(1 : ℚ)| = 0 := log2_eq _ 0 (by norm_num) (by norm_num)
    rw [this]; norm_num)

/-- On binary64 arithmetic a second `fix` changes nothing exactly when the first one
returned a fraction below `1`; a third `fix` never changes anything. -/
theorem fix_idempotent_iff (ts : srsran_timestamp_t) (hd : isDouble ts.frac_secs) :
    (fix (fix ts) = fix ts ↔ (fix ts).frac_secs < 1) ∧ fix (fix (fix ts)) = fix (fix ts) := by
  obtain ⟨h0, h1⟩ := fix_frac_le_one ts hd
  have hd' := fix_frac_isDouble ts hd
  generalize fix ts = r at h0 h1 hd' ⊢
  obtain ⟨F, f⟩ := r
  dsimp only at h0 h1 hd' ⊢
  rcases eq_or_lt_of_le h1 with he | hl
  · subst he
    have h2 : fix ⟨F, 1⟩ = ⟨F + 1, 0⟩ := by
      rw [fix_eq ⟨F, 1⟩ isDouble_one]
      simp [rnd64_zero]
    have hne : fix ⟨F, 1⟩ ≠ ⟨F, 1⟩ := by
      rw [h2]
      intro h
      have := congrArg srsran_timestamp_t.frac_secs h
      norm_num at this
    refine ⟨⟨fun h => absurd h hne, fun h => absurd h (lt_irrefl _)⟩, ?_⟩
    rw [h2]
    exact fix_of_normalised ⟨F + 1, 0⟩ rnd64_zero (le_refl _) (by norm_num)
  · have h2 : fix ⟨F, f⟩ = ⟨F, f⟩ := fix_of_normalised ⟨F, f⟩ hd' h0 hl
    exact ⟨⟨fun _ => hl, fun _ => h2⟩, by rw [h2, h2]⟩

theorem isDouble_roundedNegative : isDouble roundedNegative.frac_secs :=
  rnd64_of_multiple _ (-3) (-55) (by simp only [roundedNegative]; norm_num) (by
    unfold ulpExp
    have : Int.log 2 |roundedNegative.frac_secs| = -54 := by
      apply log2_eq <;> simp only [roundedNegative] <;> rw [abs_of_neg (by norm_num)] <;>
        norm_num
    rw [this]; norm_num)

theorem fix_roundedNegative : fix roundedNegative = ⟨-1, 1 - 1 / 2 ^ 53⟩ := by
  have hfl : ⌊roundedNegative.frac_secs⌋ = -1 := by
    rw [Int.floor_eq_iff]; simp only [roundedNegative]; norm_num
  have hl : Int.log 2 |(-(3 / 2 ^ 55) - ((-1 : ℤ) : ℚ) : ℚ)| = -1 := by
    apply log2_eq <;> rw [abs_of_pos (by norm_num)] <;> norm_num
  have he : ulpExp (-(3 / 2 ^ 55) - ((-1 : ℤ) : ℚ) : ℚ) = -53 := by
    unfold ulpExp; rw [hl]; norm_num
  have hr : rnd64 (-(3 / 2 ^ 55) - ((-1 : ℤ) : ℚ) : ℚ) = 1 - 1 / 2 ^ 53 := by
    unfold rnd64
    rw [he, roundHalfEven_of _ (2 ^ 53 - 1)]
    · norm_num
    · norm_num
    · norm_num
  rw [fix_eq _ isDouble_roundedNegative, hfl]
  simp only [roundedNegative] at hr ⊢
  rw [hr]
  norm_num

/-- C4, as stated, fails at the timestamp `(0, -3 * 2^(-55))`, whose fraction is a
binary64 value inside `(-5, 5)`: `fix` returns `(-1, 1 - 2^(-53))`, because
`frac_secs += 1` is rounded; seconds plus fraction is `-2^(-53)`, not `-3 * 2^(-55)`, and
the fraction is not `frac_secs - floor(frac_secs)`. -/
theorem fix_sum_not_preserved :
    isDouble roundedNegative.frac_secs ∧
    -5 < roundedNegative.frac_secs ∧ roundedNegative.frac_secs < 5 ∧
    fix roundedNegative = ⟨-1, 1 - 1 / 2 ^ 53⟩ ∧
    ((fix roundedNegative).full_secs : ℚ) + (fix roundedNegative).frac_secs ≠
      (roundedNegative.full_secs : ℚ) + roundedNegative.frac_secs ∧
    (fix roundedNegative).frac_secs ≠
      roundedNegative.frac_secs - ⌊roundedNegative.frac_secs⌋ := by
  have hfl : ⌊roundedNegative.frac_secs⌋ = -1 := by
    rw [Int.floor_eq_iff]; simp only [roundedNegative]; norm_num
  rw [fix_roundedNegative, hfl]
  refine ⟨isDouble_roundedNegative, ?_, ?_, rfl, ?_, ?_⟩ <;> simp only [roundedNegative] <;>
    norm_num

/-- C4, amended: for every timestamp whose `frac_secs` is a binary64 value with
`-5 < frac_secs < 5`, outside the fractions of `[-2^(-54), 0)` on which `fix` slips (C5),
the result `r` of `fix` satisfies `0 ≤ r.frac_secs < 1` and
`r.full_secs = full_secs + floor(frac_secs)`; `r.frac_secs` is
`frac_secs - floor(frac_secs)` rounded to the nearest binary64 value, so that
`r.full_secs + r.frac_secs` is within `2^(-54)` of `full_secs + frac_secs`.  Whenever that
remainder is itself a binary64 value, which is so whenever `frac_secs ≥ 0` or
`frac_secs ≤ -1`, nothing is rounded: `r.frac_secs = frac_secs - floor(frac_secs)` and
`r.full_secs + r.frac_secs = full_secs + frac_secs`. -/
theorem fix_normalises (ts : srsran_timestamp_t) (hd : isDouble ts.frac_secs)
    (_h5 : -5 < ts.frac_secs ∧ ts.frac_secs < 5)
    (hns : ts.frac_secs < -(1 / 2 ^ 54) ∨ 0 ≤ ts.frac_secs) :
    (0 ≤ (fix ts).frac_secs ∧ (fix ts).frac_secs < 1) ∧
    (fix ts).full_secs = ts.full_secs + ⌊ts.frac_secs⌋ ∧
    (fix ts).frac_secs = rnd64 (ts.frac_secs - ⌊ts.frac_secs⌋) ∧
    |(((fix ts).full_secs : ℚ) + (fix ts).frac_secs) - (ts.full_secs + ts.frac_secs)| ≤
      1 / 2 ^ 54 ∧
    (isDouble (ts.frac_secs - ⌊ts.frac_secs⌋) →
      (fix ts).frac_secs = ts.frac_secs - ⌊ts.frac_secs⌋ ∧
      ((fix ts).full_secs : ℚ) + (fix ts).frac_secs = ts.full_secs + ts.frac_secs) ∧
    (0 ≤ ts.frac_secs ∨ ts.frac_secs ≤ -1 → isDouble (ts.frac_secs - ⌊ts.frac_secs⌋)) := by
  have hE := fix_eq ts hd
  refine ⟨⟨(fix_frac_le_one ts hd).1, fix_frac_lt_one ts hd hns⟩, by rw [hE], by rw [hE],
    fix_sum_error ts hd, ?_, ?_⟩
  · intro hdz
    unfold isDouble at hdz
    rw [hE]
    dsimp only
    rw [hdz]
    refine ⟨rfl, ?_⟩
    push_cast; ring
  · intro h
    rcases h with h0 | h1
    · have := rnd64_sub_trunc ts.frac_secs hd
      unfold truncInt at this
      rw [if_pos h0] at this
      exact this
    · exact rnd64_sub_floor_of_one_le ts.frac_secs hd (by
        rw [abs_of_neg (by linarith)]; linarith)

theorem fix_normalises_witness :
    (0 ≤ (fix roundedNegative).frac_secs ∧ (fix roundedNegative).frac_secs < 1) ∧
    (fix roundedNegative).full_secs = roundedNegative.full_secs + ⌊roundedNegative.frac_secs⌋ ∧
    (fix roundedNegative).frac_secs =
      rnd64 (roundedNegative.frac_secs - ⌊roundedNegative.frac_secs⌋) ∧
    |(((fix roundedNegative).full_secs : ℚ) + (fix roundedNegative).frac_secs) -
      (roundedNegative.full_secs + roundedNegative.frac_secs)| ≤ 1 / 2 ^ 54 :=
  ⟨(fix_normalises roundedNegative isDouble_roundedNegative
      (by simp only [roundedNegative]; norm_num)
      (Or.inl (by simp only [roundedNegative]; norm_num))).1,
   (fix_normalises roundedNegative isDouble_roundedNegative
      (by simp only [roundedNegative]; norm_num)
      (Or.inl (by simp only [roundedNegative]; norm_num))).2.1,
   (fix_normalises roundedNegative isDouble_roundedNegative
      (by simp only [roundedNegative]; norm_num)
      (Or.inl (by simp only [roundedNegative]; norm_num))).2.2.1,
   (fix_normalises roundedNegative isDouble_roundedNegative
      (by simp only [roundedNegative]; norm_num)
      (Or.inl (by simp only [roundedNegative]; norm_num))).2.2.2.1⟩

/-- C5: `fix` applied twice to the timestamp `(0, -2^(-60))`.  The first call returns
`(-1, 1)`, the second one `(0, 0)`: `fix (fix ts)` differs from `fix ts`. -/
theorem fix_twice_tinyNegative :
    isDouble tinyNegative.frac_secs ∧
    fix tinyNegative = ⟨-1, 1⟩ ∧
    fix (fix tinyNegative) = ⟨0, 0⟩ ∧
    fix (fix tinyNegative) ≠ fix tinyNegative := by
  rw [fix_tinyNegative, fix_minus_one_one]
  refine ⟨rnd64_tiny, rfl, rfl, ?_⟩
  intro h
  have := congrArg srsran_timestamp_t.full_secs h
  norm_num at this

/-! ### Timestamp set -/

theorem run_default_ts {N : Nat} (ts_add ts_sub : srsran_timestamp_t → Int → ℚ → srsran_timestamp_t)
    (calls : List TsCall) (s : rf_timestamp_t N) :
    (calls.foldl (rf_timestamp_t.step ts_add ts_sub) s).default_ts = s.default_ts := by
  induction calls generalizing s with
  | nil => rfl
  | cons c cs ih =>
    rw [List.foldl_cons, ih]
    cases c with
    | add secs => rfl
    | sub secs => rfl
    | write idx ts =>
      simp only [rf_timestamp_t.step]
      cases s.get_ptr idx <;> rfl
    | read idx => rfl

/-- C6: in every state reached from a fresh object by calls of `add`, `sub`, stores through
`get_ptr` handles and reads, `get idx` with `idx ≥ SRSRAN_MAX_CHANNELS` is the all-zero
timestamp; and a call of `get`, with any index, leaves the object as it was, so every
`get j` reads the same value after it as before. -/
theorem get_out_of_range_default {N : Nat}
    (ts_add ts_sub : srsran_timestamp_t → Int → ℚ → srsran_timestamp_t)
    (calls : List TsCall) (idx k : Nat) (h : idx ≥ N) :
    (rf_timestamp_t.run ts_add ts_sub calls : rf_timestamp_t N).get idx = ⟨0, 0⟩ ∧
    (∀ j : Nat,
      ((rf_timestamp_t.run ts_add ts_sub calls : rf_timestamp_t N).step ts_add ts_sub
          (TsCall.read k)).get j =
        (rf_timestamp_t.run ts_add ts_sub calls : rf_timestamp_t N).get j) ∧
    (rf_timestamp_t.run ts_add ts_sub calls : rf_timestamp_t N).step ts_add ts_sub
        (TsCall.read k) = rf_timestamp_t.run ts_add ts_sub calls := by
  refine ⟨?_, fun j => rfl, rfl⟩
  unfold rf_timestamp_t.get
  rw [dif_pos h]
  unfold rf_timestamp_t.run
  rw [run_default_ts]
  rfl

theorem get_out_of_range_default_witness :
    (rf_timestamp_t.run (fun t _ s => ⟨t.full_secs + 1, t.frac_secs + s⟩) (fun t _ _ => t)
      [TsCall.add 3, TsCall.write 1 ⟨7, 1 / 2⟩, TsCall.write 2 ⟨9, 0⟩, TsCall.read 5,
        TsCall.sub 1] : rf_timestamp_t 2).get 2 = ⟨0, 0⟩ :=
  (get_out_of_range_default _ _ _ 2 0 (by decide)).1

/-- C7: `get_ptr idx` is null exactly when `idx ≥ SRSRAN_MAX_CHANNELS`; for a smaller
`idx` it designates the slot that `get idx` reads: after a store of `ts` through it,
`get idx` is `ts` and `get j` is unchanged for every `j ≠ idx`. -/
theorem get_ptr_designates_slot {N : Nat} (s : rf_timestamp_t N) (idx : Nat)
    (ts : srsran_timestamp_t) :
    (s.get_ptr idx = none ↔ idx ≥ N) ∧
    (idx < N → ∃ p : Fin N, s.get_ptr idx = some p ∧ (p : Nat) = idx ∧
      s.get idx = s.timestamps p ∧
      (s.store p ts).get idx = ts ∧
      ∀ j : Nat, j ≠ idx → (s.store p ts).get j = s.get j) := by
  constructor
  · unfold rf_timestamp_t.get_ptr
    by_cases h : idx ≥ N
    · simp [h]
    · simp [h]
  · intro h
    refine ⟨⟨idx, h⟩, ?_, rfl, ?_, ?_, ?_⟩
    · unfold rf_timestamp_t.get_ptr
      rw [dif_neg (by omega)]
    · unfold rf_timestamp_t.get
      rw [dif_neg (by omega)]
    · unfold rf_timestamp_t.get rf_timestamp_t.store
      rw [dif_neg (by omega)]
      simp
    · intro j hj
      unfold rf_timestamp_t.get rf_timestamp_t.store
      by_cases hjN : j ≥ N
      · rw [dif_pos hjN, dif_pos hjN]
      · rw [dif_neg hjN, dif_neg hjN]
        have : (⟨j, Nat.lt_of_not_ge hjN⟩ : Fin N) ≠ ⟨idx, h⟩ := by
          intro e
          exact hj (congrArg Fin.val e)
        simp [Function.update_noteq this]

theorem get_ptr_designates_slot_witness :
    ∃ p : Fin 3, (rf_timestamp_t.init 3).get_ptr 1 = some p ∧ (p : Nat) = 1 ∧
      (rf_timestamp_t.init 3).get 1 = (rf_timestamp_t.init 3).timestamps p ∧
      ((rf_timestamp_t.init 3).store p ⟨4, 1 / 4⟩).get 1 = ⟨4, 1 / 4⟩ ∧
      ∀ j : Nat, j ≠ 1 →
        ((rf_timestamp_t.init 3).store p ⟨4, 1 / 4⟩).get j = (rf_timestamp_t.init 3).get j :=
  (get_ptr_designates_slot (rf_timestamp_t.init 3) 1 ⟨4, 1 / 4⟩).2 (by decide)

/-! ### Cumulative averages -/

/-- Conversion of a nonzero counter to `float`: the relative error is at most `2^(-24)`,
and the result is at least `1` (at least `2` from `2` on). -/
theorem rnd32_count (k : ℕ) (hk : 1 ≤ k) :
    |rnd32 (k : ℚ) - k| ≤ (k : ℚ) / 2 ^ 24 ∧ 1 ≤ rnd32 (k : ℚ) ∧
      (2 ≤ k → 2 ≤ rnd32 (k : ℚ)) := by
  have hk1 : (1 : ℚ) ≤ k := by exact_mod_cast hk
  have h1 : rnd32 (1 : ℚ) = 1 := by simpa using rnd32_two_pow 0
  have h2 : rnd32 (2 : ℚ) = 2 := by simpa using rnd32_two_pow 1
  refine ⟨?_, rnd32_ge_of_ge _ 1 h1 hk1, fun h => rnd32_ge_of_ge _ 2 h2 (by exact_mod_cast h)⟩
  have := rnd32_error_rel (k : ℚ) (by
    rw [abs_of_nonneg (by linarith)]
    have : (1 : ℚ) / 2 ^ 126 ≤ 1 := by norm_num
    linarith)
  rw [abs_of_nonneg (by linarith : (0 : ℚ) ≤ k)] at this
  exact this

/-- The increment `(v - a) / c` computed in `float` lies between `0` and the exact
difference, for a divisor of at least `2`. -/
theorem cma_increment_le (x : ℚ) (c : ℚ) (hx0 : 0 ≤ x) (hm : ∃ m : ℤ, x = m / 2 ^ 149)
    (hc : 2 ≤ c) : 0 ≤ rnd32 (rnd32 x / c) ∧ rnd32 (rnd32 x / c) ≤ x := by
  have hd0 := rnd32_nonneg x hx0
  have hc0 : 0 < c := by linarith
  refine ⟨rnd32_nonneg _ (div_nonneg hd0 hc0.le), ?_⟩
  rcases lt_or_le x (1 / 2 ^ 125) with hs | hs
  · obtain ⟨m, hm⟩ := hm
    have hex : rnd32 x = x := rnd32_of_small_multiple x m hm (by rw [abs_of_nonneg hx0]; exact hs)
    rw [hex]
    apply rnd32_le_of_le _ x hex
    rw [div_le_iff₀ hc0]
    nlinarith
  · have he := rnd32_error_rel x (by
      rw [abs_of_nonneg hx0]
      have : (1 : ℚ) / 2 ^ 126 ≤ 1 / 2 ^ 125 := by norm_num
      linarith)
    rw [abs_of_nonneg hx0, abs_le] at he
    have hy0 : 0 ≤ rnd32 x / c := div_nonneg hd0 hc0.le
    have hy : rnd32 x / c ≤ rnd32 x / 2 := div_le_div_of_nonneg_left hd0 (by norm_num) hc
    have hq := rnd32_error (rnd32 x / c)
    rw [abs_of_nonneg hy0, abs_le] at hq
    have h24 : x / 2 ^ 24 ≤ x / 1000 := div_le_div_of_nonneg_left hx0 (by norm_num) (by norm_num)
    have hy24 : rnd32 x / c / 2 ^ 24 ≤ rnd32 x / c / 1000 :=
      div_le_div_of_nonneg_left hy0 (by norm_num) (by norm_num)
    have h150 : (1 : ℚ) / 2 ^ 150 ≤ 1 / 2 ^ 125 / 4 := by norm_num
    linarith [hq.2, he.2]

theorem cma_increment_between (a v c : ℚ) (ha : rnd32 a = a) (hv : rnd32 v = v) (hc : 2 ≤ c) :
    (a ≤ v → 0 ≤ rnd32 (rnd32 (v - a) / c) ∧ rnd32 (rnd32 (v - a) / c) ≤ v - a) ∧
    (v ≤ a → v - a ≤ rnd32 (rnd32 (v - a) / c) ∧ rnd32 (rnd32 (v - a) / c) ≤ 0) := by
  obtain ⟨ma, hma⟩ := rnd32_fixed_multiple a ha
  obtain ⟨mv, hmv⟩ := rnd32_fixed_multiple v hv
  constructor
  · intro h
    exact cma_increment_le (v - a) c (by linarith) ⟨mv - ma, by rw [hma, hmv]; push_cast; ring⟩ hc
  · intro h
    have := cma_increment_le (a - v) c (by linarith)
      ⟨ma - mv, by rw [hma, hmv]; push_cast; ring⟩ hc
    have e : rnd32 (rnd32 (v - a) / c) = -rnd32 (rnd32 (a - v) / c) := by
      rw [← rnd32_neg, ← neg_div, ← rnd32_neg, neg_sub]
    rw [e]
    constructor <;> linarith [this.1, this.2]

/-- From the second update on, the new average lies between the old one and the
observation; so does the exact sum before its rounding. -/
theorem cma_step_bounds (a v B c : ℚ) (ha : rnd32 a = a) (hv : rnd32 v = v)
    (haB : |a| ≤ B) (hvB : |v| ≤ B) (hc : 2 ≤ c) :
    |rnd32 (rnd32 (v - a) / c)| ≤ |v - a| ∧
    |a + rnd32 (rnd32 (v - a) / c)| ≤ B ∧
    |rnd32 (a + rnd32 (rnd32 (v - a) / c))| ≤ B := by
  obtain ⟨h1, h2⟩ := cma_increment_between a v c ha hv hc
  rw [abs_le] at haB hvB
  rcases le_total a v with h | h
  · obtain ⟨q0, q1⟩ := h1 h
    have s0 := rnd32_ge_of_ge (a + rnd32 (rnd32 (v - a) / c)) a ha (by linarith)
    have s1 := rnd32_le_of_le (a + rnd32 (rnd32 (v - a) / c)) v hv (by linarith)
    refine ⟨?_, ?_, ?_⟩
    · rw [abs_of_nonneg q0, abs_of_nonneg (by linarith)]; exact q1
    · rw [abs_le]; constructor <;> linarith
    · rw [abs_le]; constructor <;> linarith
  · obtain ⟨q0, q1⟩ := h2 h
    have s0 := rnd32_ge_of_ge (a + rnd32 (rnd32 (v - a) / c)) v hv (by linarith)
    have s1 := rnd32_le_of_le (a + rnd32 (rnd32 (v - a) / c)) a ha (by linarith)
    refine ⟨?_, ?_, ?_⟩
    · rw [abs_of_nonpos q1, abs_of_nonpos (by linarith)]; linarith
    · rw [abs_le]; constructor <;> linarith
    · rw [abs_le]; constructor <;> linarith

/-- Error of one cumulative-average update computed with relative error `u` and absolute
error `η` in each operation, against the same update computed exactly. -/
theorem cma_error_arith (u η B a x d c k q s : ℚ)
    (hu0 : 0 ≤ u) (hu : u ≤ 1 / 1000) (hη : 0 ≤ η) (hB : 0 ≤ B)
    (hx : |x| ≤ 2 * B) (hd : |d - x| ≤ u * |x| + η) (hk : 2 ≤ k) (hc : |c - k| ≤ u * k)
    (hq : |q - d / c| ≤ u * |d / c| + η) (haq : |a + q| ≤ B)
    (hs : |s - (a + q)| ≤ u * |a + q| + η) :
    |s - (a + x / k)| ≤ 6 * (u * B) + 3 * η := by
  have hk0 : 0 < k := by linarith
  have hc1 : k * (999 / 1000) ≤ c := by
    rw [abs_le] at hc; nlinarith
  have hc0 : 0 < c := by nlinarith
  have hc2 : 199 / 100 ≤ c := by nlinarith
  have hPB : 0 ≤ u * B := mul_nonneg hu0 hB
  have hwc : (d / c - x / k) * c = (d - x) + x * ((k - c) / k) := by
    field_simp; ring
  have hP : u * |x| ≤ 2 * (u * B) := by nlinarith [abs_nonneg x]
  have hxk : |x * ((k - c) / k)| ≤ 2 * (u * B) := by
    rw [abs_mul, abs_div, abs_of_pos hk0]
    have h1 : |k - c| / k ≤ u := by
      rw [div_le_iff₀ hk0, abs_sub_comm]; exact hc
    calc |x| * (|k - c| / k) ≤ |x| * u := mul_le_mul_of_nonneg_left h1 (abs_nonneg x)
      _ = u * |x| := mul_comm _ _
      _ ≤ 2 * (u * B) := hP
  have hwc2 : |d / c - x / k| * c ≤ 4 * (u * B) + η := by
    have : |(d / c - x / k) * c| ≤ |d - x| + |x * ((k - c) / k)| := by
      rw [hwc]; exact abs_add _ _
    rw [abs_mul, abs_of_pos hc0] at this
    linarith
  have hw0 := abs_nonneg (d / c - x / k)
  have hwabs : |d / c - x / k| ≤ (51 / 100) * (4 * (u * B) + η) := by
    nlinarith
  have hxk2 : |x / k| ≤ B := by
    rw [abs_div, abs_of_pos hk0, div_le_iff₀ hk0]; nlinarith
  have hdc : |d / c| ≤ B + |d / c - x / k| := by
    have : d / c = x / k + (d / c - x / k) := by ring
    calc |d / c| = |x / k + (d / c - x / k)| := by rw [← this]
      _ ≤ |x / k| + |d / c - x / k| := abs_add _ _
      _ ≤ B + |d / c - x / k| := by linarith
  have huw : u * |d / c| ≤ u * B + |d / c - x / k| / 1000 := by
    have h1 : u * |d / c| ≤ u * (B + |d / c - x / k|) := mul_le_mul_of_nonneg_left hdc hu0
    have h2 : u * |d / c - x / k| ≤ 1 / 1000 * |d / c - x / k| :=
      mul_le_mul_of_nonneg_right hu hw0
    nlinarith
  have huaq : u * |a + q| ≤ u * B := mul_le_mul_of_nonneg_left haq hu0
  have hsplit : s - (a + x / k) = (s - (a + q)) + (q - d / c) + (d / c - x / k) := by ring
  rw [hsplit]
  have t1 := abs_add ((s - (a + q)) + (q - d / c)) (d / c - x / k)
  have t2 := abs_add (s - (a + q)) (q - d / c)
  linarith

/-- One update of the average in `float`, from the second on, against the exact update:
the error is at most `6 * 2^(-24) * B + 3 * 2^(-150)` when the old average and the
observation are bounded by `B`. -/
theorem cma_step_error (a v B : ℚ) (k : ℕ) (ha : rnd32 a = a) (hv : rnd32 v = v)
    (haB : |a| ≤ B) (hvB : |v| ≤ B) (hk : 2 ≤ k) :
    |rnd32 (a + rnd32 (rnd32 (v - a) / rnd32 k)) - (a + (v - a) / k)| ≤
      6 * B / 2 ^ 24 + 3 / 2 ^ 150 := by
  obtain ⟨hc1, _, hc2⟩ := rnd32_count k (by omega)
  have hc := hc2 hk
  obtain ⟨_, hb2, _⟩ := cma_step_bounds a v B (rnd32 k) ha hv haB hvB hc
  have hB : 0 ≤ B := le_trans (abs_nonneg a) haB
  have hx : |v - a| ≤ 2 * B := by
    have := abs_sub v a; linarith
  have := cma_error_arith (1 / 2 ^ 24) (1 / 2 ^ 150) B a (v - a) (rnd32 (v - a)) (rnd32 k) k
    (rnd32 (rnd32 (v - a) / rnd32 k)) (rnd32 (a + rnd32 (rnd32 (v - a) / rnd32 k)))
    (by positivity) (by norm_num) (by positivity) hB hx
    (by rw [one_div_mul_eq_div]; exact rnd32_error (v - a))
    (by exact_mod_cast hk) (by rw [one_div_mul_eq_div]; exact hc1)
    (by rw [one_div_mul_eq_div]; exact rnd32_error _) hb2
    (by rw [one_div_mul_eq_div]; exact rnd32_error _)
  calc |rnd32 (a + rnd32 (rnd32 (v - a) / rnd32 k)) - (a + (v - a) / k)|
      ≤ 6 * (1 / 2 ^ 24 * B) + 3 * (1 / 2 ^ 150) := this
    _ = 6 * B / 2 ^ 24 + 3 / 2 ^ 150 := by ring

/-- The first update on a zero average stores the observation itself. -/
theorem cma_first_value (v : ℚ) (hv : rnd32 v = v) :
    rnd32 (0 + rnd32 (rnd32 (v - 0) / rnd32 ((1 : ℕ) : ℚ))) = v := by
  have h1 : rnd32 ((1 : ℕ) : ℚ) = 1 := by simpa using rnd32_two_pow 0
  rw [h1, sub_zero, hv, div_one, hv, zero_add, hv]

theorem incr_of_lt (c : Nat) (h : c + 1 < 2 ^ 32) : incr c = c + 1 := by
  unfold incr
  exact Nat.mod_eq_of_lt h

theorem ofRat_fin (q : ℚ) (h : |rnd32 q| < 2 ^ 128) : Flt.ofRat q = .fin (rnd32 q) := by
  rw [abs_lt] at h
  unfold Flt.ofRat
  rw [if_neg (by linarith [h.2]), if_neg (by linarith [h.1])]

theorem ofRat_of_float (q : ℚ) (h : isFloat q) : Flt.ofRat q = .fin q := by
  have := ofRat_fin q (by rw [h.1]; exact h.2)
  rw [h.1] at this
  exact this

theorem isFloat_int (m : ℤ) (hm : |m| < 2 ^ 24) : isFloat (m : ℚ) := by
  refine ⟨rnd32_int m hm, ?_⟩
  have h1 : |(m : ℚ)| < 2 ^ 24 := by exact_mod_cast hm
  have h2 : (2 : ℚ) ^ 24 < 2 ^ 128 := by norm_num
  linarith

theorem isFloat_zero : isFloat 0 := by simpa using isFloat_int 0 (by norm_num)

theorem isFloat_one : isFloat 1 := by simpa using isFloat_int 1 (by norm_num)

theorem ofCount_zero : Flt.ofCount 0 = .fin 0 := by
  unfold Flt.ofCount
  simpa using ofRat_of_float 0 isFloat_zero

theorem ofCount_one : Flt.ofCount 1 = .fin 1 := by
  unfold Flt.ofCount
  simpa using ofRat_of_float 1 isFloat_one

/-- The largest finite `float`, `FLT_MAX = 2^128 - 2^104`, is a binary32 value. -/
theorem rnd32_flt_max : rnd32 (2 ^ 128 - 2 ^ 104) = 2 ^ 128 - 2 ^ 104 := by
  apply rndB_of_multiple 23 (-149) _ (2 ^ 24 - 1) 104
  · push_cast
    have e : (2 : ℚ) ^ (104 : ℤ) = 2 ^ 104 := by norm_num
    rw [e]
    ring
  · have hl : Int.log 2 |(2 ^ 128 - 2 ^ 104 : ℚ)| = 127 := by
      apply log2_eq
      · rw [abs_of_pos (by norm_num)]; norm_num
      · rw [abs_of_pos (by norm_num)]; norm_num
    unfold ulpExpB
    rw [hl]
    norm_num

/-- Evaluation of the averaging macro on finite values when no operation overflows:
`d` is the rounded difference, `c` the converted count, `q` the rounded quotient and `s`
the rounded sum. -/
theorem cma_eval (v a : ℚ) (n : Nat) (d c q s : ℚ) (hd : rnd32 (v - a) = d)
    (hc : rnd32 (n : ℚ) = c) (hq : rnd32 (d / c) = q) (hs : rnd32 (a + q) = s) (hc0 : c ≠ 0)
    (bd : |d| < 2 ^ 128) (bc : |c| < 2 ^ 128) (bq : |q| < 2 ^ 128) (bs : |s| < 2 ^ 128) :
    SRSRAN_VEC_SAFE_CMA (.fin v) (.fin a) n = .fin s := by
  have e1 : (Flt.fin v).sub (.fin a) = .fin d := by
    simp only [Flt.sub, Flt.neg, Flt.add]
    rw [← sub_eq_add_neg, ofRat_fin _ (by rw [hd]; exact bd), hd]
  have e2 : Flt.ofCount n = .fin c := by
    unfold Flt.ofCount
    rw [ofRat_fin _ (by rw [hc]; exact bc), hc]
  have e3 : (Flt.fin d).div (.fin c) = .fin q := by
    simp only [Flt.div]
    rw [if_neg hc0, ofRat_fin _ (by rw [hq]; exact bq), hq]
  have e4 : (Flt.fin a).add (.fin q) = .fin s := by
    simp only [Flt.add]
    rw [ofRat_fin _ (by rw [hs]; exact bs), hs]
  unfold SRSRAN_VEC_SAFE_CMA
  rw [e1, e2, e3, e4]

/-- The first update of a zero average stores the observation. -/
theorem cma_first (v : ℚ) (hv : isFloat v) :
    SRSRAN_VEC_SAFE_CMA (.fin v) (.fin 0) 1 = .fin v := by
  have h1 : rnd32 ((1 : ℕ) : ℚ) = 1 := by simpa using rnd32_two_pow 0
  exact cma_eval v 0 1 v 1 v v (by rw [sub_zero, hv.1]) h1 (by rw [div_one, hv.1])
    (by rw [zero_add, hv.1]) one_ne_zero hv.2 (by norm_num) hv.2 hv.2

/-- One update of the average on finite values bounded by `B`, with `2 * B ≤ FLT_MAX`:
nothing overflows, the new average is a binary32 value bounded by `B`, and it differs from
the exact update by at most `6 * 2^(-24) * B + 3 * 2^(-150)`. -/
theorem cma_step (a v B : ℚ) (k : ℕ) (ha : rnd32 a = a) (hv : rnd32 v = v)
    (haB : |a| ≤ B) (hvB : |v| ≤ B) (hB : 2 * B ≤ 2 ^ 128 - 2 ^ 104) (hk : 1 ≤ k)
    (hk2 : k < 2 ^ 32) (h0 : k = 1 → a = 0) :
    ∃ s : ℚ, SRSRAN_VEC_SAFE_CMA (.fin v) (.fin a) k = .fin s ∧ rnd32 s = s ∧ |s| ≤ B ∧
      |s * k - (a * ((k : ℚ) - 1) + v)| ≤ k * (6 * B / 2 ^ 24 + 3 / 2 ^ 150) := by
  have hB0 : 0 ≤ B := le_trans (abs_nonneg a) haB
  have hmax : (2 : ℚ) ^ 128 - 2 ^ 104 < 2 ^ 128 := by norm_num
  have hR : 0 ≤ 6 * B / 2 ^ 24 + 3 / 2 ^ 150 :=
    add_nonneg (div_nonneg (mul_nonneg (by norm_num) hB0) (by norm_num)) (by norm_num)
  have hk0 : (0 : ℚ) < k := by exact_mod_cast hk
  rcases Nat.lt_or_ge k 2 with hlt | hge
  · have hk1 : k = 1 := by omega
    have ha0 := h0 hk1
    subst hk1
    subst ha0
    refine ⟨v, cma_first v ⟨hv, by linarith⟩, hv, hvB, ?_⟩
    have : v * ((1 : ℕ) : ℚ) - (0 * (((1 : ℕ) : ℚ) - 1) + v) = 0 := by push_cast; ring
    rw [this, abs_zero]
    exact mul_nonneg hk0.le hR
  · obtain ⟨hc1, hc2, hc3⟩ := rnd32_count k hk
    have hc := hc3 hge
    obtain ⟨b1, b2, b3⟩ := cma_step_bounds a v B (rnd32 k) ha hv haB hvB hc
    have hx : |v - a| ≤ 2 ^ 128 - 2 ^ 104 := by
      have := abs_sub v a; linarith
    have hd : |rnd32 (v - a)| ≤ 2 ^ 128 - 2 ^ 104 := rnd32_abs_le _ _ rnd32_flt_max hx
    have hcb : |rnd32 (k : ℚ)| ≤ 2 ^ 32 :=
      rnd32_abs_le _ _ (rnd32_two_pow 32) (by
        rw [abs_of_pos hk0]
        exact_mod_cast hk2.le)
    refine ⟨rnd32 (a + rnd32 (rnd32 (v - a) / rnd32 k)),
      cma_eval v a k _ _ _ _ rfl rfl rfl rfl (by linarith) (by linarith)
        (by have : (2 : ℚ) ^ 32 < 2 ^ 128 := by norm_num
            linarith)
        (by linarith) (by linarith),
      rnd32_idem _, b3, ?_⟩
    have he := cma_step_error a v B k ha hv haB hvB hge
    have e : rnd32 (a + rnd32 (rnd32 (v - a) / rnd32 k)) * k - (a * ((k : ℚ) - 1) + v) =
        (rnd32 (a + rnd32 (rnd32 (v - a) / rnd32 k)) - (a + (v - a) / k)) * k := by
      field_simp
      ring
    rw [e, abs_mul, abs_of_pos hk0, mul_comm]
    exact mul_le_mul_of_nonneg_left he hk0.le

/-- Fold of finite observations bounded by `B` from a `(count, average)` pair: the counter
advances by the number of observations, and `count` times the average stays within
`count^2 * (6 * 2^(-24) * B + 3 * 2^(-150))` of the sum of the observations. -/
theorem cma_fold (B : ℚ) (hB : 2 * B ≤ 2 ^ 128 - 2 ^ 104) (vs : List ℚ) :
    (∀ v ∈ vs, rnd32 v = v ∧ |v| ≤ B) →
    ∀ (c : Nat) (a S : ℚ), c + vs.length < 2 ^ 32 → rnd32 a = a → |a| ≤ B →
      |a * c - S| ≤ c * c * (6 * B / 2 ^ 24 + 3 / 2 ^ 150) → (c = 0 → a = 0) →
      ∃ a' : ℚ, (vs.map Flt.fin).foldl cmaStep (c, .fin a) = (c + vs.length, .fin a') ∧
        rnd32 a' = a' ∧ |a'| ≤ B ∧
        |a' * ((c + vs.length : ℕ) : ℚ) - (S + vs.sum)| ≤
          ((c + vs.length : ℕ) : ℚ) * ((c + vs.length : ℕ) : ℚ) *
            (6 * B / 2 ^ 24 + 3 / 2 ^ 150) := by
  induction vs with
  | nil =>
    intro _ c a S _ ha haB hS _
    exact ⟨a, rfl, ha, haB, by simpa using hS⟩
  | cons v vs ih =>
    intro hvs c a S h ha haB hS h0
    have hlen : (v :: vs).length = vs.length + 1 := rfl
    rw [hlen] at h
    obtain ⟨hv, hvB⟩ := hvs v (List.mem_cons_self v vs)
    have hc : incr c = c + 1 := incr_of_lt c (by omega)
    obtain ⟨s, hs1, hs2, hs3, hs4⟩ := cma_step a v B (c + 1) ha hv haB hvB hB (by omega)
      (by omega) (fun hc1 => h0 (by omega))
    have hB0 : 0 ≤ B := le_trans (abs_nonneg a) haB
    have hR : 0 ≤ 6 * B / 2 ^ 24 + 3 / 2 ^ 150 :=
      add_nonneg (div_nonneg (mul_nonneg (by norm_num) hB0) (by norm_num)) (by norm_num)
    have hstep : cmaStep (c, Flt.fin a) (Flt.fin v) = (c + 1, Flt.fin s) := by
      unfold cmaStep
      simp only [hc]
      rw [hs1]
    have hS' : |s * ((c + 1 : ℕ) : ℚ) - (S + v)| ≤
        ((c + 1 : ℕ) : ℚ) * ((c + 1 : ℕ) : ℚ) * (6 * B / 2 ^ 24 + 3 / 2 ^ 150) := by
      push_cast at hs4 ⊢
      have hc0 : (0 : ℚ) ≤ c := by positivity
      have e : s * ((c : ℚ) + 1) - (S + v) =
          (s * ((c : ℚ) + 1) - (a * ((c : ℚ) + 1 - 1) + v)) + (a * c - S) := by ring
      rw [e]
      have t := abs_add (s * ((c : ℚ) + 1) - (a * ((c : ℚ) + 1 - 1) + v)) (a * c - S)
      nlinarith
    obtain ⟨a', h1, h2, h3, h4⟩ := ih (fun x hx => hvs x (List.mem_cons_of_mem v hx)) (c + 1) s
      (S + v) (by omega) hs2 hs3 hS' (by omega)
    refine ⟨a', ?_, h2, h3, ?_⟩
    · rw [List.map_cons, List.foldl_cons, hstep, h1, hlen]
      congr 1
      omega
    · have e1 : c + 1 + vs.length = c + (v :: vs).length := by rw [hlen]; omega
      rw [e1] at h4
      rw [List.sum_cons, ← add_assoc]
      exact h4

theorem count_fold (vs : List Flt) : ∀ (c : Nat) (a : Flt), c + vs.length < 2 ^ 32 →
    (vs.foldl cmaStep (c, a)).1 = c + vs.length := by
  induction vs with
  | nil => intro c a _; rfl
  | cons v vs ih =>
    intro c a h
    have hlen : (v :: vs).length = vs.length + 1 := rfl
    rw [hlen] at h
    have hstep : cmaStep (c, a) v = (c + 1, SRSRAN_VEC_SAFE_CMA v a (c + 1)) := by
      unfold cmaStep
      simp only [incr_of_lt c (by omega)]
    rw [List.foldl_cons, hstep, ih (c + 1) _ (by omega), hlen]
    omega

theorem map_fin_of_finite {O : Type} (g : O → Flt) (obs : List O)
    (h : ∀ o ∈ obs, isfinite (g o) = true) :
    obs.map g = (obs.map (fun o => (g o).toRat)).map Flt.fin := by
  induction obs with
  | nil => rfl
  | cons o os ih =>
    have ho := h o (List.mem_cons_self o os)
    have hos := ih (fun x hx => h x (List.mem_cons_of_mem o hx))
    rw [List.map_cons, List.map_cons, List.map_cons, ← hos]
    congr 1
    cases hg : g o <;> simp [hg, isfinite, isnan, isinf, Flt.toRat] at ho ⊢

theorem foldl_proj {σ O : Type} (step : σ → O → σ) (π : σ → Nat × Flt) (g : O → Flt)
    (h : ∀ s o, π (step s o) = cmaStep (π s) (g o)) (obs : List O) (s : σ) :
    π (obs.foldl step s) = (obs.map g).foldl cmaStep (π s) := by
  induction obs generalizing s with
  | nil => rfl
  | cons o os ih => rw [List.foldl_cons, ih, h, List.map_cons, List.foldl_cons]

/-- A field that every `set` folds with the counter incremented first holds, after `n`
finite observations bounded by `B` on a zeroed record (`1 ≤ n < 2 ^ 32`,
`2 * B ≤ FLT_MAX`), a finite value within `n * (B * 2^(-21) + 2^(-148))` of their
arithmetic mean, and the counter holds `n`. -/
theorem field_mean {σ O : Type} (step : σ → O → σ) (π : σ → Nat × Flt) (g : O → Flt)
    (h : ∀ s o, π (step s o) = cmaStep (π s) (g o)) (obs : List O) (s : σ)
    (hs : π s = (0, .fin 0)) (hne : obs ≠ []) (hlen : obs.length < 2 ^ 32)
    (B : ℚ) (hB : 2 * B ≤ 2 ^ 128 - 2 ^ 104)
    (hfin : ∀ o ∈ obs, isfinite (g o) = true ∧ isFloat (g o).toRat ∧ |(g o).toRat| ≤ B) :
    (π (obs.foldl step s)).1 = obs.length ∧
    isfinite (π (obs.foldl step s)).2 = true ∧
    isFloat (π (obs.foldl step s)).2.toRat ∧
    |(π (obs.foldl step s)).2.toRat - mean (obs.map (fun o => (g o).toRat))| ≤
      obs.length * (B / 2 ^ 21 + 1 / 2 ^ 148) := by
  rw [foldl_proj step π g h, hs, map_fin_of_finite g obs (fun o ho => (hfin o ho).1)]
  obtain ⟨o0, ho0⟩ := List.exists_mem_of_ne_nil obs hne
  have hB0 : 0 ≤ B := le_trans (abs_nonneg _) (hfin o0 ho0).2.2
  obtain ⟨a', h1, h2, h3, h4⟩ := cma_fold B hB (obs.map (fun o => (g o).toRat))
    (by
      intro v hv
      rw [List.mem_map] at hv
      obtain ⟨o, ho, rfl⟩ := hv
      exact ⟨(hfin o ho).2.1.1, (hfin o ho).2.2⟩)
    0 0 0 (by simpa using hlen) rnd32_zero (by simpa using hB0) (by simp) (fun _ => rfl)
  rw [h1]
  simp only [zero_add, List.length_map] at h4 ⊢
  have hmax : (2 : ℚ) ^ 128 - 2 ^ 104 < 2 ^ 128 := by norm_num
  have e0 : (Flt.fin a').toRat = a' := rfl
  refine ⟨trivial, rfl, ⟨h2, by rw [e0]; linarith⟩, ?_⟩
  have hn : (0 : ℚ) < obs.length := by
    have := List.length_pos.2 hne
    exact_mod_cast this
  rw [e0]
  unfold mean
  rw [List.length_map]
  have e : a' - (obs.map (fun o => (g o).toRat)).sum / obs.length =
      (a' * obs.length - (obs.map (fun o => (g o).toRat)).sum) / obs.length := by
    field_simp
  rw [e, abs_div, abs_of_pos hn, div_le_iff₀ hn]
  have hR : 6 * B / 2 ^ 24 + 3 / 2 ^ 150 ≤ B / 2 ^ 21 + 1 / 2 ^ 148 := by
    have h1 : 6 * B / 2 ^ 24 ≤ B / 2 ^ 21 := by
      rw [div_le_div_iff₀ (by norm_num) (by norm_num)]
      nlinarith
    have h2 : (3 : ℚ) / 2 ^ 150 ≤ 1 / 2 ^ 148 := by norm_num
    linarith
  calc |a' * (obs.length : ℚ) - (obs.map (fun o => (g o).toRat)).sum|
      ≤ (obs.length : ℚ) * obs.length * (6 * B / 2 ^ 24 + 3 / 2 ^ 150) := h4
    _ ≤ (obs.length : ℚ) * obs.length * (B / 2 ^ 21 + 1 / 2 ^ 148) :=
      mul_le_mul_of_nonneg_left hR (mul_nonneg hn.le hn.le)
    _ = (obs.length : ℚ) * (B / 2 ^ 21 + 1 / 2 ^ 148) * obs.length := by ring

theorem dl_field_mean (f : dl_metrics_t → Flt) (hf : f ∈ dl_metrics_t.averaged)
    (sd : dl_metrics_t) (hsd : sd = dl_metrics_t.init ∨ ∃ r : dl_metrics_t, sd = r.reset)
    (obs : List dl_metrics_t) (hne : obs ≠ []) (hlen : obs.length < 2 ^ 32)
    (B : ℚ) (hB : 2 * B ≤ 2 ^ 128 - 2 ^ 104)
    (hfin : ∀ o ∈ obs, isfinite (f o) = true ∧ isFloat (f o).toRat ∧ |(f o).toRat| ≤ B) :
    (obs.foldl dl_metrics_t.set sd).count = obs.length ∧
    isfinite (f (obs.foldl dl_metrics_t.set sd)) = true ∧
    isFloat (f (obs.foldl dl_metrics_t.set sd)).toRat ∧
    |(f (obs.foldl dl_metrics_t.set sd)).toRat - mean (obs.map (fun o => (f o).toRat))| ≤
      obs.length * (B / 2 ^ 21 + 1 / 2 ^ 148) := by
  have hs : sd = dl_metrics_t.init := by
    rcases hsd with h | ⟨r, h⟩
    · exact h
    · rw [h]; rfl
  subst hs
  simp only [dl_metrics_t.averaged, List.mem_cons, List.mem_singleton, List.mem_nil_iff,
    or_false] at hf
  rcases hf with rfl | rfl | rfl
  · exact field_mean dl_metrics_t.set (fun s => (s.count, s.fec_iters)) _ (fun _ _ => rfl)
      obs _ rfl hne hlen B hB hfin
  · exact field_mean dl_metrics_t.set (fun s => (s.count, s.mcs)) _ (fun _ _ => rfl)
      obs _ rfl hne hlen B hB hfin
  · exact field_mean dl_metrics_t.set (fun s => (s.count, s.evm)) _ (fun _ _ => rfl)
      obs _ rfl hne hlen B hB hfin

theorem ul_field_mean (f : ul_metrics_t → Flt) (hf : f ∈ ul_metrics_t.averaged)
    (su : ul_metrics_t) (hsu : su = ul_metrics_t.init ∨ ∃ r : ul_metrics_t, su = r.reset)
    (obs : List ul_metrics_t) (hne : obs ≠ []) (hlen : obs.length < 2 ^ 32)
    (B : ℚ) (hB : 2 * B ≤ 2 ^ 128 - 2 ^ 104)
    (hfin : ∀ o ∈ obs, isfinite (f o) = true ∧ isFloat (f o).toRat ∧ |(f o).toRat| ≤ B) :
    (obs.foldl ul_metrics_t.set su).count = obs.length ∧
    isfinite (f (obs.foldl ul_metrics_t.set su)) = true ∧
    isFloat (f (obs.foldl ul_metrics_t.set su)).toRat ∧
    |(f (obs.foldl ul_metrics_t.set su)).toRat - mean (obs.map (fun o => (f o).toRat))| ≤
      obs.length * (B / 2 ^ 21 + 1 / 2 ^ 148) := by
  have hs : su = ul_metrics_t.init := by
    rcases hsu with h | ⟨r, h⟩
    · exact h
    · rw [h]; rfl
  subst hs
  simp only [ul_metrics_t.averaged, List.mem_cons, List.mem_singleton, List.mem_nil_iff,
    or_false] at hf
  rcases hf with rfl | rfl
  · exact field_mean ul_metrics_t.set (fun s => (s.count, s.mcs)) _ (fun _ _ => rfl)
      obs _ rfl hne hlen B hB hfin
  · exact field_mean ul_metrics_t.set (fun s => (s.count, s.power)) _ (fun _ _ => rfl)
      obs _ rfl hne hlen B hB hfin

theorem ch_field_mean (f : ch_metrics_t → Flt) (hf : f ∈ ch_metrics_t.averaged)
    (sc : ch_metrics_t) (hsc : sc = ch_metrics_t.init ∨ ∃ r : ch_metrics_t, sc = r.reset)
    (obs : List ch_metrics_t) (hne : obs ≠ []) (hlen : obs.length < 2 ^ 32)
    (B : ℚ) (hB : 2 * B ≤ 2 ^ 128 - 2 ^ 104)
    (hfin : ∀ o ∈ obs, isfinite (f o) = true ∧ isFloat (f o).toRat ∧ |(f o).toRat| ≤ B) :
    (obs.foldl ch_metrics_t.set sc).count = obs.length ∧
    isfinite (f (obs.foldl ch_metrics_t.set sc)) = true ∧
    isFloat (f (obs.foldl ch_metrics_t.set sc)).toRat ∧
    |(f (obs.foldl ch_metrics_t.set sc)).toRat - mean (obs.map (fun o => (f o).toRat))| ≤
      obs.length * (B / 2 ^ 21 + 1 / 2 ^ 148) := by
  have hs : sc = ch_metrics_t.init := by
    rcases hsc with h | ⟨r, h⟩
    · exact h
    · rw [h]; rfl
  subst hs
  simp only [ch_metrics_t.averaged, List.mem_cons, List.mem_singleton, List.mem_nil_iff,
    or_false] at hf
  rcases hf with rfl | rfl | rfl | rfl | rfl | rfl | rfl
  · exact field_mean ch_metrics_t.set (fun s => (s.count, s.n)) _ (fun _ _ => rfl)
      obs _ rfl hne hlen B hB hfin
  · exact field_mean ch_metrics_t.set (fun s => (s.count, s.rsrp)) _ (fun _ _ => rfl)
      obs _ rfl hne hlen B hB hfin
  · exact field_mean ch_metrics_t.set (fun s => (s.count, s.rsrq)) _ (fun _ _ => rfl)
      obs _ rfl hne hlen B hB hfin
  · exact field_mean ch_metrics_t.set (fun s => (s.count, s.rssi)) _ (fun _ _ => rfl)
      obs _ rfl hne hlen B hB hfin
  · exact field_mean ch_metrics_t.set (fun s => (s.count, s.ri)) _ (fun _ _ => rfl)
      obs _ rfl hne hlen B hB hfin
  · exact field_mean ch_metrics_t.set (fun s => (s.count, s.pathloss)) _ (fun _ _ => rfl)
      obs _ rfl hne hlen B hB hfin
  · exact field_mean ch_metrics_t.set (fun s => (s.count, s.sync_err)) _ (fun _ _ => rfl)
      obs _ rfl hne hlen B hB hfin

theorem dl_set_mcs (s o : dl_metrics_t) :
    (s.set o).mcs = SRSRAN_VEC_SAFE_CMA o.mcs s.mcs (incr s.count) := rfl

theorem cma_zero (k : ℕ) (hk : 1 ≤ k) (hk2 : k < 2 ^ 32) :
    SRSRAN_VEC_SAFE_CMA (.fin 0) (.fin 0) k = .fin 0 := by
  obtain ⟨_, hc, _⟩ := rnd32_count k hk
  have hk0 : (0 : ℚ) < k := by exact_mod_cast hk
  have hcb : |rnd32 (k : ℚ)| ≤ 2 ^ 32 :=
    rnd32_abs_le _ _ (rnd32_two_pow 32) (by
      rw [abs_of_pos hk0]
      exact_mod_cast hk2.le)
  have h32 : (2 : ℚ) ^ 32 < 2 ^ 128 := by norm_num
  exact cma_eval 0 0 k 0 (rnd32 k) 0 0 (by rw [sub_zero, rnd32_zero]) rfl
    (by rw [zero_div, rnd32_zero]) (by rw [add_zero, rnd32_zero]) (by linarith)
    (by norm_num) (by linarith) (by norm_num) (by norm_num)

theorem cma_fold_zero (n : ℕ) : ∀ c : ℕ, c + n < 2 ^ 32 →
    (List.replicate n (Flt.fin 0)).foldl cmaStep (c, .fin 0) = (c + n, .fin 0) := by
  induction n with
  | zero => intro c _; rfl
  | succ n ih =>
    intro c h
    have hstep : cmaStep (c, Flt.fin 0) (Flt.fin 0) = (c + 1, Flt.fin 0) := by
      unfold cmaStep
      simp only [incr_of_lt c (by omega)]
      rw [cma_zero (c + 1) (by omega) (by omega)]
    rw [List.replicate_succ, List.foldl_cons, hstep, ih (c + 1) (by omega)]
    congr 1
    omega

/-- With a zero count the macro divides by zero: a positive observation on a zero average
gives `+inf`. -/
theorem cma_zero_count (v : ℚ) (hv : isFloat v) (h0 : 0 < v) :
    SRSRAN_VEC_SAFE_CMA (.fin v) (.fin 0) 0 = .pinf := by
  have e1 : (Flt.fin v).sub (.fin 0) = .fin v := by
    simp only [Flt.sub, Flt.neg, Flt.add]
    rw [neg_zero, add_zero, ofRat_of_float v hv]
  have e2 : (Flt.fin v).div (.fin 0) = .pinf := by
    simp only [Flt.div]
    rw [if_pos True.intro, if_neg (ne_of_gt h0), if_pos h0]
  unfold SRSRAN_VEC_SAFE_CMA
  rw [e1, ofCount_zero, e2]
  rfl

theorem dl_mcs_after_wrap (n : Nat) (hn : n + 1 = 2 ^ 32) :
    (List.replicate n dlZero ++ [dlOne]).length = 4294967296 ∧
    (∀ o ∈ List.replicate n dlZero ++ [dlOne], isfinite o.mcs = true) ∧
    mean ((List.replicate n dlZero ++ [dlOne]).map (fun o => o.mcs.toRat)) = 1 / 4294967296 ∧
    (List.foldl dl_metrics_t.set dl_metrics_t.init (List.replicate n dlZero)).mcs = Flt.fin 0 ∧
    (List.foldl dl_metrics_t.set dl_metrics_t.init (List.replicate n dlZero)).count =
      4294967295 ∧
    (List.foldl dl_metrics_t.set dl_metrics_t.init (List.replicate n dlZero ++ [dlOne])).count =
      0 ∧
    (List.foldl dl_metrics_t.set dl_metrics_t.init (List.replicate n dlZero ++ [dlOne])).mcs =
      Flt.pinf ∧
    (List.foldl dl_metrics_t.set dl_metrics_t.init (List.replicate n dlZero ++ [dlOne])).mcs ≠
      Flt.fin (mean ((List.replicate n dlZero ++ [dlOne]).map (fun o => o.mcs.toRat))) := by
  have hn' : n = 4294967295 := by norm_num at hn; omega
  have hp := foldl_proj dl_metrics_t.set (fun s => (s.count, s.mcs)) dl_metrics_t.mcs
    (fun _ _ => rfl) (List.replicate n dlZero) dl_metrics_t.init
  rw [List.map_replicate] at hp
  have hz : (List.replicate n (dl_metrics_t.mcs dlZero)).foldl cmaStep
      (dl_metrics_t.init.count, dl_metrics_t.init.mcs) = (0 + n, .fin 0) :=
    cma_fold_zero n 0 (by omega)
  rw [hz, zero_add, Prod.mk.injEq] at hp
  obtain ⟨hcount, hmcs⟩ := hp
  have hincr : incr n = 0 := by
    unfold incr
    rw [hn, Nat.mod_self]
  have hset : List.foldl dl_metrics_t.set dl_metrics_t.init (List.replicate n dlZero ++ [dlOne]) =
      (List.foldl dl_metrics_t.set dl_metrics_t.init (List.replicate n dlZero)).set dlOne := by
    rw [List.foldl_append, List.foldl_cons, List.foldl_nil]
  have hinf : (List.foldl dl_metrics_t.set dl_metrics_t.init
      (List.replicate n dlZero ++ [dlOne])).mcs = Flt.pinf := by
    rw [hset, dl_set_mcs, hcount, hmcs, hincr]
    exact cma_zero_count 1 isFloat_one (by norm_num)
  refine ⟨?_, ?_, ?_, hmcs, ?_, ?_, hinf, ?_⟩
  · rw [List.length_append, List.length_replicate, List.length_singleton]; omega
  · intro o ho
    rw [List.mem_append, List.mem_singleton] at ho
    rcases ho with ho | ho
    · rw [List.eq_of_mem_replicate ho]; rfl
    · rw [ho]; rfl
  · have hq : ((n : ℚ) + 1) = 4294967296 := by
      have : ((n + 1 : ℕ) : ℚ) = ((4294967296 : ℕ) : ℚ) := by rw [hn]; norm_num
      push_cast at this
      exact this
    simp only [mean, List.map_append, List.map_replicate, List.sum_append, List.sum_replicate,
      List.length_append, List.length_replicate, List.map_cons, List.map_nil, List.sum_cons,
      List.sum_nil, List.length_cons, List.length_nil, dlZero, dlOne, Flt.toRat]
    push_cast
    rw [hq]
    norm_num
  · rw [hcount, hn']
  · rw [hset]
    simp only [dl_metrics_t.set, hcount, hincr]
  · rw [hinf]; exact fun hh => Flt.noConfusion hh

theorem rnd32_scaled (m : ℤ) (n : ℕ) (hm : |m| < 2 ^ 24) (hn : n ≤ 149) :
    rnd32 ((m : ℚ) / 2 ^ n) = m / 2 ^ n := by
  rcases eq_or_ne m 0 with rfl | h0
  · simpa using rnd32_zero
  have hx : (m : ℚ) / 2 ^ n = m * 2 ^ (-(n : ℤ)) := by
    rw [zpow_neg, zpow_natCast, div_eq_mul_inv]
  apply rndB_of_multiple 23 (-149) _ m (-(n : ℤ)) hx
  have hp : (0 : ℚ) < 2 ^ n := by positivity
  have hq : |(m : ℚ) / 2 ^ n| < 2 ^ ((24 : ℤ) - n) := by
    have h1 : |(m : ℚ)| < 2 ^ 24 := by exact_mod_cast hm
    rw [abs_div, abs_of_pos hp, zpow_sub₀ (by norm_num), zpow_natCast]
    have e : (2 : ℚ) ^ (24 : ℤ) = 2 ^ 24 := by norm_num
    rw [e]
    exact div_lt_div_of_pos_right h1 hp
  have hne : (m : ℚ) / 2 ^ n ≠ 0 := by
    have : (m : ℚ) ≠ 0 := by exact_mod_cast h0
    positivity
  have hl : Int.log 2 |(m : ℚ) / 2 ^ n| < 24 - n :=
    (Int.lt_zpow_iff_log_lt (by norm_num) (abs_pos.2 hne)).1 (by exact_mod_cast hq)
  unfold ulpExpB
  exact max_le (by omega) (by omega)

/-- The binary32 value of `1/6` is `0x1.555556p-3`. -/
theorem rnd32_sixth : rnd32 (1 / 2 / 3) = 11184811 / 2 ^ 26 := by
  have hl : Int.log 2 |(1 / 2 / 3 : ℚ)| = -3 := by
    apply log2_eq
    · rw [abs_of_pos (by norm_num)]; norm_num
    · rw [abs_of_pos (by norm_num)]; norm_num
  have he : ulpExpB 23 (-149) (1 / 2 / 3 : ℚ) = -26 := by
    unfold ulpExpB; rw [hl]; norm_num
  unfold rnd32 rndB
  rw [he, roundHalfEven_of _ 11184811]
  · norm_num
  · norm_num
  · norm_num

/-- The sum `1.5 + 0x1.555556p-3` rounds to `0x1.aaaaaap+0`. -/
theorem rnd32_third_average : rnd32 (3 / 2 + 11184811 / 2 ^ 26) = 13981013 / 2 ^ 23 := by
  have hl : Int.log 2 |(3 / 2 + 11184811 / 2 ^ 26 : ℚ)| = 0 := by
    apply log2_eq
    · rw [abs_of_pos (by norm_num)]; norm_num
    · rw [abs_of_pos (by norm_num)]; norm_num
  have he : ulpExpB 23 (-149) (3 / 2 + 11184811 / 2 ^ 26 : ℚ) = -23 := by
    unfold ulpExpB; rw [hl]; norm_num
  unfold rnd32 rndB
  rw [he, roundHalfEven_of _ 13981013]
  · norm_num
  · norm_num
  · norm_num

/-- Folding `mcs = 1, 2, 2` into a fresh `dl_metrics_t` in `float`: the averages are `1`,
`1.5` and `0x1.aaaaaap+0 = 13981013 / 2^23`. -/
theorem dl_mcs_rounds :
    (List.foldl dl_metrics_t.set dl_metrics_t.init
      [mcsObs (.fin 1), mcsObs (.fin 2), mcsObs (.fin 2)]).mcs = .fin (13981013 / 2 ^ 23) := by
  have r1 : rnd32 (1 : ℚ) = 1 := isFloat_one.1
  have r2 : rnd32 (2 : ℚ) = 2 := by simpa using rnd32_two_pow 1
  have r3 : rnd32 (3 : ℚ) = 3 := by simpa using rnd32_int 3 (by norm_num)
  have rh : rnd32 (1 / 2 : ℚ) = 1 / 2 := by
    simpa using rnd32_scaled 1 1 (by norm_num) (by norm_num)
  have r32 : rnd32 (3 / 2 : ℚ) = 3 / 2 := by
    simpa using rnd32_scaled 3 1 (by norm_num) (by norm_num)
  have s1 : (dl_metrics_t.init.set (mcsObs (.fin 1))).mcs = .fin 1 := cma_first 1 isFloat_one
  have k1 : (dl_metrics_t.init.set (mcsObs (.fin 1))).count = 1 := rfl
  have s2 : ((dl_metrics_t.init.set (mcsObs (.fin 1))).set (mcsObs (.fin 2))).mcs =
      .fin (3 / 2) := by
    rw [dl_set_mcs, s1, k1]
    exact cma_eval 2 1 2 1 2 (1 / 2) (3 / 2) (by norm_num; exact r1) (by norm_num; exact r2) rh
      (by norm_num; exact r32) (by norm_num) (by norm_num) (by norm_num)
      (by rw [abs_of_pos (by norm_num)]; norm_num) (by rw [abs_of_pos (by norm_num)]; norm_num)
  have k2 : ((dl_metrics_t.init.set (mcsObs (.fin 1))).set (mcsObs (.fin 2))).count = 2 := rfl
  simp only [List.foldl_cons, List.foldl_nil]
  rw [dl_set_mcs, s2, k2]
  exact cma_eval 2 (3 / 2) 3 (1 / 2) 3 (11184811 / 2 ^ 26) (13981013 / 2 ^ 23)
    (by norm_num; exact rh) (by norm_num; exact r3) rnd32_sixth rnd32_third_average
    (by norm_num) (by rw [abs_of_pos (by norm_num)]; norm_num) (by norm_num)
    (by rw [abs_of_pos (by norm_num)]; norm_num) (by rw [abs_of_pos (by norm_num)]; norm_num)

/-- Folding `mcs = 2^127, -2^127` into a fresh `dl_metrics_t` in `float`: the difference
`-2^127 - 2^127` overflows, and the average is `-inf`. -/
theorem dl_mcs_overflows :
    (List.foldl dl_metrics_t.set dl_metrics_t.init
      [mcsObs (.fin (2 ^ 127)), mcsObs (.fin (-(2 ^ 127)))]).mcs = .ninf := by
  have hf : isFloat (2 ^ 127) := ⟨rnd32_two_pow 127, by rw [abs_of_pos (by norm_num)]; norm_num⟩
  have s1 : (dl_metrics_t.init.set (mcsObs (.fin (2 ^ 127)))).mcs = .fin (2 ^ 127) :=
    cma_first _ hf
  have k1 : (dl_metrics_t.init.set (mcsObs (.fin (2 ^ 127)))).count = 1 := rfl
  have e1 : (Flt.fin (-(2 ^ 127))).sub (.fin (2 ^ 127)) = .ninf := by
    simp only [Flt.sub, Flt.neg, Flt.add]
    have e : (-(2 ^ 127) + -(2 ^ 127) : ℚ) = -(2 ^ 128) := by norm_num
    rw [e]
    unfold Flt.ofRat
    rw [rnd32_neg, rnd32_two_pow, if_neg (by norm_num), if_pos le_rfl]
  have e2 : Flt.ofCount 2 = .fin 2 := by
    unfold Flt.ofCount
    simpa using ofRat_of_float 2 (by simpa using isFloat_int 2 (by norm_num))
  simp only [List.foldl_cons, List.foldl_nil]
  rw [dl_set_mcs, s1, k1]
  have e3 : SRSRAN_VEC_SAFE_CMA (mcsObs (.fin (-(2 ^ 127)))).mcs (.fin (2 ^ 127)) (incr 1) =
      (Flt.fin (2 ^ 127)).add (((Flt.fin (-(2 ^ 127))).sub (.fin (2 ^ 127))).div
        (Flt.ofCount 2)) := rfl
  rw [e3, e1, e2]
  simp [Flt.div, Flt.add]

theorem mcs_one_two_two (o : dl_metrics_t)
    (ho : o ∈ [mcsObs (.fin 1), mcsObs (.fin 2), mcsObs (.fin 2)]) :
    isfinite o.mcs = true ∧ isFloat o.mcs.toRat ∧ |o.mcs.toRat| ≤ 2 := by
  have h1 : isFloat 1 := isFloat_one
  have h2 : isFloat 2 := by simpa using isFloat_int 2 (by norm_num)
  simp only [List.mem_cons, List.mem_singleton, List.mem_nil_iff, or_false] at ho
  rcases ho with rfl | rfl | rfl
  · exact ⟨rfl, h1, by simp [mcsObs, Flt.toRat]⟩
  · exact ⟨rfl, h2, by simp [mcsObs, Flt.toRat]⟩
  · exact ⟨rfl, h2, by simp [mcsObs, Flt.toRat]⟩

/-- C8, as stated, fails in three ways on `float` fields.  Rounding: folding `mcs = 1, 2, 2`
into a fresh `dl_metrics_t` gives `0x1.aaaaaap+0 = 13981013 / 2^23`, not the mean `5/3`,
which is no `float`.  Overflow: folding the finite values `2^127, -2^127` gives `-inf`, the
difference `-2^127 - 2^127` being beyond `FLT_MAX`; the mean is `0`.  Counter: at
`n = 2 ^ 32`, after 4294967295 observations with `mcs = 0` and one with `mcs = 1`, the last
`count++` wraps the `uint32_t` counter to `0`, the update divides by it, and `mcs` is `+inf`,
not the mean `1 / 4294967296`. -/
theorem dl_mcs_not_the_mean :
    ((∀ o ∈ [mcsObs (.fin 1), mcsObs (.fin 2), mcsObs (.fin 2)],
        isfinite o.mcs = true ∧ isFloat o.mcs.toRat) ∧
      mean ([mcsObs (.fin 1), mcsObs (.fin 2), mcsObs (.fin 2)].map (fun o => o.mcs.toRat)) =
        5 / 3 ∧
      (List.foldl dl_metrics_t.set dl_metrics_t.init
        [mcsObs (.fin 1), mcsObs (.fin 2), mcsObs (.fin 2)]).mcs = .fin (13981013 / 2 ^ 23) ∧
      (List.foldl dl_metrics_t.set dl_metrics_t.init
        [mcsObs (.fin 1), mcsObs (.fin 2), mcsObs (.fin 2)]).mcs ≠ .fin (5 / 3)) ∧
    ((∀ o ∈ [mcsObs (.fin (2 ^ 127)), mcsObs (.fin (-(2 ^ 127)))],
        isfinite o.mcs = true ∧ isFloat o.mcs.toRat) ∧
      mean ([mcsObs (.fin (2 ^ 127)), mcsObs (.fin (-(2 ^ 127)))].map
        (fun o => o.mcs.toRat)) = 0 ∧
      (List.foldl dl_metrics_t.set dl_metrics_t.init
        [mcsObs (.fin (2 ^ 127)), mcsObs (.fin (-(2 ^ 127)))]).mcs = .ninf) ∧
    ((List.replicate 4294967295 dlZero ++ [dlOne]).length = 4294967296 ∧
      (∀ o ∈ List.replicate 4294967295 dlZero ++ [dlOne], isfinite o.mcs = true) ∧
      mean ((List.replicate 4294967295 dlZero ++ [dlOne]).map (fun o => o.mcs.toRat)) =
        1 / 4294967296 ∧
      (List.foldl dl_metrics_t.set dl_metrics_t.init (List.replicate 4294967295 dlZero)).mcs =
        Flt.fin 0 ∧
      (List.foldl dl_metrics_t.set dl_metrics_t.init (List.replicate 4294967295 dlZero)).count =
        4294967295 ∧
      (List.foldl dl_metrics_t.set dl_metrics_t.init
        (List.replicate 4294967295 dlZero ++ [dlOne])).count = 0 ∧
      (List.foldl dl_metrics_t.set dl_metrics_t.init
        (List.replicate 4294967295 dlZero ++ [dlOne])).mcs = Flt.pinf ∧
      (List.foldl dl_metrics_t.set dl_metrics_t.init
        (List.replicate 4294967295 dlZero ++ [dlOne])).mcs ≠
        Flt.fin (mean ((List.replicate 4294967295 dlZero ++ [dlOne]).map
          (fun o => o.mcs.toRat)))) := by
  refine ⟨⟨fun o ho => ⟨(mcs_one_two_two o ho).1, (mcs_one_two_two o ho).2.1⟩, ?_,
    dl_mcs_rounds, ?_⟩, ⟨?_, ?_, dl_mcs_overflows⟩, dl_mcs_after_wrap 4294967295 (by norm_num)⟩
  · simp [mean, mcsObs, Flt.toRat]
    norm_num
  · rw [dl_mcs_rounds]
    intro h
    have := Flt.fin.inj h
    norm_num at this
  · intro o ho
    have hf : isFloat (2 ^ 127) :=
      ⟨rnd32_two_pow 127, by rw [abs_of_pos (by norm_num)]; norm_num⟩
    have hf2 : isFloat (-(2 ^ 127)) :=
      ⟨by rw [rnd32_neg, rnd32_two_pow], by rw [abs_neg, abs_of_pos (by norm_num)]; norm_num⟩
    simp only [List.mem_cons, List.mem_singleton, List.mem_nil_iff, or_false] at ho
    rcases ho with rfl | rfl
    · exact ⟨rfl, hf⟩
    · exact ⟨rfl, hf2⟩
  · simp [mean, mcsObs, Flt.toRat]

/-- C8, amended: starting from a freshly initialised or reset record, for every `n` with
`1 ≤ n < 2 ^ 32` and every sequence of `n` observations folded by successive `set` calls,
the counter equals `n`, and each averaged field outside the finite-only exclusion
(`dl_metrics_t` fec_iters/mcs/evm, `ul_metrics_t` mcs/power, `ch_metrics_t`
n/rsrp/rsrq/rssi/ri/pathloss/sync_err) whose observations are finite `float`s of magnitude
at most `B`, with `2 * B ≤ FLT_MAX = 2^128 - 2^104`, is finite and within
`n * (B * 2^(-21) + 2^(-148))` of their arithmetic mean.  Each `set` applies
`new_avg = old_avg + (v - old_avg) / new_count` in `float` arithmetic, `new_count` being
the counter after its increment. -/
theorem cumulative_average_mean
    (sd : dl_metrics_t) (su : ul_metrics_t) (sc : ch_metrics_t)
    (dl : List dl_metrics_t) (ul : List ul_metrics_t) (ch : List ch_metrics_t) (B : ℚ)
    (hsd : sd = dl_metrics_t.init ∨ ∃ r : dl_metrics_t, sd = r.reset)
    (hsu : su = ul_metrics_t.init ∨ ∃ r : ul_metrics_t, su = r.reset)
    (hsc : sc = ch_metrics_t.init ∨ ∃ r : ch_metrics_t, sc = r.reset)
    (hdl : 1 ≤ dl.length ∧ dl.length < 2 ^ 32)
    (hul : 1 ≤ ul.length ∧ ul.length < 2 ^ 32)
    (hch : 1 ≤ ch.length ∧ ch.length < 2 ^ 32)
    (hB : 2 * B ≤ 2 ^ 128 - 2 ^ 104) :
    ((dl.foldl dl_metrics_t.set sd).count = dl.length ∧
      ∀ f ∈ dl_metrics_t.averaged,
        (∀ o ∈ dl, isfinite (f o) = true ∧ isFloat (f o).toRat ∧ |(f o).toRat| ≤ B) →
        isfinite (f (dl.foldl dl_metrics_t.set sd)) = true ∧
        |(f (dl.foldl dl_metrics_t.set sd)).toRat - mean (dl.map (fun o => (f o).toRat))| ≤
          dl.length * (B / 2 ^ 21 + 1 / 2 ^ 148)) ∧
    ((ul.foldl ul_metrics_t.set su).count = ul.length ∧
      ∀ f ∈ ul_metrics_t.averaged,
        (∀ o ∈ ul, isfinite (f o) = true ∧ isFloat (f o).toRat ∧ |(f o).toRat| ≤ B) →
        isfinite (f (ul.foldl ul_metrics_t.set su)) = true ∧
        |(f (ul.foldl ul_metrics_t.set su)).toRat - mean (ul.map (fun o => (f o).toRat))| ≤
          ul.length * (B / 2 ^ 21 + 1 / 2 ^ 148)) ∧
    ((ch.foldl ch_metrics_t.set sc).count = ch.length ∧
      ∀ f ∈ ch_metrics_t.averaged,
        (∀ o ∈ ch, isfinite (f o) = true ∧ isFloat (f o).toRat ∧ |(f o).toRat| ≤ B) →
        isfinite (f (ch.foldl ch_metrics_t.set sc)) = true ∧
        |(f (ch.foldl ch_metrics_t.set sc)).toRat - mean (ch.map (fun o => (f o).toRat))| ≤
          ch.length * (B / 2 ^ 21 + 1 / 2 ^ 148)) ∧
    (∀ s o : dl_metrics_t, s.count + 1 < 2 ^ 32 →
      (s.set o).count = s.count + 1 ∧
      ∀ f ∈ dl_metrics_t.averaged,
        f (s.set o) = (f s).add (((f o).sub (f s)).div (Flt.ofCount (s.set o).count))) ∧
    (∀ s o : ul_metrics_t, s.count + 1 < 2 ^ 32 →
      (s.set o).count = s.count + 1 ∧
      ∀ f ∈ ul_metrics_t.averaged,
        f (s.set o) = (f s).add (((f o).sub (f s)).div (Flt.ofCount (s.set o).count))) ∧
    (∀ s o : ch_metrics_t, s.count + 1 < 2 ^ 32 →
      (s.set o).count = s.count + 1 ∧
      ∀ f ∈ ch_metrics_t.averaged,
        f (s.set o) = (f s).add (((f o).sub (f s)).div (Flt.ofCount (s.set o).count))) := by
  have nil_of {α : Type} (l : List α) (h : 1 ≤ l.length) : l ≠ [] := by
    intro e; rw [e] at h; simp at h
  have hd0 : sd = dl_metrics_t.init := by
    rcases hsd with h | ⟨r, h⟩
    · exact h
    · rw [h]; rfl
  have hu0 : su = ul_metrics_t.init := by
    rcases hsu with h | ⟨r, h⟩
    · exact h
    · rw [h]; rfl
  have hc0 : sc = ch_metrics_t.init := by
    rcases hsc with h | ⟨r, h⟩
    · exact h
    · rw [h]; rfl
  refine ⟨⟨?_, ?_⟩, ⟨?_, ?_⟩, ⟨?_, ?_⟩, ?_, ?_, ?_⟩
  · have h := foldl_proj dl_metrics_t.set (fun s => (s.count, s.mcs)) dl_metrics_t.mcs
      (fun _ _ => rfl) dl sd
    have hc := count_fold (dl.map dl_metrics_t.mcs) 0 (Flt.fin 0) (by simpa using hdl.2)
    rw [hd0] at h ⊢
    have := congrArg Prod.fst h
    simp only at this
    rw [this]
    simpa using hc
  · intro f hf hfin
    obtain ⟨_, h2, _, h4⟩ := dl_field_mean f hf sd hsd dl (nil_of dl hdl.1) hdl.2 B hB hfin
    exact ⟨h2, h4⟩
  · have h := foldl_proj ul_metrics_t.set (fun s => (s.count, s.mcs)) ul_metrics_t.mcs
      (fun _ _ => rfl) ul su
    have hc := count_fold (ul.map ul_metrics_t.mcs) 0 (Flt.fin 0) (by simpa using hul.2)
    rw [hu0] at h ⊢
    have := congrArg Prod.fst h
    simp only at this
    rw [this]
    simpa using hc
  · intro f hf hfin
    obtain ⟨_, h2, _, h4⟩ := ul_field_mean f hf su hsu ul (nil_of ul hul.1) hul.2 B hB hfin
    exact ⟨h2, h4⟩
  · have h := foldl_proj ch_metrics_t.set (fun s => (s.count, s.n)) ch_metrics_t.n
      (fun _ _ => rfl) ch sc
    have hc := count_fold (ch.map ch_metrics_t.n) 0 (Flt.fin 0) (by simpa using hch.2)
    rw [hc0] at h ⊢
    have := congrArg Prod.fst h
    simp only at this
    rw [this]
    simpa using hc
  · intro f hf hfin
    obtain ⟨_, h2, _, h4⟩ := ch_field_mean f hf sc hsc ch (nil_of ch hch.1) hch.2 B hB hfin
    exact ⟨h2, h4⟩
  · intro s o hlt
    refine ⟨incr_of_lt _ hlt, ?_⟩
    intro f hf
    simp only [dl_metrics_t.averaged, List.mem_cons, List.mem_singleton, List.mem_nil_iff,
      or_false] at hf
    rcases hf with rfl | rfl | rfl <;> rfl
  · intro s o hlt
    refine ⟨incr_of_lt _ hlt, ?_⟩
    intro f hf
    simp only [ul_metrics_t.averaged, List.mem_cons, List.mem_singleton, List.mem_nil_iff,
      or_false] at hf
    rcases hf with rfl | rfl <;> rfl
  · intro s o hlt
    refine ⟨incr_of_lt _ hlt, ?_⟩
    intro f hf
    simp only [ch_metrics_t.averaged, List.mem_cons, List.mem_singleton, List.mem_nil_iff,
      or_false] at hf
    rcases hf with rfl | rfl | rfl | rfl | rfl | rfl | rfl <;> rfl

theorem cumulative_average_mean_witness :
    isfinite (dl_metrics_t.mcs (List.foldl dl_metrics_t.set dl_metrics_t.init
      [mcsObs (.fin 1), mcsObs (.fin 2), mcsObs (.fin 2)])) = true ∧
    |(dl_metrics_t.mcs (List.foldl dl_metrics_t.set dl_metrics_t.init
        [mcsObs (.fin 1), mcsObs (.fin 2), mcsObs (.fin 2)])).toRat -
      mean ([mcsObs (.fin 1), mcsObs (.fin 2), mcsObs (.fin 2)].map
        (fun o => (dl_metrics_t.mcs o).toRat))| ≤
      ([mcsObs (.fin 1), mcsObs (.fin 2), mcsObs (.fin 2)].length : ℚ) *
        (2 / 2 ^ 21 + 1 / 2 ^ 148) :=
  (cumulative_average_mean dl_metrics_t.init (ul_metrics_t.reset ⟨.nan, .fin 4, 7⟩)
    ch_metrics_t.init
    [mcsObs (.fin 1), mcsObs (.fin 2), mcsObs (.fin 2)]
    [⟨.fin 5, .fin 6, 0⟩] [sinrObs (.fin 1)] 2
    (Or.inl rfl) (Or.inr ⟨_, rfl⟩) (Or.inl rfl)
    (by simp) (by simp) (by simp) (by norm_num)).1.2 dl_metrics_t.mcs
    (by simp [dl_metrics_t.averaged]) mcs_one_two_two

/-! ### Finite-only exclusion of `sinr` -/

theorem sinr_guard_true (x : Flt) : (!isnan x || !isinf x) = true := by
  cases x <;> rfl

theorem ch_set_sinr (s o : ch_metrics_t) :
    (s.set o).sinr = SRSRAN_VEC_SAFE_CMA o.sinr s.sinr (incr s.count) := by
  simp only [ch_metrics_t.set, sinr_guard_true, if_true]

theorem cma_nan (a : Flt) (n : Nat) : SRSRAN_VEC_SAFE_CMA .nan a n = .nan := by
  cases a <;> simp [SRSRAN_VEC_SAFE_CMA, Flt.sub, Flt.neg, Flt.add, Flt.div]

theorem cma_on_nan (v : Flt) (n : Nat) : SRSRAN_VEC_SAFE_CMA v .nan n = .nan := by
  cases v <;> simp [SRSRAN_VEC_SAFE_CMA, Flt.sub, Flt.neg, Flt.add, Flt.div]

theorem cma_pinf_first : SRSRAN_VEC_SAFE_CMA .pinf (.fin 0) 1 = .pinf := by
  unfold SRSRAN_VEC_SAFE_CMA
  rw [ofCount_one]
  simp [Flt.sub, Flt.neg, Flt.add, Flt.div]

theorem cma_ninf_first : SRSRAN_VEC_SAFE_CMA .ninf (.fin 0) 1 = .ninf := by
  unfold SRSRAN_VEC_SAFE_CMA
  rw [ofCount_one]
  simp [Flt.sub, Flt.neg, Flt.add, Flt.div]

/-- C9: `ch_metrics_t::set` folds `sinr` on every call, whatever the observation: the guard
`!isnan(other.sinr) || !isinf(other.sinr)` holds for every value (the counter advances and
the seven other fields are folded, as the claim says).  An observation with
`sinr = NaN` leaves `sinr = NaN` in every state; on a fresh record (`sinr = 0`) one with
`+inf` leaves `+inf` and one with `-inf` leaves `-inf`: the stored average is not kept. -/
theorem ch_set_folds_nonfinite_sinr (s o : ch_metrics_t) :
    (s.set o).sinr = SRSRAN_VEC_SAFE_CMA o.sinr s.sinr (incr s.count) ∧
    (s.set o).count = incr s.count ∧
    (s.set o).n = SRSRAN_VEC_SAFE_CMA o.n s.n (incr s.count) ∧
    (s.set o).rsrp = SRSRAN_VEC_SAFE_CMA o.rsrp s.rsrp (incr s.count) ∧
    (s.set o).rsrq = SRSRAN_VEC_SAFE_CMA o.rsrq s.rsrq (incr s.count) ∧
    (s.set o).rssi = SRSRAN_VEC_SAFE_CMA o.rssi s.rssi (incr s.count) ∧
    (s.set o).ri = SRSRAN_VEC_SAFE_CMA o.ri s.ri (incr s.count) ∧
    (s.set o).pathloss = SRSRAN_VEC_SAFE_CMA o.pathloss s.pathloss (incr s.count) ∧
    (s.set o).sync_err = SRSRAN_VEC_SAFE_CMA o.sync_err s.sync_err (incr s.count) ∧
    (s.set { o with sinr := .nan }).sinr = .nan ∧
    ch_metrics_t.init.sinr = .fin 0 ∧
    (ch_metrics_t.init.set (sinrObs .nan)).sinr = .nan ∧
    (ch_metrics_t.init.set (sinrObs .pinf)).sinr = .pinf ∧
    (ch_metrics_t.init.set (sinrObs .ninf)).sinr = .ninf ∧
    (ch_metrics_t.init.set (sinrObs .nan)).sinr ≠ ch_metrics_t.init.sinr := by
  refine ⟨ch_set_sinr s o, rfl, rfl, rfl, rfl, rfl, rfl, rfl, rfl, ?_, rfl, ?_, ?_, ?_, ?_⟩
  · rw [ch_set_sinr]; exact cma_nan _ _
  · rw [ch_set_sinr]; exact cma_nan _ _
  · rw [ch_set_sinr]
    exact cma_pinf_first
  · rw [ch_set_sinr]
    exact cma_ninf_first
  · rw [ch_set_sinr]
    have : SRSRAN_VEC_SAFE_CMA (sinrObs Flt.nan).sinr ch_metrics_t.init.sinr
        (incr ch_metrics_t.init.count) = .nan := cma_nan _ _
    rw [this]
    exact fun hh => Flt.noConfusion hh

/-- C10: folding `sinr = 10.0, NaN, 20.0` in that order on a fresh `ch_metrics_t` leaves
`sinr = NaN` (after the first call it is `10`, after the second NaN), not the mean `15` of
the finite observations. -/
theorem sinr_fold_10_nan_20 :
    (ch_metrics_t.init.set (sinrObs (.fin 10))).sinr = .fin 10 ∧
    ((ch_metrics_t.init.set (sinrObs (.fin 10))).set (sinrObs .nan)).sinr = .nan ∧
    (List.foldl ch_metrics_t.set ch_metrics_t.init
      [sinrObs (.fin 10), sinrObs .nan, sinrObs (.fin 20)]).sinr = .nan ∧
    (List.foldl ch_metrics_t.set ch_metrics_t.init
      [sinrObs (.fin 10), sinrObs .nan, sinrObs (.fin 20)]).sinr ≠ .fin 15 := by
  have h1 : (ch_metrics_t.init.set (sinrObs (.fin 10))).sinr = .fin 10 := by
    rw [ch_set_sinr]
    have hi : incr ch_metrics_t.init.count = 1 := rfl
    have hs : ch_metrics_t.init.sinr = .fin 0 := rfl
    have ho : (sinrObs (.fin 10)).sinr = .fin 10 := rfl
    rw [hi, hs, ho]
    exact cma_first 10 (by simpa using isFloat_int 10 (by norm_num))
  have h2 : ((ch_metrics_t.init.set (sinrObs (.fin 10))).set (sinrObs .nan)).sinr = .nan := by
    rw [ch_set_sinr]
    exact cma_nan _ _
  have h3 : (List.foldl ch_metrics_t.set ch_metrics_t.init
      [sinrObs (.fin 10), sinrObs .nan, sinrObs (.fin 20)]).sinr = .nan := by
    simp only [List.foldl_cons, List.foldl_nil]
    rw [ch_set_sinr, h2]
    exact cma_on_nan _ _
  refine ⟨h1, h2, h3, ?_⟩
  rw [h3]
  exact fun hh => Flt.noConfusion hh

/-! ### HARQ timing and the periodic index -/

theorem tmod20_of_nonneg (x : Int) (h : 0 ≤ x) : Int.tmod x 20 = x % 20 :=
  Int.tmod_eq_emod h (by decide)

theorem u32_twenty : u32 TTIMOD_SZ = 20 := by decide

/-- C15: HARQ timing consistency.  For every `tti` in `[0, 10239]`,
`TTI_RX (TTI_TX tti) = tti`, `TTI_TX (TTI_RX tti) = tti`,
`TTI_RX_ACK (TTI_RX tti) = TTI_TX tti` and `TTI_RX_ACK tti = TTI_TX (TTI_TX tti)`; for
`int` operands (`tti`) and for `uint32_t` operands (`t`). -/
theorem harq_timing_consistent (tti : Int) (t : Nat)
    (h : 0 ≤ tti ∧ tti ≤ 10239) (ht : t ≤ 10239) :
    (TTI_RX (TTI_TX tti) = tti ∧ TTI_TX (TTI_RX tti) = tti ∧
      TTI_RX_ACK (TTI_RX tti) = TTI_TX tti ∧ TTI_RX_ACK tti = TTI_TX (TTI_TX tti)) ∧
    (TTI_RX_u32 (TTI_TX_u32 t) = t ∧ TTI_TX_u32 (TTI_RX_u32 t) = t ∧
      TTI_RX_ACK_u32 (TTI_RX_u32 t) = TTI_TX_u32 t ∧
      TTI_RX_ACK_u32 t = TTI_TX_u32 (TTI_TX_u32 t)) := by
  obtain ⟨h0, h1⟩ := h
  have e4 : ((u32 4 : Nat) : Int) = 4 := by rw [u32_eq]; norm_num
  have e8 : ((u32 (4 + 4) : Nat) : Int) = 8 := by rw [u32_eq]; norm_num
  have htx : TTI_TX tti = (tti + 4) % 10240 := by
    unfold TTI_TX TTI_ADD FDD_HARQ_DELAY_DL_MS
    rw [tmod_of_nonneg _ (by omega)]
  have hrx : TTI_RX tti = (tti + 10240 - 4) % 10240 := by
    unfold TTI_RX TTI_SUB FDD_HARQ_DELAY_UL_MS
    rw [tmod_of_nonneg _ (by omega)]
  refine ⟨⟨?_, ?_, ?_, ?_⟩, ?_, ?_, ?_, ?_⟩
  · rw [htx]
    unfold TTI_RX TTI_SUB FDD_HARQ_DELAY_UL_MS
    rw [tmod_of_nonneg _ (by omega)]
    omega
  · rw [hrx]
    unfold TTI_TX TTI_ADD FDD_HARQ_DELAY_DL_MS
    rw [tmod_of_nonneg _ (by omega)]
    omega
  · rw [hrx, htx]
    unfold TTI_RX_ACK TTI_ADD FDD_HARQ_DELAY_UL_MS FDD_HARQ_DELAY_DL_MS
    rw [tmod_of_nonneg _ (by omega)]
    omega
  · rw [htx]
    unfold TTI_RX_ACK TTI_TX TTI_ADD FDD_HARQ_DELAY_UL_MS FDD_HARQ_DELAY_DL_MS
    rw [tmod_of_nonneg _ (by omega), tmod_of_nonneg _ (by omega)]
    omega
  · unfold TTI_RX_u32 TTI_TX_u32 TTI_SUB_u32 TTI_ADD_u32 FDD_HARQ_DELAY_UL_MS
      FDD_HARQ_DELAY_DL_MS
    zify
    simp only [u32_eq, e4]
    omega
  · unfold TTI_RX_u32 TTI_TX_u32 TTI_SUB_u32 TTI_ADD_u32 FDD_HARQ_DELAY_UL_MS
      FDD_HARQ_DELAY_DL_MS
    zify
    simp only [u32_eq, e4]
    omega
  · unfold TTI_RX_ACK_u32 TTI_RX_u32 TTI_TX_u32 TTI_SUB_u32 TTI_ADD_u32 FDD_HARQ_DELAY_UL_MS
      FDD_HARQ_DELAY_DL_MS
    zify
    simp only [u32_eq, e4, e8]
    omega
  · unfold TTI_RX_ACK_u32 TTI_TX_u32 TTI_ADD_u32 FDD_HARQ_DELAY_UL_MS FDD_HARQ_DELAY_DL_MS
    zify
    simp only [u32_eq, e4, e8]
    omega

theorem harq_timing_consistent_witness :
    (TTI_RX (TTI_TX 10238) = 10238 ∧ TTI_TX (TTI_RX 2) = 2 ∧
      TTI_RX_ACK (TTI_RX 10238) = TTI_TX 10238 ∧
      TTI_RX_ACK 10238 = TTI_TX (TTI_TX 10238)) ∧
    (TTI_RX_u32 (TTI_TX_u32 10238) = 10238 ∧ TTI_TX_u32 (TTI_RX_u32 10238) = 10238 ∧
      TTI_RX_ACK_u32 (TTI_RX_u32 10238) = TTI_TX_u32 10238 ∧
      TTI_RX_ACK_u32 10238 = TTI_TX_u32 (TTI_TX_u32 10238)) :=
  ⟨⟨(harq_timing_consistent 10238 10238 (by decide) (by decide)).1.1,
    (harq_timing_consistent 2 10238 (by decide) (by decide)).1.2.1,
    (harq_timing_consistent 10238 10238 (by decide) (by decide)).1.2.2⟩,
   (harq_timing_consistent 10238 10238 (by decide) (by decide)).2⟩

/-- C16: the 20-periodic index is compatible with the ring.  For `a`, `b` in `[0, 10239]`,
`TTIMOD (TTI_ADD a b) = (TTIMOD a + TTIMOD b) mod 20` and
`TTIMOD (TTI_SUB a b) = (TTIMOD a + 20 - TTIMOD b) mod 20`, `TTIMOD a = a mod 20` lies in
`[0, 19]`, and the index of the successor of `10239` follows that of `10239`; for `int`
operands (`a`, `b`) and for `uint32_t` operands (`x`, `y`). -/
theorem ttimod_compatible (a b : Int) (x y : Nat)
    (ha : 0 ≤ a ∧ a ≤ 10239) (hb : 0 ≤ b ∧ b ≤ 10239) (hx : x ≤ 10239) (hy : y ≤ 10239) :
    (TTIMOD (TTI_ADD a b) = (TTIMOD a + TTIMOD b) % 20 ∧
      TTIMOD (TTI_SUB a b) = (TTIMOD a + 20 - TTIMOD b) % 20 ∧
      TTIMOD a = a % 20 ∧ 0 ≤ TTIMOD a ∧ TTIMOD a ≤ 19) ∧
    (TTIMOD_u32 (TTI_ADD_u32 x y) = (TTIMOD_u32 x + TTIMOD_u32 y) % 20 ∧
      TTIMOD_u32 (TTI_SUB_u32 x y) = (TTIMOD_u32 x + 20 - TTIMOD_u32 y) % 20 ∧
      TTIMOD_u32 x = x % 20 ∧ TTIMOD_u32 x ≤ 19) ∧
    (TTIMOD (TTI_ADD 10239 1) = (TTIMOD 10239 + 1) % 20 ∧
      TTIMOD_u32 (TTI_ADD_u32 10239 1) = (TTIMOD_u32 10239 + 1) % 20) := by
  obtain ⟨ha0, ha1⟩ := ha
  obtain ⟨hb0, hb1⟩ := hb
  have hadd : TTI_ADD a b = (a + b) % 10240 := by
    unfold TTI_ADD; rw [tmod_of_nonneg _ (by omega)]
  have hsub : TTI_SUB a b = (a + 10240 - b) % 10240 := by
    unfold TTI_SUB; rw [tmod_of_nonneg _ (by omega)]
  have hm : ∀ z : Int, 0 ≤ z → TTIMOD z = z % 20 := by
    intro z hz
    unfold TTIMOD TTIMOD_SZ
    exact tmod20_of_nonneg z hz
  refine ⟨⟨?_, ?_, hm a ha0, ?_, ?_⟩, ⟨?_, ?_, ?_, ?_⟩, by decide, by decide⟩
  · rw [hadd, hm _ (by omega), hm a ha0, hm b hb0]; omega
  · rw [hsub, hm _ (by omega), hm a ha0, hm b hb0]; omega
  · rw [hm a ha0]; omega
  · rw [hm a ha0]; omega
  · unfold TTIMOD_u32 TTI_ADD_u32
    rw [u32_twenty]
    zify
    simp only [u32_eq]
    omega
  · unfold TTIMOD_u32 TTI_SUB_u32
    rw [u32_twenty]
    zify
    simp only [u32_eq]
    omega
  · unfold TTIMOD_u32; rw [u32_twenty]
  · unfold TTIMOD_u32; rw [u32_twenty]; omega

theorem ttimod_compatible_witness :
    (TTIMOD (TTI_ADD 3 10239) = (TTIMOD 3 + TTIMOD 10239) % 20 ∧
      TTIMOD (TTI_SUB 3 10239) = (TTIMOD 3 + 20 - TTIMOD 10239) % 20 ∧
      TTIMOD 3 = 3 % 20 ∧ 0 ≤ TTIMOD 3 ∧ TTIMOD 3 ≤ 19) ∧
    (TTIMOD_u32 (TTI_ADD_u32 10239 10239) = (TTIMOD_u32 10239 + TTIMOD_u32 10239) % 20 ∧
      TTIMOD_u32 (TTI_SUB_u32 10239 10239) =
        (TTIMOD_u32 10239 + 20 - TTIMOD_u32 10239) % 20 ∧
      TTIMOD_u32 10239 = 10239 % 20 ∧ TTIMOD_u32 10239 ≤ 19) :=
  ⟨(ttimod_compatible 3 10239 10239 10239 (by decide) (by decide) (by decide)
      (by decide)).1,
   (ttimod_compatible 3 10239 10239 10239 (by decide) (by decide) (by decide)
      (by decide)).2.1⟩

/-! ### Reset and direct overwrite -/

/-- C11: `reset` restores the initial state.  For each of `sync_metrics_t`, `ch_metrics_t`,
`dl_metrics_t` and `ul_metrics_t`, after any sequence of `set` calls (`a`, `b`, `c`, `d`),
`reset` gives a record whose float fields are all `0.0` and whose counter is `0`, that is
the freshly zero-initialised record, so any further sequence of `set` calls (`a2`, `b2`,
`c2`, `d2`) produces the same record as on a fresh one. -/
theorem reset_restores_initial
    (a a2 : List sync_metrics_t) (b b2 : List ch_metrics_t)
    (c c2 : List dl_metrics_t) (d d2 : List ul_metrics_t) :
    ((a.foldl sync_metrics_t.set sync_metrics_t.init).reset =
        ⟨.fin 0, .fin 0, .fin 0, .fin 0, .fin 0, 0⟩ ∧
      (a.foldl sync_metrics_t.set sync_metrics_t.init).reset = sync_metrics_t.init ∧
      a2.foldl sync_metrics_t.set (a.foldl sync_metrics_t.set sync_metrics_t.init).reset =
        a2.foldl sync_metrics_t.set sync_metrics_t.init) ∧
    ((b.foldl ch_metrics_t.set ch_metrics_t.init).reset =
        ⟨.fin 0, .fin 0, .fin 0, .fin 0, .fin 0, .fin 0, .fin 0, .fin 0, 0⟩ ∧
      (b.foldl ch_metrics_t.set ch_metrics_t.init).reset = ch_metrics_t.init ∧
      b2.foldl ch_metrics_t.set (b.foldl ch_metrics_t.set ch_metrics_t.init).reset =
        b2.foldl ch_metrics_t.set ch_metrics_t.init) ∧
    ((c.foldl dl_metrics_t.set dl_metrics_t.init).reset = ⟨.fin 0, .fin 0, .fin 0, 0⟩ ∧
      (c.foldl dl_metrics_t.set dl_metrics_t.init).reset = dl_metrics_t.init ∧
      c2.foldl dl_metrics_t.set (c.foldl dl_metrics_t.set dl_metrics_t.init).reset =
        c2.foldl dl_metrics_t.set dl_metrics_t.init) ∧
    ((d.foldl ul_metrics_t.set ul_metrics_t.init).reset = ⟨.fin 0, .fin 0, 0⟩ ∧
      (d.foldl ul_metrics_t.set ul_metrics_t.init).reset = ul_metrics_t.init ∧
      d2.foldl ul_metrics_t.set (d.foldl ul_metrics_t.set ul_metrics_t.init).reset =
        d2.foldl ul_metrics_t.set ul_metrics_t.init) :=
  ⟨⟨rfl, rfl, rfl⟩, ⟨rfl, rfl, rfl⟩, ⟨rfl, rfl, rfl⟩, ⟨rfl, rfl, rfl⟩⟩

/-- C12, as stated, fails for a record whose counter holds `4294967295`: after `set` the
`uint32_t` counter is `0`, it has not grown by one. -/
theorem sync_set_counter_wraps :
    syncFull.count = 4294967295 ∧
    (syncFull.set sync_metrics_t.init).count = 0 ∧
    (syncFull.set sync_metrics_t.init).count ≠ syncFull.count + 1 := by
  decide

/-- C12, amended: for every `sync_metrics_t` state `s` and observation `o`, after
`s.set(o)` the fields `ta_us`, `distance_km` and `speed_kmph` equal those of `o` exactly,
whatever `s` and its counter were (`s2` is any other state); only `cfo` and `sfo` go
through `SRSRAN_VEC_SAFE_CMA`; and the counter is incremented modulo `2 ^ 32`: it grows by
exactly one unless it held `4294967295`. -/
theorem sync_set_overwrites (s s2 o : sync_metrics_t) :
    ((s.set o).ta_us = o.ta_us ∧ (s.set o).distance_km = o.distance_km ∧
      (s.set o).speed_kmph = o.speed_kmph) ∧
    ((s.set o).ta_us = (s2.set o).ta_us ∧ (s.set o).distance_km = (s2.set o).distance_km ∧
      (s.set o).speed_kmph = (s2.set o).speed_kmph) ∧
    ((s.set o).cfo = SRSRAN_VEC_SAFE_CMA o.cfo s.cfo s.count ∧
      (s.set o).sfo = SRSRAN_VEC_SAFE_CMA o.sfo s.sfo s.count) ∧
    (s.set o).count = (s.count + 1) % 2 ^ 32 ∧
    (s.count < 4294967295 → (s.set o).count = s.count + 1) := by
  refine ⟨⟨rfl, rfl, rfl⟩, ⟨rfl, rfl, rfl⟩, ⟨rfl, rfl⟩, rfl, ?_⟩
  intro h
  exact incr_of_lt s.count (by norm_num; omega)

theorem sync_set_overwrites_witness :
    (sync_metrics_t.init.set ⟨.fin 3, .fin 5, .fin 7, .fin 1, .fin 2, 9⟩).count = 0 + 1 :=
  (sync_set_overwrites sync_metrics_t.init sync_metrics_t.init
    ⟨.fin 3, .fin 5, .fin 7, .fin 1, .fin 2, 9⟩).2.2.2.2 (by decide)

/-! ### Position of the counter increment -/

theorem sync_set_eq_setWith (s o : sync_metrics_t) :
    s.set o = s.setWith SRSRAN_VEC_SAFE_CMA o := rfl

theorem dl_set_eq_setWith (s o : dl_metrics_t) :
    s.set o = s.setWith SRSRAN_VEC_SAFE_CMA o := rfl

/-- C17: a single `set` with the finite value `1` on fresh records.  `dl_metrics_t::set`
increments the counter first and leaves `mcs = 1`; `sync_metrics_t::set` folds with the
counter still `0`, divides by it, and leaves `cfo = +inf`.  The two placements of
`count++` cannot both be right, whatever `SRSRAN_VEC_SAFE_CMA` computes: no macro `cma`
gives `cfo = 0` after the value `0`, `cfo = 1` after the values `0, 2`, and `mcs = 2`
after the value `2`. -/
theorem count_position_changes_average (cma : Flt → Flt → Nat → Flt) :
    (dl_metrics_t.init.set (mcsObs (.fin 1))).mcs = .fin 1 ∧
    (sync_metrics_t.init.set (cfoObs (.fin 1))).cfo = .pinf ∧
    (sync_metrics_t.init.set (cfoObs (.fin 1))).cfo ≠
      (dl_metrics_t.init.set (mcsObs (.fin 1))).mcs ∧
    ¬ ((sync_metrics_t.init.setWith cma (cfoObs (.fin 0))).cfo = .fin 0 ∧
        ((sync_metrics_t.init.setWith cma (cfoObs (.fin 0))).setWith cma
          (cfoObs (.fin 2))).cfo = .fin 1 ∧
        (dl_metrics_t.init.setWith cma (mcsObs (.fin 2))).mcs = .fin 2) := by
  have hdl : (dl_metrics_t.init.set (mcsObs (.fin 1))).mcs = .fin 1 := by
    have h : (dl_metrics_t.init.set (mcsObs (.fin 1))).mcs =
        SRSRAN_VEC_SAFE_CMA (.fin 1) (.fin 0) 1 := rfl
    rw [h]
    exact cma_first 1 isFloat_one
  have hsync : (sync_metrics_t.init.set (cfoObs (.fin 1))).cfo = .pinf := by
    have h : (sync_metrics_t.init.set (cfoObs (.fin 1))).cfo =
        SRSRAN_VEC_SAFE_CMA (.fin 1) (.fin 0) 0 := rfl
    rw [h]
    exact cma_zero_count 1 isFloat_one (by norm_num)
  refine ⟨hdl, hsync, ?_, ?_⟩
  · rw [hdl, hsync]
    exact fun hh => Flt.noConfusion hh
  · rintro ⟨h1, h2, h3⟩
    have e1 : (sync_metrics_t.init.setWith cma (cfoObs (.fin 0))).cfo =
        cma (.fin 0) (.fin 0) 0 := rfl
    have e2 : ((sync_metrics_t.init.setWith cma (cfoObs (.fin 0))).setWith cma
        (cfoObs (.fin 2))).cfo =
        cma (.fin 2) (sync_metrics_t.init.setWith cma (cfoObs (.fin 0))).cfo 1 := rfl
    have e3 : (dl_metrics_t.init.setWith cma (mcsObs (.fin 2))).mcs =
        cma (.fin 2) (.fin 0) 1 := rfl
    rw [e2, h1] at h2
    rw [e3, h2] at h3
    have := Flt.fin.inj h3
    norm_num at this

/-! ### Fast-math classification -/

theorem isnan_double_fast_iff (u : Nat) :
    isnan_double_fast u = true ↔
      (u / 4294967296 % 2147483648 > 2146435072 ∨
        (u / 4294967296 % 2147483648 = 2146435072 ∧ u % 4294967296 ≠ 0)) := by
  have hmask : (0x7fffffff : Nat) = 2 ^ 31 - 1 := by norm_num
  unfold isnan_double_fast
  rw [decide_eq_true_iff, hmask, Nat.and_pow_two_sub_one_eq_mod, Nat.shiftRight_eq_div_pow]
  norm_num only
  split_ifs <;> omega

theorem isinf_double_fast_iff (u : Nat) :
    isinf_double_fast u = true ↔ (u = 9218868437227405312 ∨ u = 18442240474082181120) := by
  unfold isinf_double_fast
  simp

theorem isnan_float_fast_iff (u : Nat) :
    isnan_float_fast u = true ↔ u % 2147483648 > 2139095040 := by
  unfold isnan_float_fast
  rw [decide_eq_true_iff, Nat.shiftLeft_eq]
  norm_num only
  omega

theorem isinf_float_fast_iff (u : Nat) :
    isinf_float_fast u = true ↔ (u = 2139095040 ∨ u = 4286578688) := by
  unfold isinf_float_fast
  simp

/-- C18: the fast-math `isnan(double)` is exact.  For every 64-bit pattern `u`, the test is
true if and only if `u` encodes an IEEE-754 NaN (exponent bits all ones, mantissa not
zero), whatever the sign bit; the fast-math `isinf(double)` is true exactly for the
patterns `0x7ff0000000000000` and `0xfff0000000000000`, those with exponent bits all ones
and mantissa zero; and the two tests are never both true. -/
theorem isnan_double_fast_exact (u : Nat) (hu : u < 2 ^ 64) :
    (isnan_double_fast u = true ↔ ieee_double_is_nan u) ∧
    isnan_double_fast (u % 2 ^ 63) = isnan_double_fast u ∧
    (isinf_double_fast u = true ↔ (u = 0x7ff0000000000000 ∨ u = 0xfff0000000000000)) ∧
    (isinf_double_fast u = true ↔
      (ieee_double_exponent u = 2047 ∧ ieee_double_mantissa u = 0)) ∧
    ¬ (isnan_double_fast u = true ∧ isinf_double_fast u = true) := by
  have h1 := isnan_double_fast_iff u
  have h2 := isinf_double_fast_iff u
  have h3 := isnan_double_fast_iff (u % 2 ^ 63)
  norm_num only at hu h3
  refine ⟨?_, ?_, ?_, ?_, ?_⟩
  · rw [h1]
    unfold ieee_double_is_nan ieee_double_exponent ieee_double_mantissa
    norm_num only
    omega
  · rw [Bool.eq_iff_iff, h1]
    norm_num only
    rw [h3]
    omega
  · rw [h2]
  · rw [h2]
    unfold ieee_double_exponent ieee_double_mantissa
    norm_num only
    omega
  · rw [h1, h2]
    omega

theorem isnan_double_fast_exact_witness :
    (isnan_double_fast 0xfff8000000000000 = true ↔ ieee_double_is_nan 0xfff8000000000000) ∧
    ¬ (isnan_double_fast 0x7ff0000000000000 = true ∧
        isinf_double_fast 0x7ff0000000000000 = true) :=
  ⟨(isnan_double_fast_exact 0xfff8000000000000 (by decide)).1,
   (isnan_double_fast_exact 0x7ff0000000000000 (by decide)).2.2.2.2⟩

/-- C19: the fast-math `isfinite` for `float` is exact.  For every 32-bit pattern `u`,
`!isnan(u) && !isinf(u)` is true if and only if the 8 exponent bits of `u` are not all
ones; `isnan` is true exactly for exponent bits all ones with a mantissa that is not zero,
`isinf` exactly for exponent bits all ones with a zero mantissa. -/
theorem isfinite_float_fast_exact (u : Nat) (hu : u < 2 ^ 32) :
    (isfinite_float_fast u = true ↔ ieee_float_is_finite u) ∧
    (isnan_float_fast u = true ↔ (ieee_float_exponent u = 255 ∧ u % 2 ^ 23 ≠ 0)) ∧
    (isinf_float_fast u = true ↔ (ieee_float_exponent u = 255 ∧ u % 2 ^ 23 = 0)) := by
  have h1 := isnan_float_fast_iff u
  have h2 := isinf_float_fast_iff u
  norm_num only at hu
  refine ⟨?_, ?_, ?_⟩
  · unfold isfinite_float_fast ieee_float_is_finite ieee_float_exponent
    rw [Bool.and_eq_true, Bool.not_eq_true', Bool.not_eq_true', ← Bool.not_eq_true,
      ← Bool.not_eq_true, h1, h2]
    norm_num only
    omega
  · rw [h1]
    unfold ieee_float_exponent
    norm_num only
    omega
  · rw [h2]
    unfold ieee_float_exponent
    norm_num only
    omega

theorem isfinite_float_fast_exact_witness :
    (isfinite_float_fast 0x7f7fffff = true ↔ ieee_float_is_finite 0x7f7fffff) ∧
    (isfinite_float_fast 0xffc00000 = true ↔ ieee_float_is_finite 0xffc00000) :=
  ⟨(isfinite_float_fast_exact 0x7f7fffff (by decide)).1,
   (isfinite_float_fast_exact 0xffc00000 (by decide)).1⟩

/-! ### Enumeration helpers -/

/-- C20: bounds-checked enum lookup.  For every array of length at least `nof_types` and
every `enum_val`, `enum_to_text` returns `array[enum_val]` when `enum_val < nof_types` and
the empty string otherwise, `enum_to_number` returns `array[enum_val]`, resp. `-1`; no
call reads the array at or past `nof_types` (the result is never the undefined `none`).
Hence `to_string` gives `"LTE"` for `lte`, `"NR"` for `nr` and `""` for `nulltype`. -/
theorem enum_lookup_bounds_checked (array : List String) (numbers : List Int)
    (nof_types enum_val : Nat) (h : nof_types ≤ array.length)
    (hn : nof_types ≤ numbers.length) :
    (enum_val < nof_types →
      enum_to_text array nof_types enum_val = array[enum_val]? ∧
      enum_to_number numbers nof_types enum_val = numbers[enum_val]?) ∧
    (nof_types ≤ enum_val →
      enum_to_text array nof_types enum_val = some "" ∧
      enum_to_number numbers nof_types enum_val = some (-1)) ∧
    ((enum_to_text array nof_types enum_val).isSome = true ∧
      (enum_to_number numbers nof_types enum_val).isSome = true) ∧
    (to_string .lte = some "LTE" ∧ to_string .nr = some "NR" ∧
      to_string .nulltype = some "") := by
  refine ⟨?_, ?_, ?_, rfl, rfl, rfl⟩
  · intro hlt
    unfold enum_to_text enum_to_number
    rw [if_neg (by omega), if_neg (by omega)]
    exact ⟨rfl, rfl⟩
  · intro hge
    unfold enum_to_text enum_to_number
    rw [if_pos hge, if_pos hge]
    exact ⟨rfl, rfl⟩
  · unfold enum_to_text enum_to_number
    by_cases hge : enum_val ≥ nof_types
    · rw [if_pos hge, if_pos hge]
      exact ⟨rfl, rfl⟩
    · rw [if_neg hge, if_neg hge]
      have h1 : enum_val < array.length := by omega
      have h2 : enum_val < numbers.length := by omega
      rw [List.getElem?_eq_getElem h1, List.getElem?_eq_getElem h2]
      exact ⟨rfl, rfl⟩

theorem enum_lookup_bounds_checked_witness :
    (enum_to_text ["LTE", "NR", "spare"] 2 1 = some "NR" ∧
      enum_to_number [(5 : Int), 10, 20] 2 1 = some 10) ∧
    (enum_to_text ["LTE", "NR", "spare"] 2 2 = some "" ∧
      enum_to_number [(5 : Int), 10, 20] 2 2 = some (-1)) :=
  ⟨(enum_lookup_bounds_checked ["LTE", "NR", "spare"] [5, 10, 20] 2 1 (by decide)
      (by decide)).1 (by decide),
   (enum_lookup_bounds_checked ["LTE", "NR", "spare"] [5, 10, 20] 2 2 (by decide)
      (by decide)).2.1 (by decide)⟩

/-! ### Textual form -/

theorem padDigits_length (k n : Nat) : (padDigits k n).length = k := by
  induction k generalizing n with
  | zero => rfl
  | succ k ih => simp [padDigits, ih]

theorem digitChar_toNat (d : Nat) : (digitChar d).toNat = 48 + d % 10 := by
  unfold digitChar
  have h : d % 10 < 10 := Nat.mod_lt _ (by norm_num)
  generalize d % 10 = r at h
  interval_cases r <;> rfl

theorem digitChar_isDigit (d : Nat) : (digitChar d).isDigit = true := by
  unfold digitChar
  have h : d % 10 < 10 := Nat.mod_lt _ (by norm_num)
  generalize d % 10 = r at h
  interval_cases r <;> rfl

theorem padDigits_isDigit (k n : Nat) : ∀ c ∈ padDigits k n, c.isDigit = true := by
  induction k generalizing n with
  | zero => intro c hc; simp [padDigits] at hc
  | succ k ih =>
    intro c hc
    simp only [padDigits, List.mem_append, List.mem_singleton] at hc
    rcases hc with hc | hc
    · exact ih _ c hc
    · rw [hc]; exact digitChar_isDigit n

theorem digitsValue_padDigits (k n : Nat) : digitsValue (padDigits k n) = n % 10 ^ k := by
  induction k generalizing n with
  | zero => simp [padDigits, digitsValue, Nat.mod_one]
  | succ k ih =>
    have h := ih (n / 10)
    unfold digitsValue at h ⊢
    rw [padDigits, List.foldl_append, h, List.foldl_cons, List.foldl_nil, digitChar_toNat,
      Nat.add_sub_cancel_left, pow_succ, Nat.mul_comm (10 ^ k) 10, Nat.mod_mul, Nat.add_comm]

/-- A binary64 value below `1` is at most `1 - 2^(-53)`. -/
theorem isDouble_lt_one (f : ℚ) (hd : isDouble f) (h0 : 0 ≤ f) (h1 : f < 1) :
    f ≤ 1 - 1 / 2 ^ 53 := by
  rcases lt_or_le f (1 / 2) with hlt | hge
  · have : (1 : ℚ) / 2 ≤ 1 - 1 / 2 ^ 53 := by norm_num
    linarith
  have hl : Int.log 2 |f| = -1 := by
    apply log2_eq
    · rw [abs_of_nonneg h0]; norm_num; linarith
    · rw [abs_of_nonneg h0]; norm_num; linarith
  have he : ulpExp f = -53 := by
    unfold ulpExp; rw [hl]; norm_num
  have hm := isDouble_multiple f hd
  rw [he] at hm
  generalize roundHalfEven (f / 2 ^ (-53 : ℤ)) = M at hm
  have hp : (2 : ℚ) ^ (-53 : ℤ) = 1 / 2 ^ 53 := by norm_num
  rw [hp] at hm
  have hM : (M : ℚ) < 2 ^ 53 := by
    rw [hm] at h1
    have : (M : ℚ) * (1 / 2 ^ 53) * 2 ^ 53 < 1 * 2 ^ 53 :=
      mul_lt_mul_of_pos_right h1 (by positivity)
    have e : (M : ℚ) * (1 / 2 ^ 53) * 2 ^ 53 = M := by field_simp
    rw [e] at this
    linarith
  have hM' : M ≤ 2 ^ 53 - 1 := by
    have : M < 2 ^ 53 := by exact_mod_cast hM
    omega
  have hM2 : (M : ℚ) ≤ 2 ^ 53 - 1 := by exact_mod_cast hM'
  rw [hm]
  have : (M : ℚ) * (1 / 2 ^ 53) ≤ (2 ^ 53 - 1) * (1 / 2 ^ 53) :=
    mul_le_mul_of_nonneg_right hM2 (by positivity)
  have e2 : ((2 : ℚ) ^ 53 - 1) * (1 / 2 ^ 53) = 1 - 1 / 2 ^ 53 := by norm_num
  linarith

theorem natDigitChar_isDigit (d : Nat) (h : d < 10) : (Nat.digitChar d).isDigit = true := by
  interval_cases d <;> rfl

theorem toDigitsCore_isDigit (fuel : Nat) : ∀ (n : Nat) (ds : List Char),
    (∀ c ∈ ds, c.isDigit = true) → ∀ c ∈ Nat.toDigitsCore 10 fuel n ds, c.isDigit = true := by
  induction fuel with
  | zero => intro n ds hds c hc; exact hds c hc
  | succ fuel ih =>
    intro n ds hds c hc
    have hd : (Nat.digitChar (n % 10)).isDigit = true :=
      natDigitChar_isDigit _ (Nat.mod_lt _ (by norm_num))
    have hcons : ∀ c ∈ Nat.digitChar (n % 10) :: ds, c.isDigit = true := by
      intro c hc
      rcases List.mem_cons.1 hc with h | h
      · rw [h]; exact hd
      · exact hds c h
    unfold Nat.toDigitsCore at hc
    by_cases h0 : n / 10 = 0
    · simp only [h0, if_true] at hc
      exact hcons c hc
    · simp only [h0, if_false] at hc
      exact ih _ _ hcons c hc

theorem toDigits_isDigit (n : Nat) : ∀ c ∈ Nat.toDigits 10 n, c.isDigit = true :=
  toDigitsCore_isDigit _ _ _ (by simp)

theorem fracUnits17_lt (f : ℚ) (hd : isDouble f) (h0 : 0 ≤ f) (h1 : f < 1) :
    fracUnits17 f < 10 ^ 17 ∧ |((fracUnits17 f : ℕ) : ℚ) / 10 ^ 17 - f| ≤ 1 / (2 * 10 ^ 17) := by
  have hle := isDouble_lt_one f hd h0 h1
  have hx : f * 10 ^ 17 < ((10 ^ 17 - 1 : ℤ) : ℚ) := by
    push_cast
    have : (1 - 1 / 2 ^ 53 : ℚ) * 10 ^ 17 < 10 ^ 17 - 1 := by norm_num
    nlinarith
  have hr := roundHalfEven_le_of_lt _ _ hx
  have hn := roundHalfEven_nonneg (f * 10 ^ 17) (by positivity)
  have herr := roundHalfEven_error (f * 10 ^ 17)
  unfold fracUnits17
  generalize roundHalfEven (f * 10 ^ 17) = R at hr hn herr
  obtain ⟨d, rfl⟩ := Int.eq_ofNat_of_zero_le hn
  rw [Int.toNat_ofNat]
  constructor
  · omega
  · have e : ((d : ℕ) : ℚ) / 10 ^ 17 - f = (((d : ℤ) : ℚ) - f * 10 ^ 17) / 10 ^ 17 := by
      push_cast; field_simp; ring
    rw [e, abs_div, abs_of_pos (by positivity : (0 : ℚ) < 10 ^ 17), div_le_iff₀ (by positivity)]
    calc |((d : ℤ) : ℚ) - f * 10 ^ 17| ≤ 1 / 2 := herr
      _ = 1 / (2 * 10 ^ 17) * 10 ^ 17 := by field_simp

/-- C13: stable textual format.  For every timestamp whose `frac_secs` is a binary64 value
with `0 ≤ frac_secs < 1`, `tostring` is the decimal rendering of `full_secs` (a `-` first
exactly when `full_secs` is negative, then digits), immediately followed by `.` and
exactly 17 decimal digits; the digits denote `frac_secs` rounded to 17 places, the
leading `0` of the fraction being dropped. -/
theorem tostring_format (ts : srsran_timestamp_t) (hd : isDouble ts.frac_secs)
    (h0 : 0 ≤ ts.frac_secs) (h1 : ts.frac_secs < 1) :
    tostring ts =
      String.mk (intDecimal ts.full_secs ++ '.' :: padDigits 17 (fracUnits17 ts.frac_secs)) ∧
    ((padDigits 17 (fracUnits17 ts.frac_secs)).length = 17 ∧
      (∀ c ∈ padDigits 17 (fracUnits17 ts.frac_secs), c.isDigit = true) ∧
      digitsValue (padDigits 17 (fracUnits17 ts.frac_secs)) = fracUnits17 ts.frac_secs ∧
      |((fracUnits17 ts.frac_secs : ℕ) : ℚ) / 10 ^ 17 - ts.frac_secs| ≤ 1 / (2 * 10 ^ 17)) ∧
    ((ts.full_secs < 0 → intDecimal ts.full_secs = '-' :: Nat.toDigits 10 ts.full_secs.natAbs) ∧
      (0 ≤ ts.full_secs → intDecimal ts.full_secs = Nat.toDigits 10 ts.full_secs.natAbs) ∧
      ∀ c ∈ Nat.toDigits 10 ts.full_secs.natAbs, c.isDigit = true) := by
  obtain ⟨hlt, herr⟩ := fracUnits17_lt ts.frac_secs hd h0 h1
  refine ⟨?_, ⟨padDigits_length _ _, padDigits_isDigit _ _, ?_, herr⟩, ?_, ?_,
    toDigits_isDigit _⟩
  · unfold tostring fixedDecimal
    rw [abs_of_nonneg h0]
    have hu : (roundHalfEven (ts.frac_secs * 10 ^ 17)).toNat = fracUnits17 ts.frac_secs := rfl
    simp only [hu]
    rw [Nat.div_eq_of_lt hlt, Nat.mod_eq_of_lt hlt]
    rfl
  · rw [digitsValue_padDigits, Nat.mod_eq_of_lt hlt]
  · intro h; unfold intDecimal; rw [if_pos h]
  · intro h; unfold intDecimal; rw [if_neg (by omega)]

theorem isDouble_quarter : isDouble (1 / 4) :=
  rnd64_of_multiple _ 1 (-2) (by norm_num) (by
    unfold ulpExp
    have : Int.log 2 |(1 / 4 : ℚ)| = -2 := by
      apply log2_eq <;> rw [abs_of_pos (by norm_num)] <;> norm_num
    rw [this]; norm_num)

theorem tostring_format_witness :
    tostring minusThreeQuarter = "-3.25000000000000000" := by
  have h := (tostring_format minusThreeQuarter isDouble_quarter
    (by simp only [minusThreeQuarter]; norm_num)
    (by simp only [minusThreeQuarter]; norm_num)).1
  have hu : fracUnits17 minusThreeQuarter.frac_secs = 25000000000000000 := by
    unfold fracUnits17
    have e : minusThreeQuarter.frac_secs * 10 ^ 17 = ((25000000000000000 : ℤ) : ℚ) := by
      simp only [minusThreeQuarter]; norm_num
    rw [e, roundHalfEven_intCast]
    rfl
  rw [h, hu]
  decide

/-! ### Time shifts -/

theorem isDouble_of_grid (x : ℚ) (hx : onGrid x) (hb : |x| < 2 ^ 32) : isDouble x := by
  obtain ⟨m, hm⟩ := hx
  apply rnd64_of_multiple x m (-20)
  · rw [hm]; norm_num; ring
  · unfold ulpExp
    rcases eq_or_ne x 0 with h0 | h0
    · rw [h0, abs_zero, Int.log_zero_right]; norm_num
    · have hl : Int.log 2 |x| < 32 :=
        (Int.lt_zpow_iff_log_lt (by norm_num) (abs_pos.2 h0)).1 (by
          have : ((2 : ℕ) : ℚ) ^ (32 : ℤ) = 2 ^ 32 := by norm_num
          rw [this]; exact hb)
      exact max_le (by omega) (by norm_num)

theorem onGrid_sub_int (x : ℚ) (z : ℤ) (hx : onGrid x) : onGrid (x - z) := by
  obtain ⟨m, hm⟩ := hx
  refine ⟨m - z * 2 ^ 20, ?_⟩
  rw [hm]; push_cast; field_simp; ring

theorem onGrid_add (x y : ℚ) (hx : onGrid x) (hy : onGrid y) : onGrid (x + y) := by
  obtain ⟨m, hm⟩ := hx
  obtain ⟨n, hn⟩ := hy
  refine ⟨m + n, ?_⟩
  rw [hm, hn]; push_cast; field_simp

theorem onGrid_neg (x : ℚ) (hx : onGrid x) : onGrid (-x) := by
  obtain ⟨m, hm⟩ := hx
  refine ⟨-m, ?_⟩
  rw [hm]; push_cast; field_simp

/-- On the grid, a shift followed by `fix` is exact: the seconds absorb the floor of the
shifted fraction. -/
theorem fix_shift_grid (F : ℤ) (x : ℚ) (hx : onGrid x) (hb : |x| < 2 ^ 31) :
    fix ⟨F, rnd64 x⟩ = ⟨F + ⌊x⌋, x - ⌊x⌋⟩ := by
  have hfl := Int.floor_le x
  have hlt := Int.lt_floor_add_one x
  have hd : isDouble x := isDouble_of_grid x hx (by linarith)
  have hr : rnd64 x = x := hd
  rw [hr, fix_eq ⟨F, x⟩ hd]
  have hd2 : isDouble (x - ⌊x⌋) :=
    isDouble_of_grid _ (onGrid_sub_int x _ hx) (by
      rw [abs_of_nonneg (by linarith)]
      have : (1 : ℚ) < 2 ^ 32 := by norm_num
      linarith)
  have hr2 : rnd64 (x - ⌊x⌋) = x - ⌊x⌋ := hd2
  simp only [hr2]

theorem ts_add_grid (ts : srsran_timestamp_t) (secs : ℚ)
    (h0 : 0 ≤ ts.frac_secs) (h1 : ts.frac_secs < 1) (hg : onGrid ts.frac_secs)
    (hs : onGrid secs) (hb : |secs| < 2 ^ 30) :
    srsran_timestamp_add ts 0 secs =
      ⟨ts.full_secs + ⌊ts.frac_secs + secs⌋,
        ts.frac_secs + secs - ⌊ts.frac_secs + secs⌋⟩ := by
  have hab : |ts.frac_secs + secs| < 2 ^ 31 := by
    have := abs_add ts.frac_secs secs
    rw [abs_of_nonneg h0] at this
    have : (1 : ℚ) + 2 ^ 30 < 2 ^ 31 := by norm_num
    linarith
  unfold srsran_timestamp_add
  rw [add_zero, fix_shift_grid _ _ (onGrid_add _ _ hg hs) hab]

theorem ts_add_sub_grid (ts : srsran_timestamp_t) (secs : ℚ)
    (h0 : 0 ≤ ts.frac_secs) (h1 : ts.frac_secs < 1) (hg : onGrid ts.frac_secs)
    (hs : onGrid secs) (hb : |secs| < 2 ^ 30) :
    srsran_timestamp_sub (srsran_timestamp_add ts 0 secs) 0 secs = ts := by
  have hfl := Int.floor_le (ts.frac_secs + secs)
  have hlt := Int.lt_floor_add_one (ts.frac_secs + secs)
  have hsl := (abs_lt.1 hb).1
  have hsu := (abs_lt.1 hb).2
  rw [ts_add_grid ts secs h0 h1 hg hs hb]
  unfold srsran_timestamp_sub
  dsimp only
  have hx : ts.frac_secs + secs - ⌊ts.frac_secs + secs⌋ - secs =
      ts.frac_secs - ⌊ts.frac_secs + secs⌋ := by ring
  have hfa : |((⌊ts.frac_secs + secs⌋ : ℤ) : ℚ)| < 2 ^ 30 + 2 := by
    rw [abs_lt]; constructor <;> linarith
  have hxb : |ts.frac_secs - ⌊ts.frac_secs + secs⌋| < 2 ^ 31 := by
    have := abs_sub ts.frac_secs (⌊ts.frac_secs + secs⌋ : ℚ)
    rw [abs_of_nonneg h0] at this
    have : (1 : ℚ) + (2 ^ 30 + 2) < 2 ^ 31 := by norm_num
    linarith
  rw [sub_zero, hx, fix_shift_grid _ _ (onGrid_sub_int _ _ hg) hxb]
  have hfloor : ⌊ts.frac_secs - (⌊ts.frac_secs + secs⌋ : ℚ)⌋ = -⌊ts.frac_secs + secs⌋ := by
    rw [Int.floor_eq_iff]; push_cast; constructor <;> linarith
  rw [hfloor]
  obtain ⟨F, f⟩ := ts
  simp

/-- C14, as stated, fails on `double` timestamps.  With one channel at `(0, 2^(-60))`,
`add(1)` rounds `2^(-60) + 1` to `1.0` and gives `(1, 0)`; `sub(1)` then gives `(0, 0)`,
not the original value.  And from the fresh set, `add(-2^(-60))` leaves the channel at
`(-1, 1.0)`, whose fraction is not below `1`. -/
theorem add_sub_not_exact :
    (0 ≤ (tinyChannel.get 0).frac_secs ∧ (tinyChannel.get 0).frac_secs < 1) ∧
    (tinyChannel.add srsran_timestamp_add 1).get 0 = ⟨1, 0⟩ ∧
    ((tinyChannel.add srsran_timestamp_add 1).sub srsran_timestamp_sub 1).get 0 = ⟨0, 0⟩ ∧
    ((tinyChannel.add srsran_timestamp_add 1).sub srsran_timestamp_sub 1).get 0 ≠
      tinyChannel.get 0 ∧
    ((rf_timestamp_t.init 1).add srsran_timestamp_add (-(1 / 2 ^ 60))).get 0 = ⟨-1, 1⟩ := by
  have hr1 : rnd64 (1 / 2 ^ 60 + 1) = 1 := by
    have hl : Int.log 2 |(1 / 2 ^ 60 + 1 : ℚ)| = 0 := by
      apply log2_eq <;> rw [abs_of_pos (by norm_num)] <;> norm_num
    have he : ulpExp (1 / 2 ^ 60 + 1 : ℚ) = -52 := by
      unfold ulpExp; rw [hl]; norm_num
    unfold rnd64
    rw [he, roundHalfEven_of _ (2 ^ 52)]
    · norm_num
    · norm_num
    · norm_num
  have hdm : isDouble (-1) :=
    rnd64_of_multiple (-1) (-1) 0 (by norm_num) (by
      unfold ulpExp
      have : Int.log 2 |(-1 : ℚ)| = 0 := by
        apply log2_eq <;> rw [abs_of_neg (by norm_num)] <;> norm_num
      rw [this]; norm_num)
  have hadd : srsran_timestamp_add ⟨0, 1 / 2 ^ 60⟩ 0 1 = ⟨1, 0⟩ := by
    unfold srsran_timestamp_add
    dsimp only
    rw [hr1, add_zero, fix_eq ⟨0, 1⟩ isDouble_one]
    simp [rnd64_zero]
  have hsub : srsran_timestamp_sub ⟨1, 0⟩ 0 1 = ⟨0, 0⟩ := by
    unfold srsran_timestamp_sub
    dsimp only
    have e : (0 : ℚ) - 1 = -1 := by norm_num
    have hr : rnd64 (-1) = -1 := hdm
    have hf : ⌊(-1 : ℚ)⌋ = -1 := by
      rw [Int.floor_eq_iff]; norm_num
    rw [e, hr, sub_zero, fix_eq ⟨1, -1⟩ hdm]
    dsimp only
    rw [hf]
    norm_num
    exact rnd64_zero
  have hneg : srsran_timestamp_add ⟨0, 0⟩ 0 (-(1 / 2 ^ 60)) = ⟨-1, 1⟩ := by
    unfold srsran_timestamp_add
    dsimp only
    simp only [zero_add, add_zero, rnd64_tiny]
    exact fix_tinyNegative
  have g1 : (tinyChannel.add srsran_timestamp_add 1).get 0 = ⟨1, 0⟩ := by
    simp only [rf_timestamp_t.get, rf_timestamp_t.add, tinyChannel]
    rw [dif_neg (by decide)]
    exact hadd
  have g2 : ((tinyChannel.add srsran_timestamp_add 1).sub srsran_timestamp_sub 1).get 0 =
      ⟨0, 0⟩ := by
    simp only [rf_timestamp_t.get, rf_timestamp_t.add, rf_timestamp_t.sub, tinyChannel]
    rw [dif_neg (by decide), hadd]
    exact hsub
  have g0 : tinyChannel.get 0 = ⟨0, 1 / 2 ^ 60⟩ := by
    simp only [rf_timestamp_t.get, tinyChannel]
    rw [dif_neg (by decide)]
  refine ⟨?_, g1, g2, ?_, ?_⟩
  · rw [g0]; norm_num
  · rw [g2, g0]
    intro h
    have := congrArg srsran_timestamp_t.frac_secs h
    norm_num at this
  · simp only [rf_timestamp_t.get, rf_timestamp_t.add, rf_timestamp_t.init,
      srsran_timestamp_t.zero]
    rw [dif_neg (by decide)]
    exact hneg

/-- The shift of `srsran_timestamp_add` moves the time by `secs`, up to the rounding of
the sum and of the normalisation. -/
theorem ts_add_sum_error (ts : srsran_timestamp_t) (secs : ℚ) :
    |(((srsran_timestamp_add ts 0 secs).full_secs : ℚ) +
        (srsran_timestamp_add ts 0 secs).frac_secs) -
      (ts.full_secs + ts.frac_secs + secs)| ≤
      |ts.frac_secs + secs| / 2 ^ 53 + 2 ^ (-1074 : ℤ) / 2 + 1 / 2 ^ 54 := by
  have h1 := fix_sum_error ⟨ts.full_secs + 0, rnd64 (ts.frac_secs + secs)⟩ (rnd64_idem _)
  have h2 := rnd64_error (ts.frac_secs + secs)
  unfold srsran_timestamp_add
  dsimp only at h1
  push_cast at h1
  rw [abs_le] at h1 h2 ⊢
  constructor <;> linarith [h1.1, h1.2, h2.1, h2.2]

theorem ts_sub_sum_error (ts : srsran_timestamp_t) (secs : ℚ) :
    |(((srsran_timestamp_sub ts 0 secs).full_secs : ℚ) +
        (srsran_timestamp_sub ts 0 secs).frac_secs) -
      (ts.full_secs + ts.frac_secs - secs)| ≤
      |ts.frac_secs - secs| / 2 ^ 53 + 2 ^ (-1074 : ℤ) / 2 + 1 / 2 ^ 54 := by
  have h1 := fix_sum_error ⟨ts.full_secs - 0, rnd64 (ts.frac_secs - secs)⟩ (rnd64_idem _)
  have h2 := rnd64_error (ts.frac_secs - secs)
  unfold srsran_timestamp_sub
  dsimp only at h1
  push_cast at h1
  rw [abs_le] at h1 h2 ⊢
  constructor <;> linarith [h1.1, h1.2, h2.1, h2.2]

theorem ts_add_frac_range (ts : srsran_timestamp_t) (secs : ℚ) :
    0 ≤ (srsran_timestamp_add ts 0 secs).frac_secs ∧
    (srsran_timestamp_add ts 0 secs).frac_secs ≤ 1 ∧
    (rnd64 (ts.frac_secs + secs) < -(1 / 2 ^ 54) ∨ 0 ≤ rnd64 (ts.frac_secs + secs) →
      (srsran_timestamp_add ts 0 secs).frac_secs < 1) := by
  have h := fix_frac_le_one ⟨ts.full_secs + 0, rnd64 (ts.frac_secs + secs)⟩ (rnd64_idem _)
  exact ⟨h.1, h.2, fun hns =>
    fix_frac_lt_one ⟨ts.full_secs + 0, rnd64 (ts.frac_secs + secs)⟩ (rnd64_idem _) hns⟩

/-- Round trip of one timestamp: the time is restored within `(|secs| + 2) * 2^(-52)`. -/
theorem ts_add_sub_error (ts : srsran_timestamp_t) (secs : ℚ)
    (h0 : 0 ≤ ts.frac_secs) (h1 : ts.frac_secs < 1) :
    |(((srsran_timestamp_sub (srsran_timestamp_add ts 0 secs) 0 secs).full_secs : ℚ) +
        (srsran_timestamp_sub (srsran_timestamp_add ts 0 secs) 0 secs).frac_secs) -
      (ts.full_secs + ts.frac_secs)| ≤ (|secs| + 2) / 2 ^ 52 := by
  have ha := ts_add_sum_error ts secs
  have hb := ts_sub_sum_error (srsran_timestamp_add ts 0 secs) secs
  obtain ⟨hr0, hr1, _⟩ := ts_add_frac_range ts secs
  generalize srsran_timestamp_add ts 0 secs = t1 at ha hb hr0 hr1
  have hx1 : |ts.frac_secs + secs| ≤ 1 + |secs| := by
    have := abs_add ts.frac_secs secs
    rw [abs_of_nonneg h0] at this
    linarith
  have hx2 : |t1.frac_secs - secs| ≤ 1 + |secs| := by
    have := abs_sub t1.frac_secs secs
    rw [abs_of_nonneg hr0] at this
    linarith
  have hc : (2 : ℚ) ^ (-1074 : ℤ) / 2 ≤ 1 / 2 ^ 55 := by
    have h : (2 : ℚ) ^ (-1074 : ℤ) ≤ 2 ^ (-54 : ℤ) :=
      zpow_le_zpow_right₀ (by norm_num) (by norm_num)
    have e : (2 : ℚ) ^ (-54 : ℤ) = 2 * (1 / 2 ^ 55) := by norm_num
    linarith
  have hd1 : |ts.frac_secs + secs| / 2 ^ 53 ≤ (1 + |secs|) / 2 ^ 53 :=
    div_le_div_of_nonneg_right hx1 (by positivity)
  have hd2 : |t1.frac_secs - secs| / 2 ^ 53 ≤ (1 + |secs|) / 2 ^ 53 :=
    div_le_div_of_nonneg_right hx2 (by positivity)
  have hfin : (1 + |secs|) / 2 ^ 53 + 1 / 2 ^ 55 + 1 / 2 ^ 54 +
      ((1 + |secs|) / 2 ^ 53 + 1 / 2 ^ 55 + 1 / 2 ^ 54) ≤ (|secs| + 2) / 2 ^ 52 := by
    have := abs_nonneg secs
    rw [div_add_div _ _ (by positivity) (by positivity)]
    norm_num
    linarith
  rw [abs_le] at ha hb ⊢
  constructor <;> linarith [ha.1, ha.2, hb.1, hb.2]

/-- C14, amended: shift round trip on the timestamp set, on `double` arithmetic.  For
every `rf_timestamp_t` state whose channels are normalised and every `secs`, positive or
negative, `add(secs)` followed by `sub(secs)` restores, for every `idx`, the time
`full_secs + frac_secs` of `get(idx)` within `(|secs| + 2) * 2^(-52)`; after `add(secs)`
alone every channel holds the original time plus `secs` within `(|secs| + 2) * 2^(-53)`,
and satisfies `0 ≤ frac_secs < 1` unless the shifted fraction, as a binary64 value, lies
in `[-2^(-54), 0)`, where `fix` slips (C5).  When `secs` and every channel's `frac_secs`
are multiples of `2^(-20)` and `|secs| < 2^30` nothing is rounded and the round trip
restores `get(idx)` itself. -/
theorem add_sub_round_trip {N : Nat} (s : rf_timestamp_t N) (secs : ℚ)
    (hs : ∀ i, 0 ≤ (s.timestamps i).frac_secs ∧ (s.timestamps i).frac_secs < 1) :
    (∀ idx : Nat,
      |((((s.add srsran_timestamp_add secs).sub srsran_timestamp_sub secs).get idx).full_secs +
          (((s.add srsran_timestamp_add secs).sub srsran_timestamp_sub secs).get idx).frac_secs) -
        (((s.get idx).full_secs : ℚ) + (s.get idx).frac_secs)| ≤ (|secs| + 2) / 2 ^ 52) ∧
    (∀ i,
      |((((s.add srsran_timestamp_add secs).timestamps i).full_secs : ℚ) +
          ((s.add srsran_timestamp_add secs).timestamps i).frac_secs) -
        ((s.timestamps i).full_secs + (s.timestamps i).frac_secs + secs)| ≤
        (|secs| + 2) / 2 ^ 53) ∧
    (∀ i, (rnd64 ((s.timestamps i).frac_secs + secs) < -(1 / 2 ^ 54) ∨
        0 ≤ rnd64 ((s.timestamps i).frac_secs + secs)) →
      0 ≤ ((s.add srsran_timestamp_add secs).timestamps i).frac_secs ∧
      ((s.add srsran_timestamp_add secs).timestamps i).frac_secs < 1) ∧
    ((onGrid secs ∧ |secs| < 2 ^ 30 ∧ ∀ i, onGrid (s.timestamps i).frac_secs) →
      ∀ idx : Nat,
        ((s.add srsran_timestamp_add secs).sub srsran_timestamp_sub secs).get idx =
          s.get idx) := by
  refine ⟨?_, ?_, ?_, ?_⟩
  · intro idx
    unfold rf_timestamp_t.get
    by_cases h : idx ≥ N
    · rw [dif_pos h, dif_pos h]
      have e : ((s.add srsran_timestamp_add secs).sub srsran_timestamp_sub secs).default_ts =
          s.default_ts := rfl
      rw [e, sub_self, abs_zero]
      have := abs_nonneg secs
      positivity
    · rw [dif_neg h, dif_neg h]
      obtain ⟨h0, h1⟩ := hs ⟨idx, Nat.lt_of_not_ge h⟩
      exact ts_add_sub_error _ secs h0 h1
  · intro i
    obtain ⟨h0, h1⟩ := hs i
    have e : (s.add srsran_timestamp_add secs).timestamps i =
        srsran_timestamp_add (s.timestamps i) 0 secs := rfl
    rw [e]
    have ha := ts_add_sum_error (s.timestamps i) secs
    have hx1 : |(s.timestamps i).frac_secs + secs| ≤ 1 + |secs| := by
      have := abs_add (s.timestamps i).frac_secs secs
      rw [abs_of_nonneg h0] at this
      linarith
    have hc : (2 : ℚ) ^ (-1074 : ℤ) / 2 ≤ 1 / 2 ^ 55 := by
      have h : (2 : ℚ) ^ (-1074 : ℤ) ≤ 2 ^ (-54 : ℤ) :=
        zpow_le_zpow_right₀ (by norm_num) (by norm_num)
      have e : (2 : ℚ) ^ (-54 : ℤ) = 2 * (1 / 2 ^ 55) := by norm_num
      linarith
    have hd1 : |(s.timestamps i).frac_secs + secs| / 2 ^ 53 ≤ (1 + |secs|) / 2 ^ 53 :=
      div_le_div_of_nonneg_right hx1 (by positivity)
    have hfin : (1 + |secs|) / 2 ^ 53 + 1 / 2 ^ 55 + 1 / 2 ^ 54 ≤ (|secs| + 2) / 2 ^ 53 := by
      have := abs_nonneg secs
      rw [div_add_div _ _ (by positivity) (by positivity),
        div_add_div _ _ (by positivity) (by positivity)]
      rw [div_le_div_iff₀ (by positivity) (by positivity)]
      norm_num
      linarith
    exact le_trans ha (by linarith)
  · intro i hns
    have e : (s.add srsran_timestamp_add secs).timestamps i =
        srsran_timestamp_add (s.timestamps i) 0 secs := rfl
    rw [e]
    obtain ⟨hr0, _, hr1⟩ := ts_add_frac_range (s.timestamps i) secs
    exact ⟨hr0, hr1 hns⟩
  · rintro ⟨hg, hb, hgi⟩ idx
    unfold rf_timestamp_t.get
    by_cases h : idx ≥ N
    · rw [dif_pos h, dif_pos h]
      rfl
    · rw [dif_neg h, dif_neg h]
      obtain ⟨h0, h1⟩ := hs ⟨idx, Nat.lt_of_not_ge h⟩
      exact ts_add_sub_grid _ secs h0 h1 (hgi _) hg hb

theorem add_sub_round_trip_witness :
    (∀ idx : Nat,
      |((((tinyChannel.add srsran_timestamp_add 1).sub srsran_timestamp_sub 1).get idx).full_secs +
          (((tinyChannel.add srsran_timestamp_add 1).sub srsran_timestamp_sub 1).get idx).frac_secs) -
        (((tinyChannel.get idx).full_secs : ℚ) + (tinyChannel.get idx).frac_secs)| ≤
        (|(1 : ℚ)| + 2) / 2 ^ 52) ∧
    (∀ i,
      |((((tinyChannel.add srsran_timestamp_add 1).timestamps i).full_secs : ℚ) +
          ((tinyChannel.add srsran_timestamp_add 1).timestamps i).frac_secs) -
        ((tinyChannel.timestamps i).full_secs + (tinyChannel.timestamps i).frac_secs + 1)| ≤
        (|(1 : ℚ)| + 2) / 2 ^ 53) :=
  ⟨(add_sub_round_trip tinyChannel 1 (fun _ => ⟨by simp only [tinyChannel]; norm_num,
      by simp only [tinyChannel]; norm_num⟩)).1,
   (add_sub_round_trip tinyChannel 1 (fun _ => ⟨by simp only [tinyChannel]; norm_num,
      by simp only [tinyChannel]; norm_num⟩)).2.1⟩

end Srsran
